import Mathlib

/-!
# CustomMemoryResource and DynamicArray

A shallow embedding of `include/custom_memory_resource.h` and
`include/dynamic_array.h`.

* Addresses are natural numbers, `0` is `nullptr`.
* `size_t` is 64 bits wide; every `size_t` computation of the source that can
  wrap is written with an explicit `% SIZE_MOD`.
* A call either returns, throws, or has undefined behaviour (`Outcome`).
* `::operator new` is the environment: its answer is an argument of
  `do_allocate`.
* `verbose_` only selects console output and is left out.
* An element type is described twice: `Element` is an element type whose
  constructors and destructor leave the allocator of the array alone (`int`, a
  struct of a `std::string` and an `int`), and the members of `DynamicArray`
  over it do not thread the memory resource through the element calls;
  `Aware.Element` is an element type that may use the allocator, as
  uses-allocator construction through `std::pmr::polymorphic_allocator` allows
  (`std::pmr::string`), and the members in `Aware` (`reserve`, `push_back`,
  `pop_back`, `clear`) pass the memory resource through every `construct` and
  `destroy`. `Element.to_aware` embeds the first in the second, and there the
  members agree.
-/

namespace Lab5

/-- Number of values of `size_t`. -/
def SIZE_MOD : Nat := 2 ^ 64

/-- Largest value of `size_t`. -/
def SIZE_MAX : Nat := SIZE_MOD - 1

/-- The exceptions the two headers can raise or let through;
`constructor_failed` stands for whatever a constructor of the element type
throws. -/
inductive Exception where
  | bad_alloc
  | bad_array_new_length
  | out_of_range
  | constructor_failed
  deriving DecidableEq, Repr

/-- Result of a call on a state of type `σ` returning an `α`: a normal return
with the new state, an exception leaving with the state it leaves behind, or
undefined behaviour. -/
inductive Outcome (σ α : Type) where
  | ok (state : σ) (value : α)
  | throws (state : σ) (e : Exception)
  | undefined
  deriving DecidableEq, Repr

/-- `struct MemoryBlock` of `CustomMemoryResource`. -/
structure MemoryBlock where
  ptr : Nat := 0
  size : Nat := 0
  alignment : Nat := 0
  free : Bool := false
  deriving DecidableEq, Repr

/-- Data members of `class CustomMemoryResource`. -/
structure CustomMemoryResource where
  allocated_blocks_ : List MemoryBlock := []
  total_allocated_bytes_ : Nat := 0
  total_deallocated_bytes_ : Nat := 0
  deriving DecidableEq, Repr

/-- `std::find_if` over the block list: position and block of the first block
satisfying `pred`, `none` for `end()`. -/
def find_if (pred : MemoryBlock → Bool) : List MemoryBlock → Option (Nat × MemoryBlock)
  | [] => none
  | block :: rest =>
    if pred block then some (0, block)
    else
      match find_if pred rest with
      | some (it, b) => some (it + 1, b)
      | none => none

/-- The assignment `it->free = v` for the iterator at position `it`. -/
def assign_free (v : Bool) : List MemoryBlock → Nat → List MemoryBlock
  | [], _ => []
  | block :: rest, 0 => { block with free := v } :: rest
  | block :: rest, it + 1 => block :: assign_free v rest it

namespace CustomMemoryResource

/-- The lambda of `do_allocate`:
`block.free && block.size >= bytes && block.alignment == alignment`. -/
def reusable (bytes alignment : Nat) (block : MemoryBlock) : Bool :=
  block.free && decide (block.size ≥ bytes) && decide (block.alignment = alignment)

/-- `do_allocate(bytes, alignment)`. `heap` is what
`::operator new(bytes, std::align_val_t(alignment))` answers if it is called:
`some ptr` for the new region, `none` for `std::bad_alloc`. -/
def do_allocate (mr : CustomMemoryResource) (bytes alignment : Nat) (heap : Option Nat) :
    Outcome CustomMemoryResource Nat :=
  match find_if (reusable bytes alignment) mr.allocated_blocks_ with
  | some (it, block) =>
    .ok { mr with allocated_blocks_ := assign_free false mr.allocated_blocks_ it } block.ptr
  | none =>
    match heap with
    | none => .throws mr .bad_alloc
    | some ptr =>
      .ok { mr with
            allocated_blocks_ :=
              mr.allocated_blocks_ ++ [{ ptr := ptr, size := bytes, alignment := alignment, free := false }]
            total_allocated_bytes_ := (mr.total_allocated_bytes_ + bytes) % SIZE_MOD } ptr

/-- `do_deallocate(ptr, bytes, alignment)`. -/
def do_deallocate (mr : CustomMemoryResource) (ptr bytes _alignment : Nat) :
    CustomMemoryResource :=
  match find_if (fun block => decide (block.ptr = ptr)) mr.allocated_blocks_ with
  | some (it, _) =>
    { mr with
      allocated_blocks_ := assign_free true mr.allocated_blocks_ it
      total_deallocated_bytes_ := (mr.total_deallocated_bytes_ + bytes) % SIZE_MOD }
  | none => mr

/-- `get_allocated_blocks_count()`. -/
def get_allocated_blocks_count (mr : CustomMemoryResource) : Nat :=
  mr.allocated_blocks_.countP (fun block => !block.free)

/-- `get_free_blocks_count()`. -/
def get_free_blocks_count (mr : CustomMemoryResource) : Nat :=
  mr.allocated_blocks_.countP (fun block => block.free)

/-- `get_total_allocated_bytes()`. -/
def get_total_allocated_bytes (mr : CustomMemoryResource) : Nat :=
  mr.total_allocated_bytes_

/-- `get_total_deallocated_bytes()`. -/
def get_total_deallocated_bytes (mr : CustomMemoryResource) : Nat :=
  mr.total_deallocated_bytes_

end CustomMemoryResource

/-! ## Sequences of calls on one allocator -/

/-- A call of the public interface of the allocator. For `allocate`, `heap` is
the answer `::operator new` has ready for this call. -/
inductive Call where
  | allocate (bytes alignment : Nat) (heap : Option Nat)
  | deallocate (ptr bytes alignment : Nat)
  deriving DecidableEq, Repr

/-- The system heap behaves: a region it hands out is not null and is not one
of the regions the allocator still holds (the allocator gives nothing back
before its destructor runs, so every tracked block is still outstanding). -/
def heap_fresh (mr : CustomMemoryResource) : Option Nat → Bool
  | none => true
  | some p => p != 0 && mr.allocated_blocks_.all (fun block => block.ptr != p)

/-- An allocator together with the addresses `allocate` has returned so far,
oldest first. -/
structure Session where
  mr : CustomMemoryResource := {}
  returned : List Nat := []
  deriving DecidableEq, Repr

/-- Perform one call. -/
def Session.call (s : Session) : Call → Session
  | .allocate bytes alignment heap =>
    match s.mr.do_allocate bytes alignment heap with
    | .ok mr p => { mr := mr, returned := s.returned ++ [p] }
    | .throws mr _ => { s with mr := mr }
    | .undefined => s
  | .deallocate ptr bytes alignment =>
    { s with mr := s.mr.do_deallocate ptr bytes alignment }

/-- Perform the calls from left to right. -/
def Session.run (s : Session) : List Call → Session
  | [] => s
  | c :: cs => (s.call c).run cs

/-- The heap behaves at every `allocate` of the sequence. -/
def Session.heap_respected (s : Session) : List Call → Bool
  | [] => true
  | c :: cs =>
    (match c with
      | .allocate _ _ heap => heap_fresh s.mr heap
      | .deallocate _ _ _ => true) && (s.call c).heap_respected cs

/-- States of the allocator reachable from a newly constructed one by calls of
`allocate` and `deallocate`, with a heap that behaves. -/
def Reachable (mr : CustomMemoryResource) : Prop :=
  ∃ calls : List Call, Session.heap_respected {} calls = true ∧ (Session.run {} calls).mr = mr

/-- Some tracked block has address `p` and is free. -/
def block_free_at (mr : CustomMemoryResource) (p : Nat) : Prop :=
  ∃ b ∈ mr.allocated_blocks_, b.ptr = p ∧ b.free = true

/-- A registry with one block in use and three free ones, two of which can
serve a request for 48 bytes at alignment 8. -/
def two_candidates : CustomMemoryResource :=
  { allocated_blocks_ :=
      [{ ptr := 8, size := 64, alignment := 8, free := false },
       { ptr := 16, size := 64, alignment := 8, free := true },
       { ptr := 24, size := 32, alignment := 8, free := true },
       { ptr := 32, size := 64, alignment := 8, free := true }]
    total_allocated_bytes_ := 224
    total_deallocated_bytes_ := 160 }

/-- The registry of the `DifferentSizes` test before its second request: one
free block of 10 bytes. -/
def small_free_block : CustomMemoryResource :=
  { allocated_blocks_ := [{ ptr := 4096, size := 10, alignment := 16, free := true }]
    total_allocated_bytes_ := 10
    total_deallocated_bytes_ := 10 }

/-- A registry of three blocks; the one at address 16 was requested with
(100, 16) and is in use. -/
def three_blocks : CustomMemoryResource :=
  { allocated_blocks_ :=
      [{ ptr := 8, size := 64, alignment := 8, free := false },
       { ptr := 16, size := 100, alignment := 16, free := false },
       { ptr := 24, size := 32, alignment := 8, free := true }]
    total_allocated_bytes_ := 196
    total_deallocated_bytes_ := 32 }

/-- Addresses of the tracked blocks, in registry order. -/
def CustomMemoryResource.addresses (mr : CustomMemoryResource) : List Nat :=
  mr.allocated_blocks_.map (fun block => block.ptr)

/-- Registry invariant: the tracked addresses are pairwise distinct and none is
null. -/
def CustomMemoryResource.WellFormed (mr : CustomMemoryResource) : Prop :=
  mr.addresses.Nodup ∧ 0 ∉ mr.addresses

/-- Session invariant: the registry is well formed and the addresses returned
so far are exactly the tracked ones. -/
def Session.Inv (s : Session) : Prop :=
  s.mr.WellFormed ∧ ∀ p, p ∈ s.returned ↔ p ∈ s.mr.addresses

/-- The calls of a session that requests three blocks, hands the second back,
requests it again (a reuse), requests a fourth block, hands back an address that
was never tracked, hands back the first block and fails on a last request. -/
def sample_calls : List Call :=
  [.allocate 50 16 (some 4096), .allocate 100 16 (some 8192), .allocate 150 16 (some 12288),
   .deallocate 8192 100 16, .allocate 100 16 (some 16384), .allocate 100 16 (some 16384),
   .deallocate 77 1 1, .deallocate 4096 50 16, .allocate 200 16 none]

/-! ## DynamicArray -/

/-- What the element type `T` contributes: `sizeof(T)` (at least 1 for every
C++ type), `alignof(T)` and its constructors. A constructor maps its argument to the object it builds, `none`
when it throws. This is an element type whose constructors and destructor leave
the allocator of the array alone; `Aware.Element` describes an element type
that takes its own memory from `allocator_`. -/
structure Element (T : Type) where
  sizeof : Nat
  sizeof_pos : 0 < sizeof
  alignof : Nat
  copy_ctor : T → Option T
  move_ctor : T → Option T
  default_ctor : Option T

/-- An element type with value semantics: copying and moving cannot throw and
build an object equal to their argument. -/
def Element.ValueType {T : Type} (E : Element T) : Prop :=
  (∀ x, E.copy_ctor x = some x) ∧ (∀ x, E.move_ctor x = some x)

/-- The system heap as the arrays see it: the answer of
`::operator new(bytes, alignment)` when the allocator's registry is `mr`
(`none`: `std::bad_alloc`). -/
abbrev SystemHeap := CustomMemoryResource → Nat → Nat → Option Nat

/-- The heap never hands out a region that is null or still tracked. -/
def SystemHeap.Fresh (sys : SystemHeap) : Prop :=
  ∀ mr bytes alignment, heap_fresh mr (sys mr bytes alignment) = true

/-- The heap never runs out of memory. -/
def SystemHeap.Unlimited (sys : SystemHeap) : Prop :=
  ∀ mr bytes alignment, sys mr bytes alignment ≠ none

/-- The objects alive in raw memory: `objects p i` is the object in slot `i` of
the region that starts at address `p`, `none` when no object lives there. -/
abbrev Objects (T : Type) := Nat → Nat → Option T

/-- Placement construction of `v` in slot `i` of region `p`. -/
def Objects.construct {T : Type} (objs : Objects T) (p i : Nat) (v : T) : Objects T :=
  fun q j => if q = p ∧ j = i then some v else objs q j

/-- Destruction of the object in slot `i` of region `p`. -/
def Objects.destroy {T : Type} (objs : Objects T) (p i : Nat) : Objects T :=
  fun q j => if q = p ∧ j = i then none else objs q j

/-- Everything an array operation can touch besides the array's own data
members: the memory resource behind `allocator_` and the objects in memory. -/
structure World (T : Type) where
  mr : CustomMemoryResource
  objects : Objects T

/-- Data members of `DynamicArray<T>` (`allocator_` refers to `World.mr`). -/
structure DynamicArray where
  data_ : Nat := 0
  size_ : Nat := 0
  capacity_ : Nat := 0
  deriving DecidableEq, Repr

/-- `std::pmr::polymorphic_allocator<T>::allocate(n)` on the memory resource. -/
def allocator_allocate {T : Type} (E : Element T) (sys : SystemHeap)
    (mr : CustomMemoryResource) (n : Nat) : Outcome CustomMemoryResource Nat :=
  if n > SIZE_MAX / E.sizeof then .throws mr .bad_array_new_length
  else mr.do_allocate (n * E.sizeof) E.alignof (sys mr (n * E.sizeof) E.alignof)

/-- `std::pmr::polymorphic_allocator<T>::deallocate(p, n)` on the memory
resource. -/
def allocator_deallocate {T : Type} (E : Element T) (mr : CustomMemoryResource)
    (p n : Nat) : CustomMemoryResource :=
  mr.do_deallocate p ((n * E.sizeof) % SIZE_MOD) E.alignof

namespace DynamicArray

/-- `explicit DynamicArray(std::pmr::memory_resource *mr)`. -/
def new : DynamicArray := { data_ := 0, size_ := 0, capacity_ := 0 }

/-- `size()`. -/
def size (a : DynamicArray) : Nat := a.size_

/-- `capacity()`. -/
def capacity (a : DynamicArray) : Nat := a.capacity_

/-- `empty()`. -/
def empty (a : DynamicArray) : Bool := a.size_ == 0

/-- `operator[](index)`: the object at `data_[index]`; `none` when no object
lives there (undefined behaviour). -/
def index {T : Type} (a : DynamicArray) (w : World T) (i : Nat) : Option T :=
  w.objects a.data_ i

/-- The slots `data_[0]`, ..., `data_[size_ - 1]`. -/
def elements {T : Type} (a : DynamicArray) (w : World T) : List (Option T) :=
  (List.range a.size_).map (fun i => w.objects a.data_ i)

/-- The loop of `reserve`, with `remaining` iterations to go from index `i`:
`construct(new_data + i, std::move(data_[i])); destroy(data_ + i)`.
Reading a slot without an object, or constructing past the `new_capacity`
slots of the new region, is undefined behaviour. -/
def move_elements {T : Type} (E : Element T) (data_ new_data new_capacity : Nat) :
    Nat → Nat → Objects T → Outcome (Objects T) Unit
  | 0, _, objs => .ok objs ()
  | remaining + 1, i, objs =>
    match objs data_ i with
    | none => .undefined
    | some x =>
      if i < new_capacity then
        match E.move_ctor x with
        | none => .throws objs .constructor_failed
        | some y =>
          move_elements E data_ new_data new_capacity remaining (i + 1)
            ((objs.construct new_data i y).destroy data_ i)
      else .undefined

/-- `reserve(new_capacity)`. -/
def reserve {T : Type} (E : Element T) (sys : SystemHeap) (a : DynamicArray) (w : World T)
    (new_capacity : Nat) : Outcome (World T × DynamicArray) Unit :=
  if new_capacity ≤ a.capacity_ then .ok (w, a) ()
  else
    match allocator_allocate E sys w.mr new_capacity with
    | .undefined => .undefined
    | .throws mr e => .throws ({ w with mr := mr }, a) e
    | .ok mr new_data =>
      match move_elements E a.data_ new_data new_capacity a.size_ 0 w.objects with
      | .undefined => .undefined
      | .throws objs e => .throws ({ mr := mr, objects := objs }, a) e
      | .ok objs _ =>
        .ok ({ mr := if a.data_ ≠ 0 then allocator_deallocate E mr a.data_ a.capacity_ else mr
               objects := objs },
             { a with data_ := new_data, capacity_ := new_capacity }) ()

/-- The common head of `push_back` and `emplace_back`:
`if (size_ == capacity_) reserve(capacity_ == 0 ? 1 : capacity_ * 2);`. -/
def grow_if_full {T : Type} (E : Element T) (sys : SystemHeap) (a : DynamicArray)
    (w : World T) : Outcome (World T × DynamicArray) Unit :=
  if a.size_ = a.capacity_ then
    a.reserve E sys w (if a.capacity_ = 0 then 1 else (a.capacity_ * 2) % SIZE_MOD)
  else .ok (w, a) ()

/-- The common tail of `push_back` and `emplace_back`:
`construct(allocator_, data_ + size_, ...); ++size_;` where `built` is the
object the constructor builds (`none`: it throws). Constructing past the
`capacity_` slots of the storage is undefined behaviour. The constructor leaves
the allocator alone (`Element`); `Aware.construct_at_end` is the same code for a
constructor that may use it. -/
def construct_at_end {T : Type} (a : DynamicArray) (w : World T) (built : Option T) :
    Outcome (World T × DynamicArray) Unit :=
  if a.size_ < a.capacity_ then
    match built with
    | none => .throws (w, a) .constructor_failed
    | some x =>
      .ok ({ w with objects := w.objects.construct a.data_ a.size_ x },
           { a with size_ := (a.size_ + 1) % SIZE_MOD }) ()
  else .undefined

/-- `push_back(const T &value)`; `value` is an object outside the array's own
storage. -/
def push_back {T : Type} (E : Element T) (sys : SystemHeap) (a : DynamicArray) (w : World T)
    (value : T) : Outcome (World T × DynamicArray) Unit :=
  match a.grow_if_full E sys w with
  | .undefined => .undefined
  | .throws s e => .throws s e
  | .ok (w1, a1) _ => a1.construct_at_end w1 (E.copy_ctor value)

/-- `push_back(T &&value)`; `value` is an object outside the array's own
storage. -/
def push_back_rvalue {T : Type} (E : Element T) (sys : SystemHeap) (a : DynamicArray)
    (w : World T) (value : T) : Outcome (World T × DynamicArray) Unit :=
  match a.grow_if_full E sys w with
  | .undefined => .undefined
  | .throws s e => .throws s e
  | .ok (w1, a1) _ => a1.construct_at_end w1 (E.move_ctor value)

/-- `emplace_back(args...)`; `built` is the object `T(args...)` builds (`none`:
the constructor throws). Returns the reference `data_[size_ - 1]` as the pair
of region and slot. -/
def emplace_back {T : Type} (E : Element T) (sys : SystemHeap) (a : DynamicArray)
    (w : World T) (built : Option T) : Outcome (World T × DynamicArray) (Nat × Nat) :=
  match a.grow_if_full E sys w with
  | .undefined => .undefined
  | .throws s e => .throws s e
  | .ok (w1, a1) _ =>
    match a1.construct_at_end w1 built with
    | .undefined => .undefined
    | .throws s e => .throws s e
    | .ok (w2, a2) _ => .ok (w2, a2) (a2.data_, a2.size_ - 1)

/-- Calls `push_back` for the values of `vs` from left to right; stops at the
first call that does not return. -/
def push_back_all {T : Type} (E : Element T) (sys : SystemHeap) (a : DynamicArray)
    (w : World T) : List T → Outcome (World T × DynamicArray) Unit
  | [] => .ok (w, a) ()
  | v :: vs =>
    match a.push_back E sys w v with
    | .undefined => .undefined
    | .throws s e => .throws s e
    | .ok (w1, a1) _ => push_back_all E sys a1 w1 vs

/-- Representation invariant of an array in its world: the registry is well
formed, the data members are `size_t` values with `size_ <= capacity_`, an array
without capacity has no storage, an array with capacity has as storage a tracked
block that is in use, and the slots below `size_` hold objects. -/
def Valid {T : Type} (a : DynamicArray) (w : World T) : Prop :=
  w.mr.WellFormed ∧ a.size_ ≤ a.capacity_ ∧ a.capacity_ < SIZE_MOD ∧
  (a.capacity_ = 0 → a.data_ = 0) ∧
  (a.capacity_ ≠ 0 → ∃ b ∈ w.mr.allocated_blocks_, b.ptr = a.data_ ∧ b.free = false) ∧
  (∀ i, i < a.size_ → (w.objects a.data_ i).isSome = true)

end DynamicArray

/-- The element type `int`. -/
def int_element : Element Int :=
  { sizeof := 4, sizeof_pos := by decide, alignof := 4, copy_ctor := some, move_ctor := some,
    default_ctor := some 0 }

/-- A heap with unlimited memory that places each new region behind all the
tracked ones. -/
def bump_heap : SystemHeap :=
  fun mr _ _ => some (mr.addresses.sum + 16)

/-- A newly constructed allocator and no objects anywhere. -/
def World.initial (T : Type) : World T :=
  { mr := {}, objects := fun _ _ => none }

/-- The capacity `push_back` and `emplace_back` ask for when the array is full,
as a number: 1 for an array without capacity, otherwise twice the capacity. -/
def DynamicArray.grown_capacity (a : DynamicArray) : Nat :=
  if a.capacity_ = 0 then 1 else 2 * a.capacity_

/-- The array `a'` in the world `w'` is the array `a`, whose elements were `xs`,
with `v` appended: the elements are `xs` followed by `v`, the length is one more,
and the capacity is the old one if there was room, 1 if the array had no
capacity, and twice the old one if the array was full. -/
def DynamicArray.Appended {T : Type} (a : DynamicArray) (xs : List T) (v : T)
    (a' : DynamicArray) (w' : World T) : Prop :=
  a'.elements w' = (xs ++ [v]).map some ∧
  a'.size_ = a.size_ + 1 ∧
  (a.size_ < a.capacity_ → a'.capacity_ = a.capacity_) ∧
  (a.size_ = a.capacity_ → a.capacity_ = 0 → a'.capacity_ = 1) ∧
  (a.size_ = a.capacity_ → 0 < a.capacity_ → a'.capacity_ = 2 * a.capacity_)

/-- A world with one `int` array in it: the allocator tracks the array's block
(at address 16) and a free block, and the array's only slot holds 7. -/
def one_int_world : World Int :=
  { mr :=
      { allocated_blocks_ :=
          [{ ptr := 16, size := 4, alignment := 4, free := false },
           { ptr := 48, size := 4, alignment := 4, free := true }]
        total_allocated_bytes_ := 8
        total_deallocated_bytes_ := 4 }
    objects := fun p i => if p = 16 ∧ i = 0 then some 7 else none }

/-- The full array `[7]` of `one_int_world`. -/
def one_int_array : DynamicArray := { data_ := 16, size_ := 1, capacity_ := 1 }

/-! ## DynamicArray: the other members -/

namespace DynamicArray

/-- `at(index)`: throws `std::out_of_range` when `index >= size_`, otherwise
returns `data_[index]`, given as what `operator[]` gives for that index. -/
def at_ {T : Type} (a : DynamicArray) (w : World T) (index : Nat) :
    Outcome (World T × DynamicArray) (Option T) :=
  if index ≥ a.size_ then .throws (w, a) .out_of_range
  else .ok (w, a) (w.objects a.data_ index)

/-- The assignment `arr[index] = value` through the reference `operator[]`
returns; `none` when no object lives in the slot (undefined behaviour). -/
def index_assign {T : Type} (a : DynamicArray) (w : World T) (i : Nat) (value : T) :
    Option (World T) :=
  match w.objects a.data_ i with
  | none => none
  | some _ => some { w with objects := w.objects.construct a.data_ i value }

/-- `pop_back()` for an element type whose destructor leaves the allocator
alone; `Aware.pop_back` is the member for a destructor that may use it. -/
def pop_back {T : Type} (a : DynamicArray) (w : World T) : World T × DynamicArray :=
  if a.size_ > 0 then
    ({ w with objects := w.objects.destroy a.data_ (a.size_ - 1) },
     { a with size_ := a.size_ - 1 })
  else (w, a)

/-- A loop `for (...; i < last; ++i) destroy(data_ + i)` with `remaining`
iterations to go from index `i`. -/
def destroy_elements {T : Type} (data_ : Nat) : Nat → Nat → Objects T → Objects T
  | 0, _, objs => objs
  | remaining + 1, i, objs => destroy_elements data_ remaining (i + 1) (objs.destroy data_ i)

/-- `clear()` for an element type whose destructor leaves the allocator alone;
`Aware.clear` is the member for a destructor that may use it. -/
def clear {T : Type} (a : DynamicArray) (w : World T) : World T × DynamicArray :=
  ({ w with objects := destroy_elements a.data_ a.size_ 0 w.objects }, { a with size_ := 0 })

/-- A loop `for (...; i < new_size; ++i) construct(allocator_, data_ + i, ...)`
with `remaining` iterations to go from index `i`; `built` is the object the
constructor builds (`none`: it throws). Constructing past the `capacity_` slots
of the storage is undefined behaviour. -/
def construct_elements {T : Type} (built : Option T) (data_ capacity_ : Nat) :
    Nat → Nat → Objects T → Outcome (Objects T) Unit
  | 0, _, objs => .ok objs ()
  | remaining + 1, i, objs =>
    if i < capacity_ then
      match built with
      | none => .throws objs .constructor_failed
      | some x =>
        construct_elements built data_ capacity_ remaining (i + 1) (objs.construct data_ i x)
    else .undefined

/-- The body the two `resize` overloads share; `built` is the object the
constructor call of the overload builds. -/
def resize_with {T : Type} (E : Element T) (sys : SystemHeap) (a : DynamicArray) (w : World T)
    (new_size : Nat) (built : Option T) : Outcome (World T × DynamicArray) Unit :=
  match (if new_size > a.capacity_ then a.reserve E sys w new_size else .ok (w, a) ()) with
  | .undefined => .undefined
  | .throws s e => .throws s e
  | .ok (w1, a1) _ =>
    if new_size > a1.size_ then
      match construct_elements built a1.data_ a1.capacity_ (new_size - a1.size_) a1.size_
          w1.objects with
      | .undefined => .undefined
      | .throws objs e => .throws ({ w1 with objects := objs }, a1) e
      | .ok objs _ => .ok ({ w1 with objects := objs }, { a1 with size_ := new_size }) ()
    else if new_size < a1.size_ then
      .ok ({ w1 with
             objects := destroy_elements a1.data_ (a1.size_ - new_size) new_size w1.objects },
           { a1 with size_ := new_size }) ()
    else .ok (w1, { a1 with size_ := new_size }) ()

/-- `resize(new_size)`: new elements are value-initialised. -/
def resize {T : Type} (E : Element T) (sys : SystemHeap) (a : DynamicArray) (w : World T)
    (new_size : Nat) : Outcome (World T × DynamicArray) Unit :=
  a.resize_with E sys w new_size E.default_ctor

/-- `resize(new_size, value)`: new elements are copies of `value`, an object
outside the array's own storage. -/
def resize_value {T : Type} (E : Element T) (sys : SystemHeap) (a : DynamicArray)
    (w : World T) (new_size : Nat) (value : T) : Outcome (World T × DynamicArray) Unit :=
  a.resize_with E sys w new_size (E.copy_ctor value)

/-- The loop `for (i = 0; i < other.size_; ++i) push_back(other.data_[i])` of
the copy constructor and of copy assignment, with `remaining` iterations to go
from index `i`. Reading a slot of `other` without an object is undefined
behaviour. -/
def copy_elements {T : Type} (E : Element T) (sys : SystemHeap) (other : DynamicArray) :
    Nat → Nat → DynamicArray → World T → Outcome (World T × DynamicArray) Unit
  | 0, _, a, w => .ok (w, a) ()
  | remaining + 1, i, a, w =>
    match w.objects other.data_ i with
    | none => .undefined
    | some x =>
      match a.push_back E sys w x with
      | .undefined => .undefined
      | .throws s e => .throws s e
      | .ok (w1, a1) _ => copy_elements E sys other remaining (i + 1) a1 w1

/-- `DynamicArray(const DynamicArray &other)`: the state is the world and the
array under construction. -/
def copy_construct {T : Type} (E : Element T) (sys : SystemHeap) (other : DynamicArray)
    (w : World T) : Outcome (World T × DynamicArray) Unit :=
  match DynamicArray.new.reserve E sys w other.size_ with
  | .undefined => .undefined
  | .throws s e => .throws s e
  | .ok (w1, a1) _ => copy_elements E sys other other.size_ 0 a1 w1

/-- `operator=(const DynamicArray &other)` called on `self`; `same_object` is
`this == &other`. -/
def copy_assign {T : Type} (E : Element T) (sys : SystemHeap) (self other : DynamicArray)
    (same_object : Bool) (w : World T) : Outcome (World T × DynamicArray) Unit :=
  if same_object then .ok (w, self) ()
  else
    match (self.clear w).2.reserve E sys (self.clear w).1 other.size_ with
    | .undefined => .undefined
    | .throws s e => .throws s e
    | .ok (w1, a1) _ => copy_elements E sys other other.size_ 0 a1 w1

/-- `DynamicArray(DynamicArray &&other)`: the world, the new array and what is
left of `other`. -/
def move_construct {T : Type} (other : DynamicArray) (w : World T) :
    World T × DynamicArray × DynamicArray :=
  (w, { data_ := other.data_, size_ := other.size_, capacity_ := other.capacity_ },
   { other with data_ := 0, size_ := 0, capacity_ := 0 })

end DynamicArray

/-! ## Iterator -/

/-- A `T *` into the storage of an array: the region it points into and the
offset, in elements, from the start of that region. -/
structure Pointer where
  region : Nat
  offset : Int
  deriving DecidableEq, Repr

/-- Pointer arithmetic `p + n`. -/
def Pointer.add (p : Pointer) (n : Int) : Pointer :=
  { p with offset := p.offset + n }

/-- `class Iterator`. `class ConstIterator` repeats it member by member for
`const T`, so the same model serves both. -/
structure Iterator where
  ptr_ : Pointer
  deriving DecidableEq, Repr

namespace Iterator

/-- `operator*()`: the object the cursor points at, `none` when no object lives
there (undefined behaviour). -/
def deref {T : Type} (it : Iterator) (w : World T) : Option T :=
  if 0 ≤ it.ptr_.offset then w.objects it.ptr_.region it.ptr_.offset.toNat else none

/-- `operator[](n)`. -/
def subscript {T : Type} (it : Iterator) (w : World T) (n : Int) : Option T :=
  deref { ptr_ := it.ptr_.add n } w

/-- `operator++()`: the cursor after the call. -/
def pre_increment (it : Iterator) : Iterator := { ptr_ := it.ptr_.add 1 }

/-- `operator++(int)`: the returned copy and the cursor after the call. -/
def post_increment (it : Iterator) : Iterator × Iterator :=
  (it, { ptr_ := it.ptr_.add 1 })

/-- `operator--()`: the cursor after the call. -/
def pre_decrement (it : Iterator) : Iterator := { ptr_ := it.ptr_.add (-1) }

/-- `operator--(int)`: the returned copy and the cursor after the call. -/
def post_decrement (it : Iterator) : Iterator × Iterator :=
  (it, { ptr_ := it.ptr_.add (-1) })

/-- `operator+=(n)`: the cursor after the call. -/
def add_assign (it : Iterator) (n : Int) : Iterator := { ptr_ := it.ptr_.add n }

/-- `operator-=(n)`: the cursor after the call. -/
def sub_assign (it : Iterator) (n : Int) : Iterator := { ptr_ := it.ptr_.add (-n) }

/-- `operator+(n)`. -/
def add (it : Iterator) (n : Int) : Iterator := { ptr_ := it.ptr_.add n }

/-- `operator-(n)`. -/
def sub (it : Iterator) (n : Int) : Iterator := { ptr_ := it.ptr_.add (-n) }

/-- `operator-(other)`: `none` for cursors into different regions (undefined
behaviour). -/
def diff (it other : Iterator) : Option Int :=
  if it.ptr_.region = other.ptr_.region then some (it.ptr_.offset - other.ptr_.offset)
  else none

/-- A comparison of two cursors by `cmp` on their pointers: `none` for cursors
into different regions (undefined behaviour). -/
def compare_with (cmp : Int → Int → Bool) (it other : Iterator) : Option Bool :=
  if it.ptr_.region = other.ptr_.region then some (cmp it.ptr_.offset other.ptr_.offset)
  else none

/-- `operator==`. -/
def eq (it other : Iterator) : Option Bool := compare_with (fun x y => decide (x = y)) it other

/-- `operator!=`. -/
def ne (it other : Iterator) : Option Bool := compare_with (fun x y => decide (x ≠ y)) it other

/-- `operator<`. -/
def lt (it other : Iterator) : Option Bool := compare_with (fun x y => decide (x < y)) it other

/-- `operator>`. -/
def gt (it other : Iterator) : Option Bool := compare_with (fun x y => decide (x > y)) it other

/-- `operator<=`. -/
def le (it other : Iterator) : Option Bool := compare_with (fun x y => decide (x ≤ y)) it other

/-- `operator>=`. -/
def ge (it other : Iterator) : Option Bool := compare_with (fun x y => decide (x ≥ y)) it other

/-- The cursor after `k` calls of `operator++()`. -/
def increment_times : Nat → Iterator → Iterator
  | 0, it => it
  | k + 1, it => increment_times k it.pre_increment

end Iterator

/-- `begin()` (also `cbegin()`): `iterator(data_)`. -/
def DynamicArray.begin (a : DynamicArray) : Iterator :=
  { ptr_ := { region := a.data_, offset := 0 } }

/-- `end()` (also `cend()`): `iterator(data_ + size_)`. -/
def DynamicArray.end_ (a : DynamicArray) : Iterator :=
  { ptr_ := { region := a.data_, offset := a.size_ } }

/-- The block at address `q` is tracked and in use. -/
def in_use_at (mr : CustomMemoryResource) (q : Nat) : Prop :=
  ∃ b ∈ mr.allocated_blocks_, b.ptr = q ∧ b.free = false

/-- An element type over `Int` whose move constructor throws for the value 2
and otherwise behaves like that of `int`. -/
def fragile_element : Element Int :=
  { sizeof := 4, sizeof_pos := by decide, alignof := 4, copy_ctor := some,
    move_ctor := fun x => if x = 2 then none else some x, default_ctor := some 0 }

/-- A world with one array of `fragile_element` in it: the allocator tracks the
array's block (at address 16, 12 bytes) and the three slots hold 1, 2, 3. -/
def three_int_world : World Int :=
  { mr :=
      { allocated_blocks_ := [{ ptr := 16, size := 12, alignment := 4, free := false }]
        total_allocated_bytes_ := 12
        total_deallocated_bytes_ := 0 }
    objects := fun p i => if p = 16 ∧ i < 3 then some (Int.ofNat i + 1) else none }

/-- The full array `[1, 2, 3]` of `three_int_world`. -/
def three_int_array : DynamicArray := { data_ := 16, size_ := 3, capacity_ := 3 }

/-- A world with one `int` array in it: the allocator tracks the array's block
(at address 16, 8 bytes) and the two slots hold 10 and 20. -/
def two_int_world : World Int :=
  { mr :=
      { allocated_blocks_ := [{ ptr := 16, size := 8, alignment := 4, free := false }]
        total_allocated_bytes_ := 12
        total_deallocated_bytes_ := 4 }
    objects := fun p i => if p = 16 ∧ i = 0 then some 10 else if p = 16 ∧ i = 1 then some 20
      else none }

/-- The array `[10, 20]` of `two_int_world`. -/
def two_int_array : DynamicArray := { data_ := 16, size_ := 2, capacity_ := 2 }

/-- The registry `mr'` keeps every record of `mr` at its position with its
address, size and alignment, and has at most one record more. -/
def keeps_records (mr mr' : CustomMemoryResource) : Prop :=
  (∀ (j : Nat) (b : MemoryBlock), mr.allocated_blocks_[j]? = some b →
    ∃ b' : MemoryBlock, mr'.allocated_blocks_[j]? = some b' ∧
      b'.ptr = b.ptr ∧ b'.size = b.size ∧ b'.alignment = b.alignment) ∧
  mr.allocated_blocks_.length ≤ mr'.allocated_blocks_.length ∧
  mr'.allocated_blocks_.length ≤ mr.allocated_blocks_.length + 1

/-- The array `a'` in the world `w'` is the array `a`, whose elements were `xs`,
resized to length `m` with fill value `f`: the length is `m`, the elements are
the first `min(n, m)` elements of `xs` followed by `m - n` copies of `f`, and the
capacity is `m` if `m` exceeded the old capacity and the old capacity
otherwise. -/
def DynamicArray.Resized {T : Type} (a : DynamicArray) (xs : List T) (m : Nat) (f : T)
    (a' : DynamicArray) (w' : World T) : Prop :=
  a'.size_ = m ∧
  a'.elements w' = (xs.take m ++ List.replicate (m - a.size_) f).map some ∧
  (a.capacity_ < m → a'.capacity_ = m) ∧
  (m ≤ a.capacity_ → a'.capacity_ = a.capacity_)

/-- The array `b` in the world `w'` is an independent copy of the array `other`,
whose elements are `xs`: both arrays are valid in `w'`, `b` has the length and
the elements of `other`, `other` still has its elements, the two storages are
different regions whenever both arrays have one, and writing a value at a valid
index of one array changes that element of that array and leaves the elements of
the other array as they are. -/
def DynamicArray.Copied {T : Type} (other : DynamicArray) (xs : List T) (b : DynamicArray)
    (w' : World T) : Prop :=
  b.Valid w' ∧ other.Valid w' ∧
  b.size_ = other.size_ ∧ b.elements w' = xs.map some ∧ other.elements w' = xs.map some ∧
  (b.capacity_ ≠ 0 → other.capacity_ ≠ 0 → b.data_ ≠ other.data_) ∧
  (∀ (i : Nat) (v : T), i < other.size_ →
    (∃ w'' : World T, b.index_assign w' i v = some w'' ∧
      other.elements w'' = xs.map some ∧ b.elements w'' = (xs.set i v).map some) ∧
    (∃ w'' : World T, other.index_assign w' i v = some w'' ∧
      b.elements w'' = xs.map some ∧ other.elements w'' = (xs.set i v).map some))

/-- The state a call leaves behind, whether it returns or throws; `none` for
undefined behaviour. -/
def Outcome.state? {σ α : Type} : Outcome σ α → Option σ
  | .ok s _ => some s
  | .throws s _ => some s
  | .undefined => none

/-- Sum of the recorded sizes of all tracked blocks, free and in use. -/
def CustomMemoryResource.recorded_bytes (mr : CustomMemoryResource) : Nat :=
  (mr.allocated_blocks_.map (fun block => block.size)).sum

/-- What a client holds: the addresses it was given and has not handed back,
each with the size and the alignment it asked for. -/
abbrev Holdings := List (Nat × Nat × Nat)

/-- The calls are those of a well-behaved client that holds `held`: every
`deallocate` hands back an address the client holds, with the size and the
alignment it asked for, and the client then holds it no more. -/
def Session.well_behaved (s : Session) (held : Holdings) : List Call → Bool
  | [] => true
  | .allocate bytes alignment heap :: cs =>
    match s.mr.do_allocate bytes alignment heap with
    | .ok _ p =>
      (s.call (.allocate bytes alignment heap)).well_behaved ((p, bytes, alignment) :: held) cs
    | _ => (s.call (.allocate bytes alignment heap)).well_behaved held cs
  | .deallocate p bytes alignment :: cs =>
    held.contains (p, bytes, alignment) &&
      (s.call (.deallocate p bytes alignment)).well_behaved
        (held.erase (p, bytes, alignment)) cs

/-- `allocate(100, a)`, `deallocate`, `allocate(100, a)`, `deallocate`, with `p`
the region the heap supplies for the first request. -/
def unbalanced_calls (a p : Nat) : List Call :=
  [.allocate 100 a (some p), .deallocate p 100 a, .allocate 100 a none, .deallocate p 100 a]

/-- A world with one `int` array in it whose storage is a block of 100 bytes at
address 16: capacity 1, one element, 7. -/
def roomy_world : World Int :=
  { mr :=
      { allocated_blocks_ := [{ ptr := 16, size := 100, alignment := 4, free := false }]
        total_allocated_bytes_ := 100
        total_deallocated_bytes_ := 0 }
    objects := fun p i => if p = 16 ∧ i = 0 then some 7 else none }

/-- `explicit DynamicArray(size_type count, std::pmr::memory_resource *mr)`:
the state is the world and the array under construction. -/
def DynamicArray.construct_count {T : Type} (E : Element T) (sys : SystemHeap) (count : Nat)
    (w : World T) : Outcome (World T × DynamicArray) Unit :=
  DynamicArray.new.resize E sys w count

/-- `DynamicArray(size_type count, const T &value, std::pmr::memory_resource *mr)`:
the state is the world and the array under construction. -/
def DynamicArray.construct_count_value {T : Type} (E : Element T) (sys : SystemHeap)
    (count : Nat) (value : T) (w : World T) : Outcome (World T × DynamicArray) Unit :=
  DynamicArray.new.resize_value E sys w count value

/-- The array state invariant: `size_ <= capacity_`, and `data_` is null if and
only if `capacity_ == 0`. -/
def DynamicArray.StateInvariant (a : DynamicArray) : Prop :=
  a.size_ ≤ a.capacity_ ∧ (a.data_ = 0 ↔ a.capacity_ = 0)

/-- The registry of an allocator that has served nothing but the array `a`,
which has grown by doubling to the capacity `2 ^ k`: it tracks `k + 1` blocks,
the one at position `j` of `2 ^ j * sizeof(T)` bytes with the alignment of `T`,
all free except the last one, which is the array's storage, and the bytes
acquired so far are those of all these blocks. -/
def doubling_registry {T : Type} (E : Element T) (mr : CustomMemoryResource)
    (a : DynamicArray) (k : Nat) : Prop :=
  a.capacity_ = 2 ^ k ∧ mr.allocated_blocks_.length = k + 1 ∧
  (∀ j, j ≤ k → ∃ b : MemoryBlock, mr.allocated_blocks_[j]? = some b ∧
    b.size = 2 ^ j * E.sizeof ∧ b.alignment = E.alignof ∧ b.free = decide (j < k)) ∧
  (∃ b : MemoryBlock, mr.allocated_blocks_[k]? = some b ∧ b.ptr = a.data_) ∧
  mr.total_allocated_bytes_ = ((2 ^ (k + 1) - 1) * E.sizeof) % SIZE_MOD

/-! ## DynamicArray over element types that use its allocator

`allocator_traits<polymorphic_allocator<T>>::construct(allocator_, p, args...)`
builds the object by uses-allocator construction: an element type that accepts
an allocator, such as `std::pmr::string`, receives `allocator_` and takes its
own memory from the memory resource the array uses, and gives it back in its
destructor, which `allocator_traits::destroy` runs. `Aware.Element` describes
such element types, and the members below are the members of `DynamicArray` with
these calls on the memory resource in place. `Element` is the special case of an
element type that leaves the allocator alone (`Element.to_aware`). -/

namespace Aware

/-- What the element type `T` contributes when its objects may use the
allocator of the array: `sizeof(T)`, `alignof(T)`, and what its copy
constructor, its move constructor and its destructor do when they are called
through `allocator_`. A constructor is given the heap and the memory resource
as it is and returns the memory resource as it leaves it with the object it
built, or throws; the move constructor also returns what is left of its
argument. The destructor is given the object and cannot throw. -/
structure Element (T : Type) where
  sizeof : Nat
  sizeof_pos : 0 < sizeof
  alignof : Nat
  copy_ctor : SystemHeap → CustomMemoryResource → T → Outcome CustomMemoryResource T
  move_ctor : SystemHeap → CustomMemoryResource → T → Outcome CustomMemoryResource (T × T)
  dtor : CustomMemoryResource → T → CustomMemoryResource

/-- `std::pmr::polymorphic_allocator<T>::allocate(n)` on the memory resource. -/
def allocator_allocate {T : Type} (E : Element T) (sys : SystemHeap)
    (mr : CustomMemoryResource) (n : Nat) : Outcome CustomMemoryResource Nat :=
  if n > SIZE_MAX / E.sizeof then .throws mr .bad_array_new_length
  else mr.do_allocate (n * E.sizeof) E.alignof (sys mr (n * E.sizeof) E.alignof)

/-- `std::pmr::polymorphic_allocator<T>::deallocate(p, n)` on the memory
resource. -/
def allocator_deallocate {T : Type} (E : Element T) (mr : CustomMemoryResource)
    (p n : Nat) : CustomMemoryResource :=
  mr.do_deallocate p ((n * E.sizeof) % SIZE_MOD) E.alignof

/-- The loop of `reserve`, with `remaining` iterations to go from index `i`:
`construct(allocator_, new_data + i, std::move(data_[i]));
destroy(allocator_, data_ + i)`. The destructor runs on what the move left of
`data_[i]`. Reading a slot without an object, or constructing past the
`new_capacity` slots of the new region, is undefined behaviour. -/
def move_elements {T : Type} (E : Element T) (sys : SystemHeap)
    (data_ new_data new_capacity : Nat) :
    Nat → Nat → CustomMemoryResource → Objects T →
      Outcome (CustomMemoryResource × Objects T) Unit
  | 0, _, mr, objs => .ok (mr, objs) ()
  | remaining + 1, i, mr, objs =>
    match objs data_ i with
    | none => .undefined
    | some x =>
      if i < new_capacity then
        match E.move_ctor sys mr x with
        | .undefined => .undefined
        | .throws mr1 e => .throws (mr1, objs) e
        | .ok mr1 (y, left) =>
          move_elements E sys data_ new_data new_capacity remaining (i + 1) (E.dtor mr1 left)
            ((objs.construct new_data i y).destroy data_ i)
      else .undefined

/-- `reserve(new_capacity)`. -/
def reserve {T : Type} (E : Element T) (sys : SystemHeap) (a : DynamicArray) (w : World T)
    (new_capacity : Nat) : Outcome (World T × DynamicArray) Unit :=
  if new_capacity ≤ a.capacity_ then .ok (w, a) ()
  else
    match allocator_allocate E sys w.mr new_capacity with
    | .undefined => .undefined
    | .throws mr e => .throws ({ w with mr := mr }, a) e
    | .ok mr new_data =>
      match move_elements E sys a.data_ new_data new_capacity a.size_ 0 mr w.objects with
      | .undefined => .undefined
      | .throws (mr1, objs) e => .throws ({ mr := mr1, objects := objs }, a) e
      | .ok (mr1, objs) _ =>
        .ok ({ mr := if a.data_ ≠ 0 then allocator_deallocate E mr1 a.data_ a.capacity_
                     else mr1
               objects := objs },
             { a with data_ := new_data, capacity_ := new_capacity }) ()

/-- The head of `push_back`:
`if (size_ == capacity_) reserve(capacity_ == 0 ? 1 : capacity_ * 2);`. -/
def grow_if_full {T : Type} (E : Element T) (sys : SystemHeap) (a : DynamicArray)
    (w : World T) : Outcome (World T × DynamicArray) Unit :=
  if a.size_ = a.capacity_ then
    reserve E sys a w (if a.capacity_ = 0 then 1 else (a.capacity_ * 2) % SIZE_MOD)
  else .ok (w, a) ()

/-- The tail of `push_back`: `construct(allocator_, data_ + size_, ...); ++size_;`
where `build` is the constructor call, given the memory resource as it is.
Constructing past the `capacity_` slots of the storage is undefined
behaviour. -/
def construct_at_end {T : Type} (a : DynamicArray) (w : World T)
    (build : CustomMemoryResource → Outcome CustomMemoryResource T) :
    Outcome (World T × DynamicArray) Unit :=
  if a.size_ < a.capacity_ then
    match build w.mr with
    | .undefined => .undefined
    | .throws mr e => .throws ({ w with mr := mr }, a) e
    | .ok mr x =>
      .ok ({ mr := mr, objects := w.objects.construct a.data_ a.size_ x },
           { a with size_ := (a.size_ + 1) % SIZE_MOD }) ()
  else .undefined

/-- `push_back(const T &value)`; `value` is an object outside the array's own
storage. -/
def push_back {T : Type} (E : Element T) (sys : SystemHeap) (a : DynamicArray) (w : World T)
    (value : T) : Outcome (World T × DynamicArray) Unit :=
  match grow_if_full E sys a w with
  | .undefined => .undefined
  | .throws s e => .throws s e
  | .ok (w1, a1) _ => construct_at_end a1 w1 (fun mr => E.copy_ctor sys mr value)

/-- Calls `push_back` for the values of `vs` from left to right; stops at the
first call that does not return. -/
def push_back_all {T : Type} (E : Element T) (sys : SystemHeap) (a : DynamicArray)
    (w : World T) : List T → Outcome (World T × DynamicArray) Unit
  | [] => .ok (w, a) ()
  | v :: vs =>
    match push_back E sys a w v with
    | .undefined => .undefined
    | .throws s e => .throws s e
    | .ok (w1, a1) _ => push_back_all E sys a1 w1 vs

/-- `allocator_traits::destroy(allocator_, data_ + i)`: the destructor of the
object in the slot runs on the memory resource. Destroying a slot that holds no
object, which is undefined behaviour and does not happen below the length of a
valid array, leaves the memory resource as it is. -/
def destroy {T : Type} (E : Element T) (data_ i : Nat) (w : World T) : World T :=
  { mr := match w.objects data_ i with
          | some x => E.dtor w.mr x
          | none => w.mr
    objects := w.objects.destroy data_ i }

/-- `pop_back()`. -/
def pop_back {T : Type} (E : Element T) (a : DynamicArray) (w : World T) :
    World T × DynamicArray :=
  if a.size_ > 0 then (destroy E a.data_ (a.size_ - 1) w, { a with size_ := a.size_ - 1 })
  else (w, a)

/-- A loop `for (...; i < last; ++i) destroy(allocator_, data_ + i)` with
`remaining` iterations to go from index `i`. -/
def destroy_elements {T : Type} (E : Element T) (data_ : Nat) : Nat → Nat → World T → World T
  | 0, _, w => w
  | remaining + 1, i, w => destroy_elements E data_ remaining (i + 1) (destroy E data_ i w)

/-- `clear()`. -/
def clear {T : Type} (E : Element T) (a : DynamicArray) (w : World T) :
    World T × DynamicArray :=
  (destroy_elements E a.data_ a.size_ 0 w, { a with size_ := 0 })

end Aware

/-- An element type that leaves the allocator of the array alone, as an element
type that could use it: its constructors and its destructor return the memory
resource as they found it. -/
def Element.to_aware {T : Type} (E : Element T) : Aware.Element T :=
  { sizeof := E.sizeof
    sizeof_pos := E.sizeof_pos
    alignof := E.alignof
    copy_ctor := fun _ mr x =>
      match E.copy_ctor x with
      | some y => .ok mr y
      | none => .throws mr .constructor_failed
    move_ctor := fun _ mr x =>
      match E.move_ctor x with
      | some y => .ok mr (y, x)
      | none => .throws mr .constructor_failed
    dtor := fun mr _ => mr }

/-- A string in the manner of `std::pmr::string`: up to 15 characters live in
the object itself (`buffer` is null), a longer string keeps them in a buffer of
`length + 1` bytes that it took from its allocator. -/
structure PmrString where
  buffer : Nat
  length : Nat
  deriving DecidableEq, Repr

/-- The element type `PmrString`, 40 bytes with alignment 8. Copying a long
string through the allocator takes a buffer of `length + 1` bytes with alignment
1 from the memory resource; moving takes over the buffer and leaves an empty
string; the destructor hands the buffer back. -/
def pmr_string : Aware.Element PmrString :=
  { sizeof := 40
    sizeof_pos := by decide
    alignof := 8
    copy_ctor := fun sys mr s =>
      if s.length ≤ 15 then .ok mr { buffer := 0, length := s.length }
      else
        match mr.do_allocate (s.length + 1) 1 (sys mr (s.length + 1) 1) with
        | .undefined => .undefined
        | .throws mr1 e => .throws mr1 e
        | .ok mr1 p => .ok mr1 { buffer := p, length := s.length }
    move_ctor := fun _ mr s => .ok mr (s, { buffer := 0, length := 0 })
    dtor := fun mr s =>
      if s.buffer ≠ 0 then mr.do_deallocate s.buffer (s.length + 1) 1 else mr }

/-- A string of 40 characters that lives outside the arrays and their memory
resource. -/
def long_string : PmrString := { buffer := 8, length := 40 }

/-- A heap with unlimited memory that places each new region 4096 bytes behind
the sum of the tracked addresses: on a newly constructed allocator the regions
start at 4096, 8192, 16384, ... -/
def page_heap : SystemHeap :=
  fun mr _ _ => some (mr.addresses.sum + 4096)

/-- Three calls `push_back(long_string)` on a new array of strings on a newly
constructed allocator. -/
def three_strings : Outcome (World PmrString × DynamicArray) Unit :=
  Aware.push_back_all pmr_string page_heap DynamicArray.new (World.initial PmrString)
    [long_string, long_string, long_string]

/-- The world and the array after `three_strings`. -/
def string_state : World PmrString × DynamicArray :=
  match three_strings with
  | .ok s _ => s
  | _ => (World.initial PmrString, DynamicArray.new)

/-! ## Lemmas on the list primitives -/

theorem find_if_none_iff (pred : MemoryBlock → Bool) (l : List MemoryBlock) :
    find_if pred l = none ↔ ∀ b ∈ l, pred b = false := by
  induction l with
  | nil => simp [find_if]
  | cons x xs ih =>
    by_cases hx : pred x = true
    · simp [find_if, hx]
    · simp only [Bool.not_eq_true] at hx
      cases hf : find_if pred xs with
      | none => simpa [find_if, hx, hf] using ih.mp hf
      | some r =>
        have : ¬ ∀ b ∈ xs, pred b = false := fun h => by
          rw [ih.mpr h] at hf; cases hf
        simpa [find_if, hx, hf] using this

theorem find_if_some_spec (pred : MemoryBlock → Bool) (l : List MemoryBlock) (it : Nat)
    (b : MemoryBlock) (h : find_if pred l = some (it, b)) :
    l[it]? = some b ∧ pred b = true ∧
      ∀ j c, j < it → l[j]? = some c → pred c = false := by
  induction l generalizing it with
  | nil => simp [find_if] at h
  | cons x xs ih =>
    by_cases hx : pred x = true
    · simp only [find_if, hx, if_true, Option.some.injEq, Prod.mk.injEq] at h
      obtain ⟨rfl, rfl⟩ := h
      simp [hx]
    · simp only [Bool.not_eq_true] at hx
      cases hf : find_if pred xs with
      | none => simp [find_if, hx, hf] at h
      | some r =>
        obtain ⟨k, c⟩ := r
        simp only [find_if, hx, hf, Option.some.injEq, Prod.mk.injEq] at h
        simp only [Bool.false_eq_true, if_false, Option.some.injEq, Prod.mk.injEq] at h
        obtain ⟨rfl, rfl⟩ := h
        obtain ⟨h1, h2, h3⟩ := ih k hf
        refine ⟨by simpa using h1, h2, ?_⟩
        intro j d hj hd
        cases j with
        | zero => simp at hd; subst hd; exact hx
        | succ j => exact h3 j d (by omega) (by simpa using hd)

theorem assign_free_length (v : Bool) (l : List MemoryBlock) (it : Nat) :
    (assign_free v l it).length = l.length := by
  induction l generalizing it with
  | nil => simp [assign_free]
  | cons x xs ih => cases it <;> simp [assign_free, ih]

theorem assign_free_getElem?_self (v : Bool) (l : List MemoryBlock) (it : Nat)
    (b : MemoryBlock) (h : l[it]? = some b) :
    (assign_free v l it)[it]? = some { b with free := v } := by
  induction l generalizing it with
  | nil => simp at h
  | cons x xs ih =>
    cases it with
    | zero => simp at h; subst h; simp [assign_free]
    | succ k => simp at h; simpa [assign_free] using ih k h

theorem assign_free_getElem?_ne (v : Bool) (l : List MemoryBlock) (it j : Nat)
    (h : j ≠ it) : (assign_free v l it)[j]? = l[j]? := by
  induction l generalizing it j with
  | nil => simp [assign_free]
  | cons x xs ih =>
    cases it with
    | zero =>
      cases j with
      | zero => exact absurd rfl h
      | succ j => simp [assign_free]
    | succ k =>
      cases j with
      | zero => simp [assign_free]
      | succ j => simpa [assign_free] using ih k j (by omega)

theorem find_if_eq_some_of_first (pred : MemoryBlock → Bool) (l : List MemoryBlock) (it : Nat)
    (b : MemoryBlock) (hb : l[it]? = some b) (hp : pred b = true)
    (hfirst : ∀ j c, j < it → l[j]? = some c → pred c = false) :
    find_if pred l = some (it, b) := by
  induction l generalizing it with
  | nil => simp at hb
  | cons x xs ih =>
    cases it with
    | zero =>
      simp at hb; subst hb
      simp [find_if, hp]
    | succ k =>
      have hx : pred x = false := hfirst 0 x (by omega) (by simp)
      have := ih k (by simpa using hb) (fun j c hj hc => hfirst (j + 1) c (by omega) (by simpa using hc))
      simp [find_if, hx, this]

theorem find_if_exists (pred : MemoryBlock → Bool) (l : List MemoryBlock)
    (h : ∃ b ∈ l, pred b = true) : ∃ it b, find_if pred l = some (it, b) := by
  cases hf : find_if pred l with
  | some r => exact ⟨r.1, r.2, rfl⟩
  | none =>
    obtain ⟨b, hb, hp⟩ := h
    have := (find_if_none_iff pred l).mp hf b hb
    rw [this] at hp; cases hp

theorem reusable_iff (bytes alignment : Nat) (b : MemoryBlock) :
    CustomMemoryResource.reusable bytes alignment b = true ↔
      b.free = true ∧ bytes ≤ b.size ∧ b.alignment = alignment := by
  simp [CustomMemoryResource.reusable, and_assoc]

theorem reusable_false_iff (bytes alignment : Nat) (b : MemoryBlock) :
    CustomMemoryResource.reusable bytes alignment b = false ↔
      ¬ (b.free = true ∧ bytes ≤ b.size ∧ b.alignment = alignment) := by
  rw [← reusable_iff, Bool.not_eq_true]

/-! ## The allocator, call by call -/

/-- C1. Reuse path of `do_allocate`: when some tracked block is free, has
`size >= bytes` and has exactly the requested alignment, the call returns the
address of the first such block (position `i`, no earlier block qualifies),
that block becomes in-use with its address, size and alignment as recorded,
every other position of the registry is unchanged, the registry keeps its
length and both byte counters keep their values. The heap is not consulted:
the result is the same for every `heap`. -/
theorem do_allocate_reuse (mr : CustomMemoryResource) (bytes alignment : Nat)
    (heap : Option Nat)
    (h : ∃ b ∈ mr.allocated_blocks_, b.free = true ∧ bytes ≤ b.size ∧ b.alignment = alignment) :
    ∃ (i : Nat) (b : MemoryBlock) (mr' : CustomMemoryResource),
      mr.allocated_blocks_[i]? = some b ∧
      (b.free = true ∧ bytes ≤ b.size ∧ b.alignment = alignment) ∧
      (∀ j c, j < i → mr.allocated_blocks_[j]? = some c →
        ¬ (c.free = true ∧ bytes ≤ c.size ∧ c.alignment = alignment)) ∧
      mr.do_allocate bytes alignment heap = .ok mr' b.ptr ∧
      mr'.allocated_blocks_.length = mr.allocated_blocks_.length ∧
      mr'.allocated_blocks_[i]? =
        some { ptr := b.ptr, size := b.size, alignment := b.alignment, free := false } ∧
      (∀ j, j ≠ i → mr'.allocated_blocks_[j]? = mr.allocated_blocks_[j]?) ∧
      mr'.total_allocated_bytes_ = mr.total_allocated_bytes_ ∧
      mr'.total_deallocated_bytes_ = mr.total_deallocated_bytes_ := by
  obtain ⟨i, b, hf⟩ := find_if_exists (CustomMemoryResource.reusable bytes alignment)
    mr.allocated_blocks_ (by
      obtain ⟨b, hb, hp⟩ := h
      exact ⟨b, hb, (reusable_iff _ _ _).mpr hp⟩)
  obtain ⟨h1, h2, h3⟩ := find_if_some_spec _ _ _ _ hf
  refine ⟨i, b, { mr with allocated_blocks_ := assign_free false mr.allocated_blocks_ i },
    h1, (reusable_iff _ _ _).mp h2, ?_, ?_, ?_, ?_, ?_, rfl, rfl⟩
  · intro j c hj hc
    exact (reusable_false_iff _ _ _).mp (h3 j c hj hc)
  · simp [CustomMemoryResource.do_allocate, hf]
  · exact assign_free_length _ _ _
  · exact assign_free_getElem?_self _ _ _ _ h1
  · intro j hj
    exact assign_free_getElem?_ne _ _ _ _ hj

/-- Witness for C1: registry `[in-use 8, free 16 (64 bytes), free 24 (32 bytes), free 32 (64 bytes)]`,
all of alignment 8; a request for 48 bytes has two candidates. -/
theorem do_allocate_reuse_witness :
    (∃ b ∈ two_candidates.allocated_blocks_, b.free = true ∧ 48 ≤ b.size ∧ b.alignment = 8) ∧
    two_candidates.do_allocate 48 8 none =
      .ok { allocated_blocks_ :=
              [{ ptr := 8, size := 64, alignment := 8, free := false },
               { ptr := 16, size := 64, alignment := 8, free := false },
               { ptr := 24, size := 32, alignment := 8, free := true },
               { ptr := 32, size := 64, alignment := 8, free := true }]
            total_allocated_bytes_ := 224
            total_deallocated_bytes_ := 160 } 16 ∧
    ∃ (i : Nat) (b : MemoryBlock) (mr' : CustomMemoryResource),
      two_candidates.allocated_blocks_[i]? = some b ∧
      (b.free = true ∧ 48 ≤ b.size ∧ b.alignment = 8) ∧
      (∀ j c, j < i → two_candidates.allocated_blocks_[j]? = some c →
        ¬ (c.free = true ∧ 48 ≤ c.size ∧ c.alignment = 8)) ∧
      two_candidates.do_allocate 48 8 none = .ok mr' b.ptr ∧
      mr'.allocated_blocks_.length = two_candidates.allocated_blocks_.length ∧
      mr'.allocated_blocks_[i]? =
        some { ptr := b.ptr, size := b.size, alignment := b.alignment, free := false } ∧
      (∀ j, j ≠ i → mr'.allocated_blocks_[j]? = two_candidates.allocated_blocks_[j]?) ∧
      mr'.total_allocated_bytes_ = two_candidates.total_allocated_bytes_ ∧
      mr'.total_deallocated_bytes_ = two_candidates.total_deallocated_bytes_ :=
  have h : ∃ b ∈ two_candidates.allocated_blocks_, b.free = true ∧ 48 ≤ b.size ∧ b.alignment = 8 :=
    ⟨{ ptr := 16, size := 64, alignment := 8, free := true }, by decide, by decide⟩
  ⟨h, by decide, do_allocate_reuse two_candidates 48 8 none h⟩

/-- C2. Fresh path of `do_allocate`: when no tracked block is free with
`size >= bytes` and the requested alignment, and the heap answers with the
region `ptr`, the call returns `ptr`, the registry is the old registry followed
by the one record `{ptr, bytes, alignment, in use}`, cumulative bytes allocated
becomes `total_allocated_bytes_ + bytes` in `size_t` arithmetic (exactly that sum
whenever it fits `size_t`), and cumulative bytes deallocated is unchanged. -/
theorem do_allocate_fresh (mr : CustomMemoryResource) (bytes alignment ptr : Nat)
    (h : ∀ b ∈ mr.allocated_blocks_,
      ¬ (b.free = true ∧ bytes ≤ b.size ∧ b.alignment = alignment)) :
    ∃ mr' : CustomMemoryResource,
      mr.do_allocate bytes alignment (some ptr) = .ok mr' ptr ∧
      mr'.allocated_blocks_ = mr.allocated_blocks_ ++
        [{ ptr := ptr, size := bytes, alignment := alignment, free := false }] ∧
      mr'.total_allocated_bytes_ = (mr.total_allocated_bytes_ + bytes) % SIZE_MOD ∧
      (mr.total_allocated_bytes_ + bytes < SIZE_MOD →
        mr'.total_allocated_bytes_ = mr.total_allocated_bytes_ + bytes) ∧
      mr'.total_deallocated_bytes_ = mr.total_deallocated_bytes_ := by
  have hf : find_if (CustomMemoryResource.reusable bytes alignment) mr.allocated_blocks_ = none :=
    (find_if_none_iff _ _).mpr (fun b hb => (reusable_false_iff _ _ _).mpr (h b hb))
  refine ⟨{ mr with
      allocated_blocks_ := mr.allocated_blocks_ ++
        [{ ptr := ptr, size := bytes, alignment := alignment, free := false }]
      total_allocated_bytes_ := (mr.total_allocated_bytes_ + bytes) % SIZE_MOD },
    by simp only [CustomMemoryResource.do_allocate, hf], rfl, rfl, ?_, rfl⟩
  intro hlt
  exact Nat.mod_eq_of_lt hlt

/-- Witness for C2: the only free block has 10 bytes, the request is for 100. -/
theorem do_allocate_fresh_witness :
    (∀ b ∈ small_free_block.allocated_blocks_, ¬ (b.free = true ∧ 100 ≤ b.size ∧ b.alignment = 16)) ∧
    small_free_block.do_allocate 100 16 (some 8192) =
      .ok { allocated_blocks_ :=
              [{ ptr := 4096, size := 10, alignment := 16, free := true },
               { ptr := 8192, size := 100, alignment := 16, free := false }]
            total_allocated_bytes_ := 110
            total_deallocated_bytes_ := 10 } 8192 ∧
    ∃ mr' : CustomMemoryResource,
      small_free_block.do_allocate 100 16 (some 8192) = .ok mr' 8192 ∧
      mr'.allocated_blocks_ = small_free_block.allocated_blocks_ ++
        [{ ptr := 8192, size := 100, alignment := 16, free := false }] ∧
      mr'.total_allocated_bytes_ = (small_free_block.total_allocated_bytes_ + 100) % SIZE_MOD ∧
      (small_free_block.total_allocated_bytes_ + 100 < SIZE_MOD →
        mr'.total_allocated_bytes_ = small_free_block.total_allocated_bytes_ + 100) ∧
      mr'.total_deallocated_bytes_ = small_free_block.total_deallocated_bytes_ :=
  have h : ∀ b ∈ small_free_block.allocated_blocks_,
      ¬ (b.free = true ∧ 100 ≤ b.size ∧ b.alignment = 16) := by decide
  ⟨h, by decide, do_allocate_fresh small_free_block 100 16 8192 h⟩

/-- C3. `do_deallocate` on a tracked address `p`: the first (in a reachable
state: the only) block with address `p`, at position `i`, becomes free with its
address, size and alignment as recorded, every other position of the registry
is unchanged, cumulative bytes deallocated becomes
`total_deallocated_bytes_ + bytes` in `size_t` arithmetic (exactly that sum
whenever it fits `size_t`), cumulative bytes allocated is unchanged, and the
resulting registry does not depend on `bytes` and `alignment`. -/
theorem do_deallocate_tracked (mr : CustomMemoryResource) (p bytes alignment : Nat)
    (h : ∃ b ∈ mr.allocated_blocks_, b.ptr = p) :
    ∃ (i : Nat) (b : MemoryBlock),
      mr.allocated_blocks_[i]? = some b ∧ b.ptr = p ∧
      (∀ j c, j < i → mr.allocated_blocks_[j]? = some c → c.ptr ≠ p) ∧
      (mr.do_deallocate p bytes alignment).allocated_blocks_.length =
        mr.allocated_blocks_.length ∧
      (mr.do_deallocate p bytes alignment).allocated_blocks_[i]? =
        some { ptr := b.ptr, size := b.size, alignment := b.alignment, free := true } ∧
      (∀ j, j ≠ i → (mr.do_deallocate p bytes alignment).allocated_blocks_[j]? =
        mr.allocated_blocks_[j]?) ∧
      (mr.do_deallocate p bytes alignment).total_deallocated_bytes_ =
        (mr.total_deallocated_bytes_ + bytes) % SIZE_MOD ∧
      (mr.total_deallocated_bytes_ + bytes < SIZE_MOD →
        (mr.do_deallocate p bytes alignment).total_deallocated_bytes_ =
          mr.total_deallocated_bytes_ + bytes) ∧
      (mr.do_deallocate p bytes alignment).total_allocated_bytes_ =
        mr.total_allocated_bytes_ ∧
      (∀ bytes' alignment', (mr.do_deallocate p bytes' alignment').allocated_blocks_ =
        (mr.do_deallocate p bytes alignment).allocated_blocks_) := by
  obtain ⟨i, b, hf⟩ := find_if_exists (fun block => decide (block.ptr = p))
    mr.allocated_blocks_ (by
      obtain ⟨b, hb, hp⟩ := h
      exact ⟨b, hb, by simpa using hp⟩)
  obtain ⟨h1, h2, h3⟩ := find_if_some_spec _ _ _ _ hf
  have hd : ∀ n a, mr.do_deallocate p n a =
      { mr with
        allocated_blocks_ := assign_free true mr.allocated_blocks_ i
        total_deallocated_bytes_ := (mr.total_deallocated_bytes_ + n) % SIZE_MOD } := by
    intro n a
    simp only [CustomMemoryResource.do_deallocate, hf]
  refine ⟨i, b, h1, by simpa using h2, ?_, ?_, ?_, ?_, ?_, ?_, ?_, ?_⟩
  · intro j c hj hc
    simpa using h3 j c hj hc
  · rw [hd]; exact assign_free_length _ _ _
  · rw [hd]; exact assign_free_getElem?_self _ _ _ _ h1
  · intro j hj
    rw [hd]; exact assign_free_getElem?_ne _ _ _ _ hj
  · rw [hd]
  · intro hlt
    rw [hd]; exact Nat.mod_eq_of_lt hlt
  · rw [hd]
  · intro n a
    rw [hd, hd]

/-- Witness for C3: the block at 16 was requested with (100, 16) and is handed
back with (7, 1). -/
theorem do_deallocate_tracked_witness :
    (∃ b ∈ three_blocks.allocated_blocks_, b.ptr = 16) ∧
    three_blocks.do_deallocate 16 7 1 =
      { allocated_blocks_ :=
          [{ ptr := 8, size := 64, alignment := 8, free := false },
           { ptr := 16, size := 100, alignment := 16, free := true },
           { ptr := 24, size := 32, alignment := 8, free := true }]
        total_allocated_bytes_ := 196
        total_deallocated_bytes_ := 39 } ∧
    ∃ (i : Nat) (b : MemoryBlock),
      three_blocks.allocated_blocks_[i]? = some b ∧ b.ptr = 16 ∧
      (∀ j c, j < i → three_blocks.allocated_blocks_[j]? = some c → c.ptr ≠ 16) ∧
      (three_blocks.do_deallocate 16 7 1).allocated_blocks_.length =
        three_blocks.allocated_blocks_.length ∧
      (three_blocks.do_deallocate 16 7 1).allocated_blocks_[i]? =
        some { ptr := b.ptr, size := b.size, alignment := b.alignment, free := true } ∧
      (∀ j, j ≠ i → (three_blocks.do_deallocate 16 7 1).allocated_blocks_[j]? =
        three_blocks.allocated_blocks_[j]?) ∧
      (three_blocks.do_deallocate 16 7 1).total_deallocated_bytes_ =
        (three_blocks.total_deallocated_bytes_ + 7) % SIZE_MOD ∧
      (three_blocks.total_deallocated_bytes_ + 7 < SIZE_MOD →
        (three_blocks.do_deallocate 16 7 1).total_deallocated_bytes_ =
          three_blocks.total_deallocated_bytes_ + 7) ∧
      (three_blocks.do_deallocate 16 7 1).total_allocated_bytes_ =
        three_blocks.total_allocated_bytes_ ∧
      (∀ bytes' alignment', (three_blocks.do_deallocate 16 bytes' alignment').allocated_blocks_ =
        (three_blocks.do_deallocate 16 7 1).allocated_blocks_) :=
  have h : ∃ b ∈ three_blocks.allocated_blocks_, b.ptr = 16 :=
    ⟨{ ptr := 16, size := 100, alignment := 16, free := false }, by decide, rfl⟩
  ⟨h, by decide, do_deallocate_tracked three_blocks 16 7 1 h⟩

/-- C8. Allocation failure is atomic: on the fresh path (no tracked block is
free with `size >= bytes` and the requested alignment), when the heap has no
memory the call leaves with `std::bad_alloc` and the allocator is exactly as it
was before the call. -/
theorem do_allocate_failure_atomic (mr : CustomMemoryResource) (bytes alignment : Nat)
    (h : ∀ b ∈ mr.allocated_blocks_,
      ¬ (b.free = true ∧ bytes ≤ b.size ∧ b.alignment = alignment)) :
    mr.do_allocate bytes alignment none = .throws mr .bad_alloc := by
  have hf : find_if (CustomMemoryResource.reusable bytes alignment) mr.allocated_blocks_ = none :=
    (find_if_none_iff _ _).mpr (fun b hb => (reusable_false_iff _ _ _).mpr (h b hb))
  simp only [CustomMemoryResource.do_allocate, hf]

/-- Witness for C8: a request for 100 bytes while the only free block has 10. -/
theorem do_allocate_failure_atomic_witness :
    (∀ b ∈ small_free_block.allocated_blocks_, ¬ (b.free = true ∧ 100 ≤ b.size ∧ b.alignment = 16)) ∧
    small_free_block.do_allocate 100 16 none = .throws small_free_block .bad_alloc :=
  have h : ∀ b ∈ small_free_block.allocated_blocks_,
      ¬ (b.free = true ∧ 100 ≤ b.size ∧ b.alignment = 16) := by decide
  ⟨h, do_allocate_failure_atomic small_free_block 100 16 h⟩

/-! ## Registry invariants -/

theorem assign_free_map_ptr (v : Bool) (l : List MemoryBlock) (it : Nat) :
    (assign_free v l it).map (fun b => b.ptr) = l.map (fun b => b.ptr) := by
  induction l generalizing it with
  | nil => simp [assign_free]
  | cons x xs ih => cases it <;> simp [assign_free, ih]

theorem assign_free_cancel (v w : Bool) (l : List MemoryBlock) (it : Nat) (b : MemoryBlock)
    (hb : l[it]? = some b) (hv : b.free = v) :
    assign_free v (assign_free w l it) it = l := by
  induction l generalizing it with
  | nil => simp at hb
  | cons x xs ih =>
    cases it with
    | zero =>
      simp at hb; subst hb
      cases x
      simp_all [assign_free]
    | succ k => simpa [assign_free] using ih k (by simpa using hb)

theorem heap_fresh_some_iff (mr : CustomMemoryResource) (p : Nat) :
    heap_fresh mr (some p) = true ↔ p ≠ 0 ∧ p ∉ mr.addresses := by
  simp only [heap_fresh, CustomMemoryResource.addresses, Bool.and_eq_true, bne_iff_ne, ne_eq,
    List.all_eq_true, List.mem_map, not_exists, not_and]

theorem do_allocate_cases (mr : CustomMemoryResource) (bytes alignment : Nat)
    (heap : Option Nat) :
    (∃ i b, find_if (CustomMemoryResource.reusable bytes alignment) mr.allocated_blocks_ =
        some (i, b) ∧
      mr.do_allocate bytes alignment heap =
        .ok { mr with allocated_blocks_ := assign_free false mr.allocated_blocks_ i } b.ptr) ∨
    (find_if (CustomMemoryResource.reusable bytes alignment) mr.allocated_blocks_ = none ∧
      heap = none ∧ mr.do_allocate bytes alignment heap = .throws mr .bad_alloc) ∨
    (∃ p, find_if (CustomMemoryResource.reusable bytes alignment) mr.allocated_blocks_ = none ∧
      heap = some p ∧
      mr.do_allocate bytes alignment heap =
        .ok { mr with
              allocated_blocks_ := mr.allocated_blocks_ ++
                [{ ptr := p, size := bytes, alignment := alignment, free := false }]
              total_allocated_bytes_ := (mr.total_allocated_bytes_ + bytes) % SIZE_MOD } p) := by
  cases hf : find_if (CustomMemoryResource.reusable bytes alignment) mr.allocated_blocks_ with
  | some r =>
    obtain ⟨i, b⟩ := r
    exact Or.inl ⟨i, b, rfl, by simp only [CustomMemoryResource.do_allocate, hf]⟩
  | none =>
    cases heap with
    | none => exact Or.inr (Or.inl ⟨rfl, rfl, by simp only [CustomMemoryResource.do_allocate, hf]⟩)
    | some p =>
      exact Or.inr (Or.inr ⟨p, rfl, rfl, by simp only [CustomMemoryResource.do_allocate, hf]⟩)

theorem do_deallocate_addresses (mr : CustomMemoryResource) (p bytes alignment : Nat) :
    (mr.do_deallocate p bytes alignment).addresses = mr.addresses := by
  unfold CustomMemoryResource.do_deallocate
  cases hf : find_if (fun block => decide (block.ptr = p)) mr.allocated_blocks_ with
  | none => rfl
  | some r => simp [CustomMemoryResource.addresses, assign_free_map_ptr]

theorem mem_addresses_of_getElem? (mr : CustomMemoryResource) (i : Nat) (b : MemoryBlock)
    (h : mr.allocated_blocks_[i]? = some b) : b.ptr ∈ mr.addresses := by
  simp only [CustomMemoryResource.addresses, List.mem_map]
  exact ⟨b, List.getElem?_mem h, rfl⟩

theorem wellFormed_do_deallocate (mr : CustomMemoryResource) (p bytes alignment : Nat)
    (h : mr.WellFormed) : (mr.do_deallocate p bytes alignment).WellFormed := by
  unfold CustomMemoryResource.WellFormed at *
  rw [do_deallocate_addresses]
  exact h

theorem wellFormed_do_allocate (mr mr' : CustomMemoryResource) (bytes alignment q : Nat)
    (heap : Option Nat) (h : mr.WellFormed) (hh : heap_fresh mr heap = true)
    (ha : mr.do_allocate bytes alignment heap = .ok mr' q) :
    mr'.WellFormed ∧ q ∈ mr'.addresses ∧ ∀ p, p ∈ mr'.addresses ↔ p ∈ mr.addresses ∨ p = q := by
  rcases do_allocate_cases mr bytes alignment heap with ⟨i, b, hf, hr⟩ | ⟨_, _, hr⟩ | ⟨p, hf, hp, hr⟩
  · rw [hr] at ha
    simp only [Outcome.ok.injEq] at ha
    obtain ⟨rfl, rfl⟩ := ha
    have hb := mem_addresses_of_getElem? mr i b (find_if_some_spec _ _ _ _ hf).1
    have he : CustomMemoryResource.addresses
        { mr with allocated_blocks_ := assign_free false mr.allocated_blocks_ i } =
        mr.addresses := by
      simp [CustomMemoryResource.addresses, assign_free_map_ptr]
    unfold CustomMemoryResource.WellFormed
    rw [he]
    refine ⟨h, hb, fun p => ⟨Or.inl, ?_⟩⟩
    rintro (hp | rfl)
    · exact hp
    · exact hb
  · rw [hr] at ha; cases ha
  · rw [hr] at ha
    simp only [Outcome.ok.injEq] at ha
    obtain ⟨rfl, rfl⟩ := ha
    subst hp
    obtain ⟨hp0, hpn⟩ := (heap_fresh_some_iff mr p).mp hh
    have he : CustomMemoryResource.addresses
        { mr with
          allocated_blocks_ := mr.allocated_blocks_ ++
            [{ ptr := p, size := bytes, alignment := alignment, free := false }]
          total_allocated_bytes_ := (mr.total_allocated_bytes_ + bytes) % SIZE_MOD } =
        mr.addresses ++ [p] := by
      simp [CustomMemoryResource.addresses]
    unfold CustomMemoryResource.WellFormed
    rw [he]
    refine ⟨⟨?_, ?_⟩, by simp, fun r => by simp⟩
    · rw [List.nodup_append]
      refine ⟨h.1, List.nodup_singleton p, ?_⟩
      intro a ha1 ha2
      simp only [List.mem_singleton] at ha2
      subst ha2
      exact hpn ha1
    · simp only [List.mem_append, List.mem_singleton, not_or]
      exact ⟨h.2, fun h0 => hp0 h0.symm⟩

theorem do_allocate_throws_state (mr mr' : CustomMemoryResource) (bytes alignment : Nat)
    (heap : Option Nat) (e : Exception)
    (ha : mr.do_allocate bytes alignment heap = .throws mr' e) : mr' = mr := by
  rcases do_allocate_cases mr bytes alignment heap with ⟨i, b, _, hr⟩ | ⟨_, _, hr⟩ | ⟨p, _, _, hr⟩
  · rw [hr] at ha; cases ha
  · rw [hr] at ha
    simp only [Outcome.throws.injEq] at ha
    exact ha.1.symm
  · rw [hr] at ha; cases ha

theorem do_allocate_ne_undefined (mr : CustomMemoryResource) (bytes alignment : Nat)
    (heap : Option Nat) : mr.do_allocate bytes alignment heap ≠ .undefined := by
  rcases do_allocate_cases mr bytes alignment heap with ⟨i, b, _, hr⟩ | ⟨_, _, hr⟩ | ⟨p, _, _, hr⟩ <;>
    rw [hr] <;> simp

theorem inv_call (s : Session) (c : Call) (h : s.Inv)
    (hh : Session.heap_respected s [c] = true) : (s.call c).Inv := by
  cases c with
  | allocate bytes alignment heap =>
    have hfresh : heap_fresh s.mr heap = true := by
      simpa [Session.heap_respected] using hh
    simp only [Session.call]
    cases ha : s.mr.do_allocate bytes alignment heap with
    | ok mr' q =>
      obtain ⟨hw, _, hiff⟩ := wellFormed_do_allocate s.mr mr' bytes alignment q heap h.1 hfresh ha
      refine ⟨hw, fun p => ?_⟩
      simp only [List.mem_append, List.mem_singleton]
      rw [hiff p, h.2 p]
    | throws mr' e =>
      have := do_allocate_throws_state _ _ _ _ _ _ ha
      subst this
      exact h
    | undefined => exact h
  | deallocate p bytes alignment =>
    simp only [Session.call]
    refine ⟨wellFormed_do_deallocate s.mr p bytes alignment h.1, fun q => ?_⟩
    rw [do_deallocate_addresses]
    exact h.2 q

theorem inv_run (s : Session) (calls : List Call) (h : s.Inv)
    (hh : Session.heap_respected s calls = true) : (s.run calls).Inv := by
  induction calls generalizing s with
  | nil => exact h
  | cons c cs ih =>
    simp only [Session.heap_respected, Bool.and_eq_true] at hh
    simp only [Session.run]
    refine ih (s.call c) (inv_call s c h ?_) hh.2
    simp only [Session.heap_respected, Bool.and_eq_true, and_true]
    exact hh.1

theorem inv_init : Session.Inv {} := by
  simp [Session.Inv, CustomMemoryResource.WellFormed, CustomMemoryResource.addresses]

theorem wellFormed_of_reachable (mr : CustomMemoryResource) (h : Reachable mr) :
    mr.WellFormed := by
  obtain ⟨calls, hh, rfl⟩ := h
  exact (inv_run {} calls inv_init hh).1

theorem reachable_init : Reachable {} := ⟨[], rfl, rfl⟩

theorem find_ptr_of_nodup (l : List MemoryBlock) (i : Nat) (b : MemoryBlock)
    (hN : (l.map (fun c => c.ptr)).Nodup) (hb : l[i]? = some b) :
    find_if (fun block => decide (block.ptr = b.ptr)) l = some (i, b) := by
  induction l generalizing i with
  | nil => simp at hb
  | cons x xs ih =>
    cases i with
    | zero =>
      simp at hb; subst hb
      simp [find_if]
    | succ k =>
      have hb' : xs[k]? = some b := by simpa using hb
      simp only [List.map_cons, List.nodup_cons, List.mem_map, not_exists, not_and] at hN
      have hx : ¬ x.ptr = b.ptr := fun e => hN.1 b (List.getElem?_mem hb') e.symm
      simp [find_if, hx, ih k hN.2 hb']

theorem nodup_index_unique (l : List MemoryBlock) (i k : Nat) (b c : MemoryBlock)
    (hN : (l.map (fun c => c.ptr)).Nodup) (hb : l[i]? = some b) (hc : l[k]? = some c)
    (he : b.ptr = c.ptr) : i = k := by
  have h1 := find_ptr_of_nodup l i b hN hb
  have h2 := find_ptr_of_nodup l k c hN hc
  rw [he, h2] at h1
  simp only [Option.some.injEq, Prod.mk.injEq] at h1
  exact h1.1.symm

theorem do_allocate_ok_shape (mr mr1 : CustomMemoryResource) (bytes alignment p : Nat)
    (heap : Option Nat) (ha : mr.do_allocate bytes alignment heap = .ok mr1 p) :
    ∃ (i : Nat) (b : MemoryBlock), mr1.allocated_blocks_[i]? = some b ∧ b.ptr = p ∧
      b.free = false ∧
      bytes ≤ b.size ∧ b.alignment = alignment ∧
      ∀ j c, j < i → mr1.allocated_blocks_[j]? = some c →
        CustomMemoryResource.reusable bytes alignment c = false := by
  rcases do_allocate_cases mr bytes alignment heap with ⟨i, b, hf, hr⟩ | ⟨_, _, hr⟩ | ⟨q, hf, hp, hr⟩
  · rw [hr] at ha
    simp only [Outcome.ok.injEq] at ha
    obtain ⟨rfl, rfl⟩ := ha
    obtain ⟨h1, h2, h3⟩ := find_if_some_spec _ _ _ _ hf
    obtain ⟨_, hs, hal⟩ := (reusable_iff _ _ _).mp h2
    refine ⟨i, { b with free := false }, assign_free_getElem?_self _ _ _ _ h1, rfl, rfl, hs, hal, ?_⟩
    intro j c hj hc
    rw [show ({ mr with allocated_blocks_ := assign_free false mr.allocated_blocks_ i } :
      CustomMemoryResource).allocated_blocks_ = assign_free false mr.allocated_blocks_ i from rfl,
      assign_free_getElem?_ne _ _ _ _ (by omega)] at hc
    exact h3 j c hj hc
  · rw [hr] at ha; cases ha
  · rw [hr] at ha
    simp only [Outcome.ok.injEq] at ha
    obtain ⟨rfl, rfl⟩ := ha
    refine ⟨mr.allocated_blocks_.length,
      { ptr := q, size := bytes, alignment := alignment, free := false },
      by simp, rfl, rfl, le_refl _, rfl, ?_⟩
    intro j c hj hc
    have hc' : mr.allocated_blocks_[j]? = some c := by
      simpa [List.getElem?_append_left hj] using hc
    exact (find_if_none_iff _ _).mp hf c (List.getElem?_mem hc')

theorem do_deallocate_at (mr : CustomMemoryResource) (i : Nat) (b : MemoryBlock)
    (bytes alignment : Nat) (hN : mr.addresses.Nodup) (hb : mr.allocated_blocks_[i]? = some b) :
    mr.do_deallocate b.ptr bytes alignment =
      { mr with
        allocated_blocks_ := assign_free true mr.allocated_blocks_ i
        total_deallocated_bytes_ := (mr.total_deallocated_bytes_ + bytes) % SIZE_MOD } := by
  simp only [CustomMemoryResource.do_deallocate, find_ptr_of_nodup _ i b hN hb]

theorem countP_in_use_add_free (l : List MemoryBlock) :
    l.countP (fun block => !block.free) + l.countP (fun block => block.free) = l.length := by
  induction l with
  | nil => rfl
  | cons x xs ih =>
    cases hx : x.free <;> simp [List.countP_cons, hx] <;> omega

/-! ## The allocator over sequences of calls -/

/-- C4. `do_deallocate` on an address that no tracked block has returns the
allocator unchanged: registry, free flags and both byte counters. The call has
no failing outcome at all (its result is a plain allocator state). In every
reachable state the null address is such an address. -/
theorem do_deallocate_untracked (mr : CustomMemoryResource) (p bytes alignment : Nat) :
    ((∀ b ∈ mr.allocated_blocks_, b.ptr ≠ p) → mr.do_deallocate p bytes alignment = mr) ∧
    (Reachable mr → mr.do_deallocate 0 bytes alignment = mr) := by
  have key : ∀ q, (∀ b ∈ mr.allocated_blocks_, b.ptr ≠ q) →
      mr.do_deallocate q bytes alignment = mr := by
    intro q h
    have hf : find_if (fun block => decide (block.ptr = q)) mr.allocated_blocks_ = none :=
      (find_if_none_iff _ _).mpr (fun b hb => by simpa using h b hb)
    simp only [CustomMemoryResource.do_deallocate, hf]
  refine ⟨key p, fun hr => key 0 ?_⟩
  intro b hb h0
  have hw := (wellFormed_of_reachable mr hr).2
  apply hw
  simp only [CustomMemoryResource.addresses, List.mem_map]
  exact ⟨b, hb, h0⟩

/-- Witness for C4: address 999 is not tracked in a registry holding 8, 16, 24. -/
theorem do_deallocate_untracked_witness :
    (∀ b ∈ three_blocks.allocated_blocks_, b.ptr ≠ 999) ∧
    three_blocks.do_deallocate 999 100 16 = three_blocks ∧
    Reachable {} ∧
    CustomMemoryResource.do_deallocate {} 0 100 16 = {} :=
  have h : ∀ b ∈ three_blocks.allocated_blocks_, b.ptr ≠ 999 := by decide
  ⟨h, (do_deallocate_untracked three_blocks 999 100 16).1 h, reachable_init,
    (do_deallocate_untracked {} 0 100 16).2 reachable_init⟩

/-- C5. Reuse determinism: in every reachable state, when
`allocate(bytes, alignment)` returns `p` and `deallocate(p, bytes, alignment)`
follows, the next `allocate(bytes, alignment)` returns `p` again, whatever the
heap would answer, and leaves exactly the registry the first `allocate` left;
in particular the number of free blocks after it is the number before the
`deallocate`. -/
theorem reuse_determinism (mr : CustomMemoryResource) (hr : Reachable mr)
    (bytes alignment : Nat) (heap heap' : Option Nat) (hh : heap_fresh mr heap = true)
    (mr1 : CustomMemoryResource) (p : Nat)
    (h1 : mr.do_allocate bytes alignment heap = .ok mr1 p) :
    ∃ mr3 : CustomMemoryResource,
      (mr1.do_deallocate p bytes alignment).do_allocate bytes alignment heap' = .ok mr3 p ∧
      mr3.allocated_blocks_ = mr1.allocated_blocks_ ∧
      mr3.get_free_blocks_count = mr1.get_free_blocks_count := by
  have hw1 := (wellFormed_do_allocate mr mr1 bytes alignment p heap
    (wellFormed_of_reachable mr hr) hh h1).1
  obtain ⟨i, b, hb, hp, hfree, hsize, hal, hfirst⟩ :=
    do_allocate_ok_shape mr mr1 bytes alignment p heap h1
  subst hp
  have hd := do_deallocate_at mr1 i b bytes alignment hw1.1 hb
  have hi : (assign_free true mr1.allocated_blocks_ i)[i]? = some { b with free := true } :=
    assign_free_getElem?_self _ _ _ _ hb
  have hf : find_if (CustomMemoryResource.reusable bytes alignment)
      (assign_free true mr1.allocated_blocks_ i) = some (i, { b with free := true }) := by
    apply find_if_eq_some_of_first _ _ _ _ hi
    · exact (reusable_iff _ _ _).mpr ⟨rfl, hsize, hal⟩
    · intro j c hj hc
      rw [assign_free_getElem?_ne _ _ _ _ (by omega)] at hc
      exact hfirst j c hj hc
  have hc := assign_free_cancel false true mr1.allocated_blocks_ i b hb hfree
  refine ⟨{ mr1 with
      total_deallocated_bytes_ := (mr1.total_deallocated_bytes_ + bytes) % SIZE_MOD }, ?_, rfl, rfl⟩
  rw [hd]
  simp only [CustomMemoryResource.do_allocate, hf, hc]

/-- Witness for C5: `allocate(100, 16)`, `deallocate`, `allocate(100, 16)` on a
newly constructed allocator. -/
theorem reuse_determinism_witness :
    Reachable {} ∧ heap_fresh {} (some 4096) = true ∧
    CustomMemoryResource.do_allocate {} 100 16 (some 4096) =
      .ok { allocated_blocks_ := [{ ptr := 4096, size := 100, alignment := 16, free := false }]
            total_allocated_bytes_ := 100 } 4096 ∧
    ∃ mr3 : CustomMemoryResource,
      (CustomMemoryResource.do_deallocate
          { allocated_blocks_ := [{ ptr := 4096, size := 100, alignment := 16, free := false }]
            total_allocated_bytes_ := 100 } 4096 100 16).do_allocate 100 16 none
        = .ok mr3 4096 ∧
      mr3.allocated_blocks_ =
        [{ ptr := 4096, size := 100, alignment := 16, free := false }] ∧
      mr3.get_free_blocks_count =
        CustomMemoryResource.get_free_blocks_count
          { allocated_blocks_ := [{ ptr := 4096, size := 100, alignment := 16, free := false }]
            total_allocated_bytes_ := 100 } :=
  ⟨reachable_init, by decide, by decide,
    reuse_determinism {} reachable_init 100 16 (some 4096) none (by decide) _ 4096 (by decide)⟩

/-- C6. No reuse across alignments: in every reachable state, when
`allocate(bytes, a1)` returns `p`, `p` is handed back (with any size and
alignment arguments) and `allocate(bytes, a2)` with `a2 ≠ a1` follows, then
whenever that call returns, it returns an address different from `p` and the
block at `p` is still free; it does return whenever the heap supplies a
region. -/
theorem no_cross_alignment_reuse (mr : CustomMemoryResource) (hr : Reachable mr)
    (bytes a1 a2 : Nat) (hne : a1 ≠ a2) (heap heap' : Option Nat)
    (hh : heap_fresh mr heap = true) (mr1 : CustomMemoryResource) (p : Nat)
    (h1 : mr.do_allocate bytes a1 heap = .ok mr1 p) (dbytes dalign : Nat)
    (hh' : heap_fresh (mr1.do_deallocate p dbytes dalign) heap' = true) :
    (∀ mr3 q, (mr1.do_deallocate p dbytes dalign).do_allocate bytes a2 heap' = .ok mr3 q →
      q ≠ p ∧ block_free_at mr3 p) ∧
    (heap' ≠ none →
      ∃ mr3 q, (mr1.do_deallocate p dbytes dalign).do_allocate bytes a2 heap' = .ok mr3 q) := by
  have hw1 := (wellFormed_do_allocate mr mr1 bytes a1 p heap
    (wellFormed_of_reachable mr hr) hh h1).1
  obtain ⟨i, b, hb, hp, _, _, hal, _⟩ := do_allocate_ok_shape mr mr1 bytes a1 p heap h1
  subst hp
  have hd := do_deallocate_at mr1 i b dbytes dalign hw1.1 hb
  have hi : (assign_free true mr1.allocated_blocks_ i)[i]? = some { b with free := true } :=
    assign_free_getElem?_self _ _ _ _ hb
  rw [hd] at hh' ⊢
  constructor
  · intro mr3 q h3
    rcases do_allocate_cases _ bytes a2 heap' with ⟨k, c, hf, hres⟩ | ⟨_, _, hres⟩ | ⟨r, hf, hr', hres⟩
    · rw [hres] at h3
      simp only [Outcome.ok.injEq] at h3
      obtain ⟨rfl, rfl⟩ := h3
      obtain ⟨hk, hc, _⟩ := find_if_some_spec _ _ _ _ hf
      have hki : k ≠ i := by
        rintro rfl
        rw [hi] at hk
        simp only [Option.some.injEq] at hk
        subst hk
        exact hne (hal.symm.trans ((reusable_iff _ _ _).mp hc).2.2)
      have hN : ((assign_free true mr1.allocated_blocks_ i).map (fun c => c.ptr)).Nodup := by
        rw [assign_free_map_ptr]; exact hw1.1
      constructor
      · intro he
        exact hki (nodup_index_unique _ k i c { b with free := true } hN hk hi he)
      · refine ⟨{ b with free := true }, ?_, rfl, rfl⟩
        apply List.getElem?_mem (n := i)
        show (assign_free false (assign_free true mr1.allocated_blocks_ i) k)[i]? = _
        rw [assign_free_getElem?_ne _ _ _ _ (Ne.symm hki)]
        exact hi
    · rw [hres] at h3; cases h3
    · rw [hres] at h3
      simp only [Outcome.ok.injEq] at h3
      obtain ⟨rfl, rfl⟩ := h3
      subst hr'
      obtain ⟨_, hnot⟩ := (heap_fresh_some_iff _ r).mp hh'
      constructor
      · rintro rfl
        apply hnot
        simp only [CustomMemoryResource.addresses, assign_free_map_ptr]
        exact mem_addresses_of_getElem? mr1 i b hb
      · refine ⟨{ b with free := true }, ?_, rfl, rfl⟩
        show _ ∈ assign_free true mr1.allocated_blocks_ i ++ _
        exact List.mem_append_left _ (List.getElem?_mem hi)
  · intro hsome
    rcases do_allocate_cases
      ({ mr1 with
          allocated_blocks_ := assign_free true mr1.allocated_blocks_ i
          total_deallocated_bytes_ := (mr1.total_deallocated_bytes_ + dbytes) % SIZE_MOD })
      bytes a2 heap' with ⟨k, c, _, hres⟩ | ⟨_, hn, _⟩ | ⟨r, _, _, hres⟩
    · exact ⟨_, _, hres⟩
    · exact absurd hn hsome
    · exact ⟨_, _, hres⟩

/-- Witness for C6: `allocate(100, 16)`, `deallocate`, `allocate(100, 32)` on a
newly constructed allocator leaves one block in use and one block free. -/
theorem no_cross_alignment_reuse_witness :
    Reachable {} ∧ (16 : Nat) ≠ 32 ∧ heap_fresh {} (some 4096) = true ∧
    CustomMemoryResource.do_allocate {} 100 16 (some 4096) =
      .ok { allocated_blocks_ := [{ ptr := 4096, size := 100, alignment := 16, free := false }]
            total_allocated_bytes_ := 100 } 4096 ∧
    (CustomMemoryResource.do_deallocate
        { allocated_blocks_ := [{ ptr := 4096, size := 100, alignment := 16, free := false }]
          total_allocated_bytes_ := 100 } 4096 100 16).do_allocate 100 32 (some 8192) =
      .ok { allocated_blocks_ :=
              [{ ptr := 4096, size := 100, alignment := 16, free := true },
               { ptr := 8192, size := 100, alignment := 32, free := false }]
            total_allocated_bytes_ := 200
            total_deallocated_bytes_ := 100 } 8192 ∧
    CustomMemoryResource.get_allocated_blocks_count
      { allocated_blocks_ :=
          [{ ptr := 4096, size := 100, alignment := 16, free := true },
           { ptr := 8192, size := 100, alignment := 32, free := false }]
        total_allocated_bytes_ := 200
        total_deallocated_bytes_ := 100 } = 1 ∧
    CustomMemoryResource.get_free_blocks_count
      { allocated_blocks_ :=
          [{ ptr := 4096, size := 100, alignment := 16, free := true },
           { ptr := 8192, size := 100, alignment := 32, free := false }]
        total_allocated_bytes_ := 200
        total_deallocated_bytes_ := 100 } = 1 ∧
    (8192 : Nat) ≠ 4096 ∧
    block_free_at
      { allocated_blocks_ :=
          [{ ptr := 4096, size := 100, alignment := 16, free := true },
           { ptr := 8192, size := 100, alignment := 32, free := false }]
        total_allocated_bytes_ := 200
        total_deallocated_bytes_ := 100 } 4096 :=
  have h := (no_cross_alignment_reuse {} reachable_init 100 16 32 (by decide) (some 4096)
    (some 8192) (by decide) _ 4096 (by decide) 100 16 (by decide)).1 _ 8192
    (by decide :
      (CustomMemoryResource.do_deallocate
        { allocated_blocks_ := [{ ptr := 4096, size := 100, alignment := 16, free := false }]
          total_allocated_bytes_ := 100 } 4096 100 16).do_allocate 100 32 (some 8192) =
      .ok { allocated_blocks_ :=
              [{ ptr := 4096, size := 100, alignment := 16, free := true },
               { ptr := 8192, size := 100, alignment := 32, free := false }]
            total_allocated_bytes_ := 200
            total_deallocated_bytes_ := 100 } 8192)
  ⟨reachable_init, by decide, by decide, by decide, by decide, by decide, by decide, h.1, h.2⟩

/-- C7. Block-count invariant: after every finite sequence of `allocate` and
`deallocate` calls on a newly constructed allocator (the heap never handing out
a region that is still outstanding), the number of blocks in use plus the number
of free blocks is the number of distinct addresses `allocate` has returned, and
that is the number of records in the registry. -/
theorem block_count_invariant (calls : List Call)
    (hh : Session.heap_respected {} calls = true) :
    (Session.run {} calls).mr.get_allocated_blocks_count +
        (Session.run {} calls).mr.get_free_blocks_count =
      (Session.run {} calls).returned.dedup.length ∧
    (Session.run {} calls).returned.dedup.length =
      (Session.run {} calls).mr.allocated_blocks_.length := by
  obtain ⟨hw, hmem⟩ := inv_run {} calls inv_init hh
  have hperm : List.Perm (Session.run {} calls).returned.dedup
      (Session.run {} calls).mr.addresses :=
    (List.perm_ext_iff_of_nodup (List.nodup_dedup _) hw.1).mpr
      (fun p => by rw [List.mem_dedup]; exact hmem p)
  have hlen : (Session.run {} calls).returned.dedup.length =
      (Session.run {} calls).mr.allocated_blocks_.length := by
    rw [hperm.length_eq, CustomMemoryResource.addresses, List.length_map]
  refine ⟨?_, hlen⟩
  rw [hlen]
  exact countP_in_use_add_free _

/-- Witness for C7: nine calls, among them a reuse, a hand-back of an untracked
address and a failed request; three blocks in use, one free, four addresses. -/
theorem block_count_invariant_witness :
    Session.heap_respected {} sample_calls = true ∧
    (Session.run {} sample_calls).returned = [4096, 8192, 12288, 8192, 16384] ∧
    (Session.run {} sample_calls).mr.get_allocated_blocks_count = 3 ∧
    (Session.run {} sample_calls).mr.get_free_blocks_count = 1 ∧
    ((Session.run {} sample_calls).mr.get_allocated_blocks_count +
        (Session.run {} sample_calls).mr.get_free_blocks_count =
      (Session.run {} sample_calls).returned.dedup.length ∧
    (Session.run {} sample_calls).returned.dedup.length =
      (Session.run {} sample_calls).mr.allocated_blocks_.length) :=
  ⟨by decide, by decide, by decide, by decide, block_count_invariant sample_calls (by decide)⟩

/-! ## Lemmas for DynamicArray -/

theorem do_allocate_ne_in_use (mr mr1 : CustomMemoryResource) (bytes alignment p : Nat)
    (heap : Option Nat) (hw : mr.WellFormed) (hh : heap_fresh mr heap = true)
    (ha : mr.do_allocate bytes alignment heap = .ok mr1 p) :
    ∀ b ∈ mr.allocated_blocks_, b.free = false → b.ptr ≠ p := by
  intro b hb hfree he
  rcases do_allocate_cases mr bytes alignment heap with ⟨i, c, hf, hr⟩ | ⟨_, _, hr⟩ | ⟨q, hf, hq, hr⟩
  · rw [hr] at ha
    simp only [Outcome.ok.injEq] at ha
    obtain ⟨_, rfl⟩ := ha
    obtain ⟨hc, hre, _⟩ := find_if_some_spec _ _ _ _ hf
    obtain ⟨k, hk⟩ := List.mem_iff_getElem?.mp hb
    have hik := nodup_index_unique _ k i b c hw.1 hk hc he
    subst hik
    rw [hk] at hc
    simp only [Option.some.injEq] at hc
    subst hc
    rw [((reusable_iff _ _ _).mp hre).1] at hfree
    cases hfree
  · rw [hr] at ha; cases ha
  · rw [hr] at ha
    simp only [Outcome.ok.injEq] at ha
    obtain ⟨_, rfl⟩ := ha
    subst hq
    apply ((heap_fresh_some_iff mr q).mp hh).2
    simp only [CustomMemoryResource.addresses, List.mem_map]
    exact ⟨b, hb, he⟩

theorem do_deallocate_mem_of_ne (mr : CustomMemoryResource) (q bytes alignment : Nat)
    (b : MemoryBlock) (hb : b ∈ mr.allocated_blocks_) (hne : b.ptr ≠ q) :
    b ∈ (mr.do_deallocate q bytes alignment).allocated_blocks_ := by
  unfold CustomMemoryResource.do_deallocate
  cases hf : find_if (fun block => decide (block.ptr = q)) mr.allocated_blocks_ with
  | none => exact hb
  | some r =>
    obtain ⟨i, c⟩ := r
    obtain ⟨hc, hp, _⟩ := find_if_some_spec _ _ _ _ hf
    obtain ⟨k, hk⟩ := List.mem_iff_getElem?.mp hb
    have hki : k ≠ i := by
      rintro rfl
      rw [hk] at hc
      simp only [Option.some.injEq] at hc
      subst hc
      exact hne (by simpa using hp)
    apply List.getElem?_mem (n := k)
    show (assign_free true mr.allocated_blocks_ i)[k]? = some b
    rw [assign_free_getElem?_ne _ _ _ _ hki]
    exact hk

theorem do_allocate_in_use_after (mr mr1 : CustomMemoryResource) (bytes alignment p : Nat)
    (heap : Option Nat) (ha : mr.do_allocate bytes alignment heap = .ok mr1 p) :
    ∃ b ∈ mr1.allocated_blocks_, b.ptr = p ∧ b.free = false := by
  obtain ⟨i, b, hb, hp, hfree, _⟩ := do_allocate_ok_shape mr mr1 bytes alignment p heap ha
  exact ⟨b, List.getElem?_mem hb, hp, hfree⟩

theorem move_elements_ok {T : Type} (E : Element T) (hE : E.ValueType)
    (data_ new_data new_capacity : Nat) (hne : new_data ≠ data_) (remaining : Nat) :
    ∀ (i : Nat) (objs : Objects T), i + remaining ≤ new_capacity →
      (∀ j, i ≤ j → j < i + remaining → (objs data_ j).isSome = true) →
      ∃ objs' : Objects T,
        DynamicArray.move_elements E data_ new_data new_capacity remaining i objs = .ok objs' () ∧
        (∀ j, i ≤ j → j < i + remaining → objs' new_data j = objs data_ j) ∧
        (∀ j, i ≤ j → j < i + remaining → objs' data_ j = none) ∧
        (∀ q j, ¬ ((q = new_data ∨ q = data_) ∧ i ≤ j ∧ j < i + remaining) →
          objs' q j = objs q j) := by
  induction remaining with
  | zero =>
    intro i objs _ _
    exact ⟨objs, rfl, fun j h1 h2 => by omega, fun j h1 h2 => by omega, fun _ _ _ => rfl⟩
  | succ n ih =>
    intro i objs hcap hsome
    obtain ⟨x, hx⟩ := Option.isSome_iff_exists.mp (hsome i (le_refl i) (by omega))
    have hstep : ∀ j, i + 1 ≤ j → j < i + 1 + n →
        ((((objs.construct new_data i x).destroy data_ i) data_ j).isSome = true) := by
      intro j h1 h2
      have hji : j ≠ i := by omega
      simp only [Objects.destroy, Objects.construct, hji, and_false, if_false]
      exact hsome j (by omega) (by omega)
    obtain ⟨objs', hrun, hnew, hold, hother⟩ :=
      ih (i + 1) ((objs.construct new_data i x).destroy data_ i) (by omega) hstep
    refine ⟨objs', ?_, ?_, ?_, ?_⟩
    · have hlt : i < new_capacity := by omega
      simp only [DynamicArray.move_elements, hx, hlt, if_true, hE.2 x]
      exact hrun
    · intro j h1 h2
      by_cases hji : j = i
      · subst hji
        rw [hother new_data j (by omega)]
        simp [Objects.destroy, Objects.construct, hne, hx]
      · rw [hnew j (by omega) (by omega)]
        simp [Objects.destroy, Objects.construct, hji]
    · intro j h1 h2
      by_cases hji : j = i
      · subst hji
        rw [hother data_ j (by omega)]
        simp [Objects.destroy]
      · exact hold j (by omega) (by omega)
    · intro q j hq
      rw [hother q j (by intro h; exact hq ⟨h.1, by omega, by omega⟩)]
      have : ¬ (q = data_ ∧ j = i) := by
        rintro ⟨rfl, rfl⟩
        exact hq ⟨Or.inr rfl, le_refl _, by omega⟩
      have h2 : ¬ (q = new_data ∧ j = i) := by
        rintro ⟨rfl, rfl⟩
        exact hq ⟨Or.inl rfl, le_refl _, by omega⟩
      simp [Objects.destroy, Objects.construct, this, h2]

theorem allocator_allocate_ok_iff {T : Type} (E : Element T) (sys : SystemHeap)
    (mr mr1 : CustomMemoryResource) (n p : Nat) :
    allocator_allocate E sys mr n = .ok mr1 p ↔
      n ≤ SIZE_MAX / E.sizeof ∧
      mr.do_allocate (n * E.sizeof) E.alignof (sys mr (n * E.sizeof) E.alignof) = .ok mr1 p := by
  unfold allocator_allocate
  by_cases h : n > SIZE_MAX / E.sizeof
  · simp only [h, if_true]
    constructor
    · intro h'; cases h'
    · intro h'; omega
  · simp only [h, if_false]
    constructor
    · intro h'; exact ⟨by omega, h'⟩
    · intro h'; exact h'.2

theorem allocator_allocate_ne_undefined {T : Type} (E : Element T) (sys : SystemHeap)
    (mr : CustomMemoryResource) (n : Nat) : allocator_allocate E sys mr n ≠ .undefined := by
  unfold allocator_allocate
  by_cases h : n > SIZE_MAX / E.sizeof
  · simp [h]
  · simp only [h, if_false]
    exact do_allocate_ne_undefined _ _ _ _

theorem size_max_div_lt (k : Nat) : SIZE_MAX / k < SIZE_MOD :=
  lt_of_le_of_lt (Nat.div_le_self _ _) (by decide)

theorem reserve_grow {T : Type} (E : Element T) (hE : E.ValueType) (sys : SystemHeap)
    (a : DynamicArray) (w : World T) (hv : a.Valid w) (new_capacity : Nat)
    (hgt : a.capacity_ < new_capacity)
    (hfresh : heap_fresh w.mr (sys w.mr (new_capacity * E.sizeof) E.alignof) = true)
    (mr1 : CustomMemoryResource) (p : Nat)
    (ha : allocator_allocate E sys w.mr new_capacity = .ok mr1 p) :
    ∃ w' : World T,
      a.reserve E sys w new_capacity =
        .ok (w', { data_ := p, size_ := a.size_, capacity_ := new_capacity }) () ∧
      DynamicArray.Valid { data_ := p, size_ := a.size_, capacity_ := new_capacity } w' ∧
      (∀ j, j < a.size_ → w'.objects p j = w.objects a.data_ j) ∧
      w'.mr = (if a.data_ ≠ 0 then allocator_deallocate E mr1 a.data_ a.capacity_ else mr1) := by
  obtain ⟨hw, hsz, hcap, hnull, hblock, hobj⟩ := hv
  obtain ⟨hfit, hdo⟩ := (allocator_allocate_ok_iff E sys w.mr mr1 new_capacity p).mp ha
  obtain ⟨hw1, hp1, _⟩ := wellFormed_do_allocate _ _ _ _ _ _ hw hfresh hdo
  have hp0 : p ≠ 0 := fun h => hw1.2 (h ▸ hp1)
  have hne : p ≠ a.data_ := by
    by_cases hc : a.capacity_ = 0
    · rw [hnull hc]; exact hp0
    · obtain ⟨b, hb, hbp, hbf⟩ := hblock hc
      intro he
      exact do_allocate_ne_in_use _ _ _ _ _ _ hw hfresh hdo b hb hbf (hbp.trans he.symm)
  obtain ⟨objs', hrun, hnew, _, _⟩ :=
    move_elements_ok E hE a.data_ p new_capacity hne a.size_ 0 w.objects (by omega)
      (fun j _ hj => hobj j (by omega))
  refine ⟨{ mr := if a.data_ ≠ 0 then allocator_deallocate E mr1 a.data_ a.capacity_ else mr1
            objects := objs' }, ?_, ?_, ?_, rfl⟩
  · have hle : ¬ new_capacity ≤ a.capacity_ := by omega
    simp only [DynamicArray.reserve, hle, if_false, ha, hrun]
  · refine ⟨?_, by simp only; omega, ?_, ?_, ?_, ?_⟩
    · show CustomMemoryResource.WellFormed
        (if a.data_ ≠ 0 then allocator_deallocate E mr1 a.data_ a.capacity_ else mr1)
      split
      · exact wellFormed_do_deallocate _ _ _ _ hw1
      · exact hw1
    · exact lt_of_le_of_lt hfit (size_max_div_lt _)
    · intro h0
      simp only at h0
      omega
    · intro _
      obtain ⟨b, hb, hbp, hbf⟩ := do_allocate_in_use_after _ _ _ _ _ _ hdo
      refine ⟨b, ?_, hbp, hbf⟩
      show b ∈ CustomMemoryResource.allocated_blocks_
        (if a.data_ ≠ 0 then allocator_deallocate E mr1 a.data_ a.capacity_ else mr1)
      split
      · exact do_deallocate_mem_of_ne _ _ _ _ b hb (by rw [hbp]; exact hne)
      · exact hb
    · intro i hi
      show (objs' p i).isSome = true
      rw [hnew i (by omega) (by simpa using hi)]
      exact hobj i hi
  · intro j hj
    exact hnew j (by omega) (by omega)

theorem reserve_ok_inv {T : Type} (E : Element T) (sys : SystemHeap)
    (a a' : DynamicArray) (w w' : World T) (new_capacity : Nat)
    (hgt : a.capacity_ < new_capacity)
    (h : a.reserve E sys w new_capacity = .ok (w', a') ()) :
    ∃ mr1 p, allocator_allocate E sys w.mr new_capacity = .ok mr1 p := by
  have hle : ¬ new_capacity ≤ a.capacity_ := by omega
  simp only [DynamicArray.reserve, hle, if_false] at h
  cases ha : allocator_allocate E sys w.mr new_capacity with
  | ok mr1 p => exact ⟨mr1, p, rfl⟩
  | throws mr1 e => rw [ha] at h; cases h
  | undefined => rw [ha] at h; cases h

theorem elements_length {T : Type} (a : DynamicArray) (w : World T) (xs : List T)
    (h : a.elements w = xs.map some) : xs.length = a.size_ := by
  have := congrArg List.length h
  simpa [DynamicArray.elements] using this.symm

theorem grow_if_full_ok {T : Type} (E : Element T) (hE : E.ValueType) (sys : SystemHeap)
    (hfresh : sys.Fresh) (a : DynamicArray) (w : World T) (hv : a.Valid w)
    (w1 : World T) (a1 : DynamicArray) (h : a.grow_if_full E sys w = .ok (w1, a1) ()) :
    a1.Valid w1 ∧ a1.size_ = a.size_ ∧ a1.elements w1 = a.elements w ∧
    (a1.size_ < a1.capacity_ →
      (a.size_ < a.capacity_ → a1.capacity_ = a.capacity_) ∧
      (a.size_ = a.capacity_ → a1.capacity_ = a.grown_capacity)) := by
  unfold DynamicArray.grow_if_full at h
  by_cases hfull : a.size_ = a.capacity_
  · simp only [hfull, if_true] at h
    by_cases hle : (if a.capacity_ = 0 then 1 else (a.capacity_ * 2) % SIZE_MOD) ≤ a.capacity_
    · simp only [DynamicArray.reserve, hle, if_true, Outcome.ok.injEq, Prod.mk.injEq,
        and_true] at h
      obtain ⟨rfl, rfl⟩ := h
      exact ⟨hv, rfl, rfl, fun hlt => by omega⟩
    · have hgt : a.capacity_ < (if a.capacity_ = 0 then 1 else (a.capacity_ * 2) % SIZE_MOD) := by
        omega
      obtain ⟨mr1, p, ha⟩ := reserve_ok_inv E sys a a1 w w1 _ hgt h
      obtain ⟨w', hr, hv', hobj, _⟩ :=
        reserve_grow E hE sys a w hv _ hgt (hfresh _ _ _) mr1 p ha
      rw [hr] at h
      simp only [Outcome.ok.injEq, Prod.mk.injEq, and_true] at h
      obtain ⟨rfl, rfl⟩ := h
      refine ⟨hv', rfl, ?_, fun _ => ⟨fun hlt => by omega, fun _ => ?_⟩⟩
      · simp only [DynamicArray.elements]
        apply List.map_congr_left
        intro j hj
        exact hobj j (List.mem_range.mp hj)
      · show (if a.capacity_ = 0 then 1 else (a.capacity_ * 2) % SIZE_MOD) = a.grown_capacity
        unfold DynamicArray.grown_capacity
        by_cases hc : a.capacity_ = 0
        · simp [hc]
        · simp only [hc, if_false] at hgt ⊢
          have hcap := hv.2.2.1
          by_cases hwrap : a.capacity_ * 2 < SIZE_MOD
          · rw [Nat.mod_eq_of_lt hwrap]; omega
          · exfalso
            have h1 : a.capacity_ * 2 % SIZE_MOD = a.capacity_ * 2 - SIZE_MOD := by
              rw [Nat.mod_eq_sub_mod (by omega)]
              exact Nat.mod_eq_of_lt (by omega)
            omega
  · simp only [hfull, if_false, Outcome.ok.injEq, Prod.mk.injEq, and_true] at h
    obtain ⟨rfl, rfl⟩ := h
    have := hv.2.1
    exact ⟨hv, rfl, rfl, fun hlt => ⟨fun _ => rfl, fun he => absurd he hfull⟩⟩

theorem grow_if_full_returns {T : Type} (E : Element T) (hE : E.ValueType) (sys : SystemHeap)
    (hfresh : sys.Fresh) (a : DynamicArray) (w : World T) (hv : a.Valid w)
    (h : a.size_ < a.capacity_ ∨
      (sys.Unlimited ∧ a.grown_capacity * E.sizeof ≤ SIZE_MAX)) :
    ∃ w1 a1, a.grow_if_full E sys w = .ok (w1, a1) () ∧ a1.size_ < a1.capacity_ := by
  unfold DynamicArray.grow_if_full
  by_cases hfull : a.size_ = a.capacity_
  · rcases h with hlt | ⟨hun, hfit⟩
    · omega
    · simp only [hfull, if_true]
      have hpos := E.sizeof_pos
      have hg : (if a.capacity_ = 0 then 1 else (a.capacity_ * 2) % SIZE_MOD) =
          a.grown_capacity := by
        unfold DynamicArray.grown_capacity at hfit ⊢
        by_cases hc : a.capacity_ = 0
        · simp [hc]
        · simp only [hc, if_false] at hfit ⊢
          have h2 : 2 * a.capacity_ ≤ 2 * a.capacity_ * E.sizeof :=
            Nat.le_mul_of_pos_right _ hpos
          have h3 : SIZE_MAX < SIZE_MOD := by decide
          rw [Nat.mod_eq_of_lt (by omega)]; omega
      rw [hg]
      have hgt : a.capacity_ < a.grown_capacity := by
        unfold DynamicArray.grown_capacity
        split <;> omega
      have hdiv : a.grown_capacity ≤ SIZE_MAX / E.sizeof :=
        (Nat.le_div_iff_mul_le hpos).mpr hfit
      have hret : ∃ mr1 p, allocator_allocate E sys w.mr a.grown_capacity = .ok mr1 p := by
        rcases do_allocate_cases w.mr (a.grown_capacity * E.sizeof) E.alignof
          (sys w.mr (a.grown_capacity * E.sizeof) E.alignof) with
          ⟨i, b, _, hr⟩ | ⟨_, hn, _⟩ | ⟨q, _, _, hr⟩
        · exact ⟨_, _, (allocator_allocate_ok_iff E sys w.mr _ _ _).mpr ⟨hdiv, hr⟩⟩
        · exact absurd hn (hun _ _ _)
        · exact ⟨_, _, (allocator_allocate_ok_iff E sys w.mr _ _ _).mpr ⟨hdiv, hr⟩⟩
      obtain ⟨mr1, p, ha⟩ := hret
      obtain ⟨w', hres, _⟩ :=
        reserve_grow E hE sys a w hv a.grown_capacity hgt (hfresh _ _ _) mr1 p ha
      exact ⟨w', _, hres, by show a.size_ < a.grown_capacity; omega⟩
  · simp only [hfull, if_false]
    have := hv.2.1
    exact ⟨w, a, rfl, by omega⟩

theorem construct_at_end_ok {T : Type} (a : DynamicArray) (w : World T) (hv : a.Valid w)
    (built : Option T) (w' : World T) (a' : DynamicArray)
    (h : a.construct_at_end w built = .ok (w', a') ()) :
    ∃ x, built = some x ∧ a.size_ < a.capacity_ ∧ a'.Valid w' ∧
      a'.elements w' = a.elements w ++ [some x] ∧ a'.size_ = a.size_ + 1 ∧
      a'.capacity_ = a.capacity_ ∧ a'.data_ = a.data_ ∧ w'.objects a'.data_ a.size_ = some x := by
  obtain ⟨hw, hsz, hcap, hnull, hblock, hobj⟩ := hv
  unfold DynamicArray.construct_at_end at h
  by_cases hlt : a.size_ < a.capacity_
  · simp only [hlt, if_true] at h
    cases built with
    | none => cases h
    | some x =>
      simp only [Outcome.ok.injEq, Prod.mk.injEq, and_true] at h
      obtain ⟨rfl, rfl⟩ := h
      have hmod : (a.size_ + 1) % SIZE_MOD = a.size_ + 1 := Nat.mod_eq_of_lt (by omega)
      refine ⟨x, rfl, hlt, ⟨hw, ?_, hcap, hnull, hblock, ?_⟩, ?_, hmod, rfl, rfl, ?_⟩
      · show (a.size_ + 1) % SIZE_MOD ≤ a.capacity_
        omega
      · intro i hi
        have hi' : i < a.size_ + 1 := by
          have : i < (a.size_ + 1) % SIZE_MOD := hi
          omega
        show ((w.objects.construct a.data_ a.size_ x) a.data_ i).isSome = true
        by_cases hie : i = a.size_
        · simp [Objects.construct, hie]
        · simp only [Objects.construct, hie, and_false, if_false]
          exact hobj i (by omega)
      · simp only [DynamicArray.elements, hmod, List.range_succ, List.map_append, List.map_cons,
          List.map_nil]
        congr 1
        · apply List.map_congr_left
          intro j hj
          have hj' : j ≠ a.size_ := by
            have := List.mem_range.mp hj
            omega
          simp [Objects.construct, hj']
        · simp [Objects.construct]
      · simp [Objects.construct]
  · simp only [hlt, if_false] at h
    cases h

theorem construct_at_end_returns {T : Type} (a : DynamicArray) (w : World T)
    (hlt : a.size_ < a.capacity_) (x : T) :
    ∃ w' a', a.construct_at_end w (some x) = .ok (w', a') () := by
  unfold DynamicArray.construct_at_end
  simp only [hlt, if_true]
  exact ⟨_, _, rfl⟩

theorem append_post {T : Type} (E : Element T) (hE : E.ValueType) (sys : SystemHeap)
    (hfresh : sys.Fresh) (a : DynamicArray) (w : World T) (hv : a.Valid w)
    (xs : List T) (hxs : a.elements w = xs.map some) (v : T)
    (w1 w' : World T) (a1 a' : DynamicArray)
    (hgrow : a.grow_if_full E sys w = .ok (w1, a1) ())
    (hcons : a1.construct_at_end w1 (some v) = .ok (w', a') ()) :
    a'.Valid w' ∧ a.Appended xs v a' w' ∧ w'.objects a'.data_ a.size_ = some v := by
  obtain ⟨hv1, hs1, he1, hc1⟩ := grow_if_full_ok E hE sys hfresh a w hv w1 a1 hgrow
  obtain ⟨x, hx, hlt, hv', he', hs', hc', _, hidx⟩ :=
    construct_at_end_ok a1 w1 hv1 (some v) w' a' hcons
  simp only [Option.some.injEq] at hx
  subst hx
  obtain ⟨hkeep, hdouble⟩ := hc1 hlt
  refine ⟨hv', ⟨?_, by omega, ?_, ?_, ?_⟩, by rw [← hs1]; exact hidx⟩
  · rw [he', he1, hxs]; simp
  · intro h; rw [hc', hkeep h]
  · intro h h0
    rw [hc', hdouble h]
    simp [DynamicArray.grown_capacity, h0]
  · intro h h0
    rw [hc', hdouble h]
    have : a.capacity_ ≠ 0 := by omega
    simp [DynamicArray.grown_capacity, this]

theorem push_back_ok_inv {T : Type} (E : Element T) (sys : SystemHeap) (a : DynamicArray)
    (w : World T) (v : T) (w' : World T) (a' : DynamicArray)
    (h : a.push_back E sys w v = .ok (w', a') ()) :
    ∃ w1 a1, a.grow_if_full E sys w = .ok (w1, a1) () ∧
      a1.construct_at_end w1 (E.copy_ctor v) = .ok (w', a') () := by
  unfold DynamicArray.push_back at h
  cases hg : a.grow_if_full E sys w with
  | undefined => rw [hg] at h; cases h
  | throws s e => rw [hg] at h; cases h
  | ok s u =>
    obtain ⟨w1, a1⟩ := s
    rw [hg] at h
    exact ⟨w1, a1, rfl, h⟩

theorem push_back_rvalue_ok_inv {T : Type} (E : Element T) (sys : SystemHeap)
    (a : DynamicArray) (w : World T) (v : T) (w' : World T) (a' : DynamicArray)
    (h : a.push_back_rvalue E sys w v = .ok (w', a') ()) :
    ∃ w1 a1, a.grow_if_full E sys w = .ok (w1, a1) () ∧
      a1.construct_at_end w1 (E.move_ctor v) = .ok (w', a') () := by
  unfold DynamicArray.push_back_rvalue at h
  cases hg : a.grow_if_full E sys w with
  | undefined => rw [hg] at h; cases h
  | throws s e => rw [hg] at h; cases h
  | ok s u =>
    obtain ⟨w1, a1⟩ := s
    rw [hg] at h
    exact ⟨w1, a1, rfl, h⟩

theorem emplace_back_ok_inv {T : Type} (E : Element T) (sys : SystemHeap)
    (a : DynamicArray) (w : World T) (built : Option T) (w' : World T) (a' : DynamicArray)
    (r : Nat × Nat) (h : a.emplace_back E sys w built = .ok (w', a') r) :
    r = (a'.data_, a'.size_ - 1) ∧
    ∃ w1 a1, a.grow_if_full E sys w = .ok (w1, a1) () ∧
      a1.construct_at_end w1 built = .ok (w', a') () := by
  unfold DynamicArray.emplace_back at h
  cases hg : a.grow_if_full E sys w with
  | undefined => rw [hg] at h; cases h
  | throws s e => rw [hg] at h; cases h
  | ok s u =>
    obtain ⟨w1, a1⟩ := s
    rw [hg] at h
    simp only at h
    cases hc : a1.construct_at_end w1 built with
    | undefined => rw [hc] at h; cases h
    | throws s e => rw [hc] at h; cases h
    | ok s2 u2 =>
      obtain ⟨w2, a2⟩ := s2
      rw [hc] at h
      simp only [Outcome.ok.injEq, Prod.mk.injEq] at h
      obtain ⟨⟨rfl, rfl⟩, rfl⟩ := h
      exact ⟨rfl, w1, a1, rfl, hc⟩

theorem push_back_valid {T : Type} (E : Element T) (hE : E.ValueType) (sys : SystemHeap)
    (hfresh : sys.Fresh) (a : DynamicArray) (w : World T) (hv : a.Valid w)
    (xs : List T) (hxs : a.elements w = xs.map some) (v : T) (w' : World T)
    (a' : DynamicArray) (h : a.push_back E sys w v = .ok (w', a') ()) :
    a'.Valid w' ∧ a.Appended xs v a' w' := by
  obtain ⟨w1, a1, hg, hc⟩ := push_back_ok_inv E sys a w v w' a' h
  rw [hE.1 v] at hc
  obtain ⟨h1, h2, _⟩ := append_post E hE sys hfresh a w hv xs hxs v w1 w' a1 a' hg hc
  exact ⟨h1, h2⟩

theorem push_back_returns {T : Type} (E : Element T) (hE : E.ValueType) (sys : SystemHeap)
    (hfresh : sys.Fresh) (a : DynamicArray) (w : World T) (hv : a.Valid w) (v : T)
    (h : a.size_ < a.capacity_ ∨
      (sys.Unlimited ∧ a.grown_capacity * E.sizeof ≤ SIZE_MAX)) :
    ∃ w' a', a.push_back E sys w v = .ok (w', a') () := by
  obtain ⟨w1, a1, hg, hlt⟩ := grow_if_full_returns E hE sys hfresh a w hv h
  obtain ⟨w', a', hc⟩ := construct_at_end_returns a1 w1 hlt v
  refine ⟨w', a', ?_⟩
  simp only [DynamicArray.push_back, hg, hE.1 v, hc]

theorem push_back_all_valid {T : Type} (E : Element T) (hE : E.ValueType) (sys : SystemHeap)
    (hfresh : sys.Fresh) (vs : List T) :
    ∀ (a : DynamicArray) (w : World T) (xs : List T), a.Valid w →
      a.elements w = xs.map some →
      ∀ (w' : World T) (a' : DynamicArray), a.push_back_all E sys w vs = .ok (w', a') () →
        a'.Valid w' ∧ a'.elements w' = (xs ++ vs).map some := by
  induction vs with
  | nil =>
    intro a w xs hv hxs w' a' h
    simp only [DynamicArray.push_back_all, Outcome.ok.injEq, Prod.mk.injEq, and_true] at h
    obtain ⟨rfl, rfl⟩ := h
    exact ⟨hv, by simpa using hxs⟩
  | cons v rest ih =>
    intro a w xs hv hxs w' a' h
    unfold DynamicArray.push_back_all at h
    cases hp : a.push_back E sys w v with
    | undefined => rw [hp] at h; cases h
    | throws s e => rw [hp] at h; cases h
    | ok s u =>
      obtain ⟨w1, a1⟩ := s
      rw [hp] at h
      obtain ⟨hv1, hap⟩ := push_back_valid E hE sys hfresh a w hv xs hxs v w1 a1 hp
      obtain ⟨hv', he'⟩ := ih a1 w1 (xs ++ [v]) hv1 hap.1 w' a' h
      exact ⟨hv', by simpa using he'⟩

theorem push_back_all_returns {T : Type} (E : Element T) (hE : E.ValueType) (sys : SystemHeap)
    (hfresh : sys.Fresh) (hun : sys.Unlimited) (vs : List T) :
    ∀ (a : DynamicArray) (w : World T) (xs : List T), a.Valid w →
      a.elements w = xs.map some →
      2 * (a.size_ + vs.length) * E.sizeof ≤ SIZE_MAX →
      ∃ w' a', a.push_back_all E sys w vs = .ok (w', a') () := by
  induction vs with
  | nil =>
    intro a w xs _ _ _
    exact ⟨w, a, rfl⟩
  | cons v rest ih =>
    intro a w xs hv hxs hfit
    have hcond : a.size_ < a.capacity_ ∨
        (sys.Unlimited ∧ a.grown_capacity * E.sizeof ≤ SIZE_MAX) := by
      by_cases hlt : a.size_ < a.capacity_
      · exact Or.inl hlt
      · refine Or.inr ⟨hun, le_trans (Nat.mul_le_mul_right _ ?_) hfit⟩
        have := hv.2.1
        simp only [List.length_cons]
        unfold DynamicArray.grown_capacity
        split <;> omega
    obtain ⟨w1, a1, hp⟩ := push_back_returns E hE sys hfresh a w hv v hcond
    obtain ⟨hv1, hap⟩ := push_back_valid E hE sys hfresh a w hv xs hxs v w1 a1 hp
    have hfit1 : 2 * (a1.size_ + rest.length) * E.sizeof ≤ SIZE_MAX := by
      rw [hap.2.1]
      simp only [List.length_cons] at hfit
      have : a.size_ + 1 + rest.length = a.size_ + (rest.length + 1) := by omega
      rw [this]; exact hfit
    obtain ⟨w', a', h⟩ := ih a1 w1 (xs ++ [v]) hv1 hap.1 hfit1
    refine ⟨w', a', ?_⟩
    simp only [DynamicArray.push_back_all, hp, h]

theorem valid_new {T : Type} (w : World T) (hw : w.mr.WellFormed) : DynamicArray.new.Valid w := by
  refine ⟨hw, le_refl _, by decide, fun _ => rfl, fun h => absurd rfl h, fun i hi => ?_⟩
  exact absurd hi (Nat.not_lt_zero i)

theorem index_of_elements {T : Type} (a : DynamicArray) (w : World T) (xs : List T)
    (h : a.elements w = xs.map some) (i : Nat) (hi : i < xs.length) :
    a.index w i = xs[i]? := by
  have hlen := elements_length a w xs h
  have h1 := congrArg (fun l => l[i]?) h
  simp only [DynamicArray.elements, List.getElem?_map, List.getElem?_range (hlen ▸ hi),
    Option.map_some'] at h1
  rw [List.getElem?_eq_getElem hi] at h1 ⊢
  simp only [Option.map_some', Option.some.injEq] at h1
  exact h1

theorem mem_le_sum (l : List Nat) : ∀ x ∈ l, x ≤ l.sum := by
  induction l with
  | nil => intro x hx; cases hx
  | cons y ys ih =>
    intro x hx
    simp only [List.mem_cons] at hx
    simp only [List.sum_cons]
    rcases hx with rfl | hx
    · omega
    · have := ih x hx
      omega

theorem bump_heap_fresh : bump_heap.Fresh := by
  intro mr bytes alignment
  rw [bump_heap, heap_fresh_some_iff]
  refine ⟨by omega, fun h => ?_⟩
  have := mem_le_sum _ _ h
  omega

theorem bump_heap_unlimited : bump_heap.Unlimited := by
  intro mr bytes alignment
  simp [bump_heap]

theorem int_element_valueType : int_element.ValueType :=
  ⟨fun _ => rfl, fun _ => rfl⟩

theorem one_int_array_valid : one_int_array.Valid one_int_world := by
  refine ⟨⟨by decide, by decide⟩, by decide, by decide, by decide, fun _ => ?_, fun i hi => ?_⟩
  · exact ⟨{ ptr := 16, size := 4, alignment := 4, free := false }, by decide, rfl, rfl⟩
  · have : i = 0 := by
      have : i < 1 := hi
      omega
    subst this
    rfl

/-! ## DynamicArray: appending -/

/-- C9. `push_back` (both overloads) and `emplace_back` on an array with
elements `xs`, length `n` and capacity `c`, for an element type with value
semantics and a heap that behaves: whenever the call returns, the elements are
`xs` followed by `v`, the length is `n + 1`, and the capacity is `c` when
`n < c`, `1` when `n == c == 0` and `2 * c` when `n == c > 0`; the reference
`emplace_back` returns is slot `n` of the array's storage and holds `v`. The
call does return when there is room, and also when the array is full, the heap
supplies memory and the grown capacity fits `size_t` in bytes. -/
theorem push_back_emplace_back_spec {T : Type} (E : Element T) (hE : E.ValueType)
    (sys : SystemHeap) (hfresh : sys.Fresh) (a : DynamicArray) (w : World T)
    (hv : a.Valid w) (xs : List T) (hxs : a.elements w = xs.map some) (v : T) :
    (∀ w' a', a.push_back E sys w v = .ok (w', a') () → a.Appended xs v a' w') ∧
    (∀ w' a', a.push_back_rvalue E sys w v = .ok (w', a') () → a.Appended xs v a' w') ∧
    (∀ w' a' r, a.emplace_back E sys w (some v) = .ok (w', a') r →
      a.Appended xs v a' w' ∧ r = (a'.data_, a.size_) ∧ a'.index w' a.size_ = some v) ∧
    (a.size_ < a.capacity_ ∨ (sys.Unlimited ∧ a.grown_capacity * E.sizeof ≤ SIZE_MAX) →
      (∃ w' a', a.push_back E sys w v = .ok (w', a') ()) ∧
      (∃ w' a', a.push_back_rvalue E sys w v = .ok (w', a') ()) ∧
      (∃ w' a' r, a.emplace_back E sys w (some v) = .ok (w', a') r)) := by
  refine ⟨?_, ?_, ?_, ?_⟩
  · intro w' a' h
    exact (push_back_valid E hE sys hfresh a w hv xs hxs v w' a' h).2
  · intro w' a' h
    obtain ⟨w1, a1, hg, hc⟩ := push_back_rvalue_ok_inv E sys a w v w' a' h
    rw [hE.2 v] at hc
    exact (append_post E hE sys hfresh a w hv xs hxs v w1 w' a1 a' hg hc).2.1
  · intro w' a' r h
    obtain ⟨hr, w1, a1, hg, hc⟩ := emplace_back_ok_inv E sys a w (some v) w' a' r h
    obtain ⟨_, hap, hidx⟩ := append_post E hE sys hfresh a w hv xs hxs v w1 w' a1 a' hg hc
    refine ⟨hap, ?_, hidx⟩
    rw [hr, hap.2.1, Nat.add_sub_cancel]
  · intro hcond
    obtain ⟨w1, a1, hg, hlt⟩ := grow_if_full_returns E hE sys hfresh a w hv hcond
    obtain ⟨w', a', hc⟩ := construct_at_end_returns a1 w1 hlt v
    refine ⟨⟨w', a', ?_⟩, ⟨w', a', ?_⟩, ⟨w', a', (a'.data_, a'.size_ - 1), ?_⟩⟩
    · simp only [DynamicArray.push_back, hg, hE.1 v, hc]
    · simp only [DynamicArray.push_back_rvalue, hg, hE.2 v, hc]
    · simp only [DynamicArray.emplace_back, hg, hc]

/-- Witness for C9: `push_back(10)` on the full `int` array `[7]` (capacity 1)
returns and gives `[7, 10]` with length 2 and capacity 2. -/
theorem push_back_emplace_back_spec_witness :
    int_element.ValueType ∧ bump_heap.Fresh ∧ one_int_array.Valid one_int_world ∧
    one_int_array.elements one_int_world = [(7 : Int)].map some ∧
    (bump_heap.Unlimited ∧ one_int_array.grown_capacity * int_element.sizeof ≤ SIZE_MAX) ∧
    ∃ w' a', one_int_array.push_back int_element bump_heap one_int_world 10 = .ok (w', a') () ∧
      a'.elements w' = [some 7, some 10] ∧ a'.size_ = 2 ∧ a'.capacity_ = 2 :=
  have hxs : one_int_array.elements one_int_world = [(7 : Int)].map some := rfl
  have hfit : bump_heap.Unlimited ∧ one_int_array.grown_capacity * int_element.sizeof ≤ SIZE_MAX :=
    ⟨bump_heap_unlimited, by decide⟩
  have h := push_back_emplace_back_spec int_element int_element_valueType bump_heap
    bump_heap_fresh one_int_array one_int_world one_int_array_valid [7] hxs 10
  ⟨int_element_valueType, bump_heap_fresh, one_int_array_valid, hxs, hfit,
    (h.2.2.2 (Or.inr hfit)).1.elim fun w' hw' => hw'.elim fun a' ha' =>
      ⟨w', a', ha', (h.1 w' a' ha').1, (h.1 w' a' ha').2.1,
        (h.1 w' a' ha').2.2.2.2 rfl (by decide)⟩⟩

/-- C10. Append then read back: for an element type with value semantics, a
heap that behaves and a world whose registry is well formed (as it is in every
reachable state), pushing the values `vs` one by one onto a newly constructed
array gives, whenever all the calls return, `size() == N`, `capacity() >= N`
and `operator[](i)` equal to the `i`-th value of `vs` for every `i < N`, with
`N` the length of `vs`. All the calls do return when the heap supplies memory
and `2 * N * sizeof(T)` fits `size_t`. -/
theorem push_back_read_back {T : Type} (E : Element T) (hE : E.ValueType)
    (sys : SystemHeap) (hfresh : sys.Fresh) (w : World T) (hw : w.mr.WellFormed)
    (vs : List T) :
    (∀ w' a', DynamicArray.new.push_back_all E sys w vs = .ok (w', a') () →
      a'.size = vs.length ∧ a'.capacity ≥ vs.length ∧
      ∀ i, i < vs.length → a'.index w' i = vs[i]?) ∧
    (sys.Unlimited → 2 * vs.length * E.sizeof ≤ SIZE_MAX →
      ∃ w' a', DynamicArray.new.push_back_all E sys w vs = .ok (w', a') ()) := by
  have hnew : DynamicArray.new.elements w = ([] : List T).map some := rfl
  constructor
  · intro w' a' h
    obtain ⟨hv', he'⟩ :=
      push_back_all_valid E hE sys hfresh vs DynamicArray.new w [] (valid_new w hw) hnew w' a' h
    rw [List.nil_append] at he'
    have hlen := elements_length a' w' vs he'
    refine ⟨hlen.symm, ?_, fun i hi => index_of_elements a' w' vs he' i hi⟩
    have := hv'.2.1
    show vs.length ≤ a'.capacity_
    omega
  · intro hun hfit
    refine push_back_all_returns E hE sys hfresh hun vs DynamicArray.new w [] (valid_new w hw)
      hnew ?_
    simpa [DynamicArray.new] using hfit

/-- Witness for C10: the 100 values 0, 1, ..., 99 pushed onto a new `int` array
on a new allocator. -/
theorem push_back_read_back_witness :
    int_element.ValueType ∧ bump_heap.Fresh ∧ bump_heap.Unlimited ∧
    (World.initial Int).mr.WellFormed ∧
    2 * ((List.range 100).map Int.ofNat).length * int_element.sizeof ≤ SIZE_MAX ∧
    ∃ w' a', DynamicArray.new.push_back_all int_element bump_heap (World.initial Int)
        ((List.range 100).map Int.ofNat) = .ok (w', a') () ∧
      a'.size = 100 ∧ a'.capacity ≥ 100 ∧
      ∀ i, i < 100 → a'.index w' i = some (Int.ofNat i) :=
  have hw : (World.initial Int).mr.WellFormed := inv_init.1
  have hfit : 2 * ((List.range 100).map Int.ofNat).length * int_element.sizeof ≤ SIZE_MAX := by
    decide
  have h := push_back_read_back int_element int_element_valueType bump_heap bump_heap_fresh
    (World.initial Int) hw ((List.range 100).map Int.ofNat)
  ⟨int_element_valueType, bump_heap_fresh, bump_heap_unlimited, hw, hfit,
    (h.2 bump_heap_unlimited hfit).elim fun w' hw' => hw'.elim fun a' ha' =>
      ⟨w', a', ha', by simpa using (h.1 w' a' ha').1, by simpa using (h.1 w' a' ha').2.1,
        fun i hi => by
          have := (h.1 w' a' ha').2.2 i (by simpa using hi)
          rw [this]
          simp [List.getElem?_range hi]⟩⟩

/-! ## Frame lemmas -/

theorem in_use_do_allocate (mr mr1 : CustomMemoryResource) (bytes alignment p q : Nat)
    (heap : Option Nat) (ha : mr.do_allocate bytes alignment heap = .ok mr1 p)
    (hq : in_use_at mr q) : in_use_at mr1 q := by
  obtain ⟨b, hb, hbq, hbf⟩ := hq
  rcases do_allocate_cases mr bytes alignment heap with ⟨i, c, hf, hr⟩ | ⟨_, _, hr⟩ | ⟨r, hf, hr', hr⟩
  · rw [hr] at ha
    simp only [Outcome.ok.injEq] at ha
    obtain ⟨rfl, _⟩ := ha
    obtain ⟨hc, hre, _⟩ := find_if_some_spec _ _ _ _ hf
    obtain ⟨k, hk⟩ := List.mem_iff_getElem?.mp hb
    have hki : k ≠ i := by
      rintro rfl
      rw [hk] at hc
      simp only [Option.some.injEq] at hc
      subst hc
      rw [((reusable_iff _ _ _).mp hre).1] at hbf
      cases hbf
    refine ⟨b, ?_, hbq, hbf⟩
    apply List.getElem?_mem (n := k)
    show (assign_free false mr.allocated_blocks_ i)[k]? = some b
    rw [assign_free_getElem?_ne _ _ _ _ hki]
    exact hk
  · rw [hr] at ha; cases ha
  · rw [hr] at ha
    simp only [Outcome.ok.injEq] at ha
    obtain ⟨rfl, _⟩ := ha
    exact ⟨b, List.mem_append_left _ hb, hbq, hbf⟩

theorem in_use_do_deallocate (mr : CustomMemoryResource) (p q bytes alignment : Nat)
    (hne : q ≠ p) (hq : in_use_at mr q) : in_use_at (mr.do_deallocate p bytes alignment) q := by
  obtain ⟨b, hb, hbq, hbf⟩ := hq
  exact ⟨b, do_deallocate_mem_of_ne mr p bytes alignment b hb (by rw [hbq]; exact hne), hbq, hbf⟩

theorem do_deallocate_frees (mr : CustomMemoryResource) (p bytes alignment : Nat)
    (h : ∃ b ∈ mr.allocated_blocks_, b.ptr = p) :
    block_free_at (mr.do_deallocate p bytes alignment) p := by
  obtain ⟨i, b, hf⟩ := find_if_exists (fun block => decide (block.ptr = p))
    mr.allocated_blocks_ (by
      obtain ⟨b, hb, hp⟩ := h
      exact ⟨b, hb, by simpa using hp⟩)
  obtain ⟨h1, h2, _⟩ := find_if_some_spec _ _ _ _ hf
  refine ⟨{ b with free := true }, ?_, by simpa using h2, rfl⟩
  simp only [CustomMemoryResource.do_deallocate, hf]
  exact List.getElem?_mem (assign_free_getElem?_self true _ _ _ h1)

theorem allocator_allocate_returns {T : Type} (E : Element T) (sys : SystemHeap)
    (hun : sys.Unlimited) (mr : CustomMemoryResource) (n : Nat)
    (hfit : n * E.sizeof ≤ SIZE_MAX) :
    ∃ mr1 p, allocator_allocate E sys mr n = .ok mr1 p := by
  have hdiv : n ≤ SIZE_MAX / E.sizeof := (Nat.le_div_iff_mul_le E.sizeof_pos).mpr hfit
  rcases do_allocate_cases mr (n * E.sizeof) E.alignof (sys mr (n * E.sizeof) E.alignof) with
    ⟨i, b, _, hr⟩ | ⟨_, hn, _⟩ | ⟨q, _, _, hr⟩
  · exact ⟨_, _, (allocator_allocate_ok_iff E sys mr _ _ _).mpr ⟨hdiv, hr⟩⟩
  · exact absurd hn (hun _ _ _)
  · exact ⟨_, _, (allocator_allocate_ok_iff E sys mr _ _ _).mpr ⟨hdiv, hr⟩⟩

theorem reserve_grow_frame {T : Type} (E : Element T) (hE : E.ValueType) (sys : SystemHeap)
    (a : DynamicArray) (w : World T) (hv : a.Valid w) (new_capacity : Nat)
    (hgt : a.capacity_ < new_capacity)
    (hfresh : heap_fresh w.mr (sys w.mr (new_capacity * E.sizeof) E.alignof) = true)
    (mr1 : CustomMemoryResource) (p : Nat)
    (ha : allocator_allocate E sys w.mr new_capacity = .ok mr1 p) :
    ∃ objs' : Objects T,
      a.reserve E sys w new_capacity =
        .ok ({ mr := if a.data_ ≠ 0 then allocator_deallocate E mr1 a.data_ a.capacity_ else mr1
               objects := objs' },
             { data_ := p, size_ := a.size_, capacity_ := new_capacity }) () ∧
      p ≠ a.data_ ∧ p ≠ 0 ∧ mr1.WellFormed ∧ in_use_at mr1 p ∧
      (∀ q, in_use_at w.mr q → in_use_at mr1 q ∧ q ≠ p) ∧
      (∀ j, j < a.size_ → objs' p j = w.objects a.data_ j) ∧
      (∀ j, j < a.size_ → objs' a.data_ j = none) ∧
      (∀ q j, ¬ ((q = p ∨ q = a.data_) ∧ j < a.size_) → objs' q j = w.objects q j) := by
  obtain ⟨hw, hsz, hcap, hnull, hblock, hobj⟩ := hv
  obtain ⟨hfit, hdo⟩ := (allocator_allocate_ok_iff E sys w.mr mr1 new_capacity p).mp ha
  obtain ⟨hw1, hp1, _⟩ := wellFormed_do_allocate _ _ _ _ _ _ hw hfresh hdo
  have hp0 : p ≠ 0 := fun h => hw1.2 (h ▸ hp1)
  have hne : p ≠ a.data_ := by
    by_cases hc : a.capacity_ = 0
    · rw [hnull hc]; exact hp0
    · obtain ⟨b, hb, hbp, hbf⟩ := hblock hc
      intro he
      exact do_allocate_ne_in_use _ _ _ _ _ _ hw hfresh hdo b hb hbf (hbp.trans he.symm)
  obtain ⟨objs', hrun, hnew, hold, hother⟩ :=
    move_elements_ok E hE a.data_ p new_capacity hne a.size_ 0 w.objects (by omega)
      (fun j _ hj => hobj j (by omega))
  refine ⟨objs', ?_, hne, hp0, hw1, do_allocate_in_use_after _ _ _ _ _ _ hdo, ?_, ?_, ?_, ?_⟩
  · have hle : ¬ new_capacity ≤ a.capacity_ := by omega
    simp only [DynamicArray.reserve, hle, if_false, ha, hrun]
  · intro q hq
    refine ⟨in_use_do_allocate _ _ _ _ _ _ _ hdo hq, ?_⟩
    obtain ⟨b, hb, hbq, hbf⟩ := hq
    rw [← hbq]
    exact do_allocate_ne_in_use _ _ _ _ _ _ hw hfresh hdo b hb hbf
  · intro j hj
    exact hnew j (by omega) (by omega)
  · intro j hj
    exact hold j (by omega) (by omega)
  · intro q j hq
    exact hother q j (fun h => hq ⟨h.1, by omega⟩)

theorem elements_eq_of_objects {T : Type} (a a' : DynamicArray) (w w' : World T)
    (hs : a'.size_ = a.size_)
    (h : ∀ j, j < a.size_ → w'.objects a'.data_ j = w.objects a.data_ j) :
    a'.elements w' = a.elements w := by
  simp only [DynamicArray.elements, hs]
  apply List.map_congr_left
  intro j hj
  exact h j (List.mem_range.mp hj)

/-! ## DynamicArray: reserve -/

/-- C11. `reserve(k)` on an array with elements `xs`, length `n` and capacity
`c`, for an element type with value semantics and a heap that behaves. If
`k <= c` the call returns with the array and the whole world, allocator included,
unchanged. If `k > c`, whenever the call returns, the capacity is exactly `k`,
the length is still `n`, the elements are still `xs` in the same order, the
storage is the address returned by the one `allocate` call for `k` slots (a
block in use), and the allocator is what that call left, after the one
`deallocate` of the old storage when there was one, whose block is then free.
The call does return when the heap supplies memory and `k * sizeof(T)` fits
`size_t`. -/
theorem reserve_spec {T : Type} (E : Element T) (hE : E.ValueType) (sys : SystemHeap)
    (hfresh : sys.Fresh) (a : DynamicArray) (w : World T) (hv : a.Valid w)
    (xs : List T) (hxs : a.elements w = xs.map some) (k : Nat) :
    (k ≤ a.capacity_ → a.reserve E sys w k = .ok (w, a) ()) ∧
    (a.capacity_ < k → ∀ w' a', a.reserve E sys w k = .ok (w', a') () →
      a'.capacity_ = k ∧ a'.size_ = a.size_ ∧ a'.elements w' = xs.map some ∧
      (∃ mr1, allocator_allocate E sys w.mr k = .ok mr1 a'.data_ ∧
        w'.mr = if a.data_ ≠ 0 then allocator_deallocate E mr1 a.data_ a.capacity_ else mr1) ∧
      in_use_at w'.mr a'.data_ ∧ a'.data_ ≠ a.data_ ∧
      (a.capacity_ ≠ 0 → a.data_ ≠ 0 ∧ block_free_at w'.mr a.data_)) ∧
    (a.capacity_ < k → sys.Unlimited → k * E.sizeof ≤ SIZE_MAX →
      ∃ w' a', a.reserve E sys w k = .ok (w', a') ()) := by
  refine ⟨?_, ?_, ?_⟩
  · intro hle
    simp only [DynamicArray.reserve, hle, if_true]
  · intro hgt w' a' h
    obtain ⟨mr1, p, ha⟩ := reserve_ok_inv E sys a a' w w' k hgt h
    obtain ⟨objs', hr, hne, _, hw1, hin, hkeep, hnew, _, _⟩ :=
      reserve_grow_frame E hE sys a w hv k hgt (hfresh _ _ _) mr1 p ha
    rw [hr] at h
    simp only [Outcome.ok.injEq, Prod.mk.injEq, and_true] at h
    obtain ⟨rfl, rfl⟩ := h
    refine ⟨rfl, rfl, ?_, ⟨mr1, ha, rfl⟩, ?_, hne, ?_⟩
    · rw [← hxs]
      exact elements_eq_of_objects a _ w _ rfl hnew
    · show in_use_at (if a.data_ ≠ 0 then allocator_deallocate E mr1 a.data_ a.capacity_ else mr1) p
      split
      · exact in_use_do_deallocate _ _ _ _ _ hne hin
      · exact hin
    · intro hc
      obtain ⟨b, hb, hbp, hbf⟩ := hv.2.2.2.2.1 hc
      have h0 : a.data_ ≠ 0 := by
        intro h0
        apply hv.1.2
        simp only [CustomMemoryResource.addresses, List.mem_map]
        exact ⟨b, hb, hbp.trans h0⟩
      refine ⟨h0, ?_⟩
      show block_free_at
        (if a.data_ ≠ 0 then allocator_deallocate E mr1 a.data_ a.capacity_ else mr1) a.data_
      rw [if_pos h0]
      obtain ⟨b1, hb1, hb1p, _⟩ := (hkeep a.data_ ⟨b, hb, hbp, hbf⟩).1
      exact do_deallocate_frees _ _ _ _ ⟨b1, hb1, hb1p⟩
  · intro hgt hun hfit
    obtain ⟨mr1, p, ha⟩ := allocator_allocate_returns E sys hun w.mr k hfit
    obtain ⟨objs', hr, _⟩ := reserve_grow_frame E hE sys a w hv k hgt (hfresh _ _ _) mr1 p ha
    exact ⟨_, _, hr⟩

/-- Witness for C11: `reserve(10)` on the `int` array `[7]` of capacity 1 whose
storage is the block at address 16. -/
theorem reserve_spec_witness :
    int_element.ValueType ∧ bump_heap.Fresh ∧ one_int_array.Valid one_int_world ∧
    one_int_array.elements one_int_world = [(7 : Int)].map some ∧
    one_int_array.capacity_ < 10 ∧ bump_heap.Unlimited ∧ 10 * int_element.sizeof ≤ SIZE_MAX ∧
    one_int_array.reserve int_element bump_heap one_int_world 1 =
      .ok (one_int_world, one_int_array) () ∧
    ∃ w' a', one_int_array.reserve int_element bump_heap one_int_world 10 = .ok (w', a') () ∧
      a'.capacity_ = 10 ∧ a'.size_ = 1 ∧ a'.elements w' = [some 7] ∧
      in_use_at w'.mr a'.data_ ∧ a'.data_ ≠ 16 ∧ block_free_at w'.mr 16 :=
  have hxs : one_int_array.elements one_int_world = [(7 : Int)].map some := rfl
  have hlt : one_int_array.capacity_ < 10 := by decide
  have hfit : 10 * int_element.sizeof ≤ SIZE_MAX := by decide
  have h := reserve_spec int_element int_element_valueType bump_heap bump_heap_fresh
    one_int_array one_int_world one_int_array_valid [7] hxs
  ⟨int_element_valueType, bump_heap_fresh, one_int_array_valid, hxs, hlt, bump_heap_unlimited,
    hfit, (h 1).1 (by decide),
    ((h 10).2.2 hlt bump_heap_unlimited hfit).elim fun w' hw' => hw'.elim fun a' ha' =>
      have hp := (h 10).2.1 hlt w' a' ha'
      ⟨w', a', ha', hp.1, hp.2.1, hp.2.2.1, hp.2.2.2.2.1, hp.2.2.2.2.2.1,
        (hp.2.2.2.2.2.2 (by decide)).2⟩⟩

/-! ## DynamicArray: a move that throws during growth -/

theorem reserve_alloc_facts {T : Type} (E : Element T) (sys : SystemHeap)
    (a : DynamicArray) (w : World T) (hv : a.Valid w) (new_capacity : Nat)
    (hfresh : heap_fresh w.mr (sys w.mr (new_capacity * E.sizeof) E.alignof) = true)
    (mr1 : CustomMemoryResource) (p : Nat)
    (ha : allocator_allocate E sys w.mr new_capacity = .ok mr1 p) :
    p ≠ a.data_ ∧ p ≠ 0 ∧ mr1.WellFormed ∧ in_use_at mr1 p ∧
    (∀ q, in_use_at w.mr q → in_use_at mr1 q ∧ q ≠ p) ∧ new_capacity < SIZE_MOD := by
  obtain ⟨hw, hsz, hcap, hnull, hblock, hobj⟩ := hv
  obtain ⟨hfit, hdo⟩ := (allocator_allocate_ok_iff E sys w.mr mr1 new_capacity p).mp ha
  obtain ⟨hw1, hp1, _⟩ := wellFormed_do_allocate _ _ _ _ _ _ hw hfresh hdo
  have hp0 : p ≠ 0 := fun h => hw1.2 (h ▸ hp1)
  have hne : p ≠ a.data_ := by
    by_cases hc : a.capacity_ = 0
    · rw [hnull hc]; exact hp0
    · obtain ⟨b, hb, hbp, hbf⟩ := hblock hc
      intro he
      exact do_allocate_ne_in_use _ _ _ _ _ _ hw hfresh hdo b hb hbf (hbp.trans he.symm)
  refine ⟨hne, hp0, hw1, do_allocate_in_use_after _ _ _ _ _ _ hdo, ?_,
    lt_of_le_of_lt hfit (size_max_div_lt _)⟩
  intro q hq
  refine ⟨in_use_do_allocate _ _ _ _ _ _ _ hdo hq, ?_⟩
  obtain ⟨b, hb, hbq, hbf⟩ := hq
  rw [← hbq]
  exact do_allocate_ne_in_use _ _ _ _ _ _ hw hfresh hdo b hb hbf

theorem move_elements_throws {T : Type} (E : Element T) (data_ new_data new_capacity : Nat)
    (hne : new_data ≠ data_) (k : Nat) (remaining : Nat) :
    ∀ (i : Nat) (objs : Objects T), i ≤ k → k < i + remaining →
      i + remaining ≤ new_capacity →
      (∀ j, i ≤ j → j < k → ∃ x, objs data_ j = some x ∧ E.move_ctor x = some x) →
      (∃ x, objs data_ k = some x ∧ E.move_ctor x = none) →
      ∃ objs' : Objects T,
        DynamicArray.move_elements E data_ new_data new_capacity remaining i objs =
          .throws objs' .constructor_failed ∧
        (∀ j, i ≤ j → j < k → objs' new_data j = objs data_ j ∧ objs' data_ j = none) ∧
        (∀ q j, ¬ ((q = new_data ∨ q = data_) ∧ i ≤ j ∧ j < k) → objs' q j = objs q j) := by
  induction remaining with
  | zero =>
    intro i objs h1 h2
    omega
  | succ n ih =>
    intro i objs hik hk hcap hbefore hfail
    have hlt : i < new_capacity := by omega
    by_cases he : i = k
    · subst he
      obtain ⟨x, hx, hm⟩ := hfail
      refine ⟨objs, ?_, fun j h1 h2 => by omega, fun _ _ _ => rfl⟩
      simp only [DynamicArray.move_elements, hx, hlt, if_true, hm]
    · obtain ⟨x, hx, hm⟩ := hbefore i (le_refl i) (by omega)
      have hkeep : ∀ j, j ≠ i →
          ((objs.construct new_data i x).destroy data_ i) data_ j = objs data_ j := by
        intro j hj
        simp [Objects.destroy, Objects.construct, hj]
      obtain ⟨objs', hrun, hmoved, hother⟩ :=
        ih (i + 1) ((objs.construct new_data i x).destroy data_ i) (by omega) (by omega)
          (by omega)
          (fun j h1 h2 => by
            obtain ⟨y, hy, hmy⟩ := hbefore j (by omega) h2
            exact ⟨y, by rw [hkeep j (by omega)]; exact hy, hmy⟩)
          (by
            obtain ⟨y, hy, hmy⟩ := hfail
            exact ⟨y, by rw [hkeep k (by omega)]; exact hy, hmy⟩)
      refine ⟨objs', ?_, ?_, ?_⟩
      · simp only [DynamicArray.move_elements, hx, hlt, if_true, hm]
        exact hrun
      · intro j h1 h2
        by_cases hji : j = i
        · subst hji
          rw [hother new_data j (by omega), hother data_ j (by omega)]
          simp [Objects.destroy, Objects.construct, hne, hx]
        · obtain ⟨h3, h4⟩ := hmoved j (by omega) h2
          exact ⟨by rw [h3, hkeep j hji], h4⟩
      · intro q j hq
        rw [hother q j (by intro h; exact hq ⟨h.1, by omega, h.2.2⟩)]
        have h1 : ¬ (q = data_ ∧ j = i) := by
          rintro ⟨rfl, rfl⟩
          exact hq ⟨Or.inr rfl, le_refl _, by omega⟩
        have h2 : ¬ (q = new_data ∧ j = i) := by
          rintro ⟨rfl, rfl⟩
          exact hq ⟨Or.inl rfl, le_refl _, by omega⟩
        simp [Objects.destroy, Objects.construct, h1, h2]

theorem objects_of_elements {T : Type} (a : DynamicArray) (w : World T) (xs : List T)
    (h : a.elements w = xs.map some) (j : Nat) (hj : j < a.size_) :
    w.objects a.data_ j = xs[j]? := by
  have hlen := elements_length a w xs h
  exact index_of_elements a w xs h j (by omega)

theorem reserve_throws_on_move {T : Type} (E : Element T) (sys : SystemHeap)
    (hfresh : sys.Fresh) (a : DynamicArray) (w : World T) (hv : a.Valid w)
    (xs : List T) (hxs : a.elements w = xs.map some) (k : Nat) (hgt : a.capacity_ < k)
    (mr1 : CustomMemoryResource) (p : Nat)
    (ha : allocator_allocate E sys w.mr k = .ok mr1 p)
    (i : Nat) (x : T) (hi : xs[i]? = some x)
    (hbefore : ∀ j y, j < i → xs[j]? = some y → E.move_ctor y = some y)
    (hfail : E.move_ctor x = none) :
    ∃ objs' : Objects T,
      a.reserve E sys w k = .throws ({ mr := mr1, objects := objs' }, a) .constructor_failed ∧
      p ≠ a.data_ ∧ in_use_at mr1 p ∧ in_use_at mr1 a.data_ ∧
      (∀ j, j < i → objs' a.data_ j = none ∧ objs' p j = xs[j]?) ∧
      (∀ j, i ≤ j → j < a.size_ → objs' a.data_ j = xs[j]?) := by
  have hlen := elements_length a w xs hxs
  have hin : i < xs.length := by
    rcases Nat.lt_or_ge i xs.length with h | h
    · exact h
    · rw [List.getElem?_eq_none h] at hi; cases hi
  obtain ⟨hne, _, _, hp, hkeep, _⟩ :=
    reserve_alloc_facts E sys a w hv k (hfresh _ _ _) mr1 p ha
  have hc : a.capacity_ ≠ 0 := by
    have := hv.2.1
    omega
  obtain ⟨objs', hrun, hmoved, hother⟩ :=
    move_elements_throws E a.data_ p k hne i a.size_ 0 w.objects (Nat.zero_le _) (by omega)
      (by have := hv.2.1; omega)
      (fun j _ hj => by
        have hj' : j < xs.length := by omega
        have hobj := objects_of_elements a w xs hxs j (by omega)
        rw [List.getElem?_eq_getElem hj'] at hobj
        exact ⟨xs[j], hobj, hbefore j xs[j] hj (List.getElem?_eq_getElem hj')⟩)
      ⟨x, by rw [objects_of_elements a w xs hxs i (by omega)]; exact hi, hfail⟩
  refine ⟨objs', ?_, hne, hp, (hkeep a.data_ (hv.2.2.2.2.1 hc)).1, ?_, ?_⟩
  · have hle : ¬ k ≤ a.capacity_ := by omega
    simp only [DynamicArray.reserve, hle, if_false, ha, hrun]
  · intro j hj
    obtain ⟨h1, h2⟩ := hmoved j (Nat.zero_le _) hj
    exact ⟨h2, by rw [h1]; exact objects_of_elements a w xs hxs j (by omega)⟩
  · intro j hij hj
    rw [hother a.data_ j (by intro h; omega)]
    exact objects_of_elements a w xs hxs j hj

theorem three_int_array_valid : three_int_array.Valid three_int_world := by
  refine ⟨⟨by decide, by decide⟩, by decide, by decide, by decide, fun _ => ?_, fun i hi => ?_⟩
  · exact ⟨{ ptr := 16, size := 12, alignment := 4, free := false }, by decide, rfl, rfl⟩
  · have hi' : i < 3 := hi
    simp [three_int_world, three_int_array, hi']

/-- C12, as the code has it. When a growth (`reserve(k)` with `k > capacity`,
or `push_back`/`emplace_back` on a full array) has obtained its new region `p`
and the move of the element at index `i` throws, after the moves at the indices
below `i` succeeded, the exception leaves the call with the array's data members
as they were (old storage, old length `n`, old capacity), but: the elements at
the indices below `i` have been destroyed in the old storage and live in the new
region only, the elements at the indices `i`, ..., `n - 1` are still in the old
storage, and the new region stays an in-use block of the allocator, which the
array does not hold. -/
theorem growth_failure_state {T : Type} (E : Element T) (sys : SystemHeap)
    (hfresh : sys.Fresh) (a : DynamicArray) (w : World T) (hv : a.Valid w)
    (xs : List T) (hxs : a.elements w = xs.map some) (k : Nat) (hgt : a.capacity_ < k)
    (mr1 : CustomMemoryResource) (p : Nat)
    (ha : allocator_allocate E sys w.mr k = .ok mr1 p)
    (i : Nat) (x : T) (hi : xs[i]? = some x)
    (hbefore : ∀ j y, j < i → xs[j]? = some y → E.move_ctor y = some y)
    (hfail : E.move_ctor x = none) (v : T) :
    ∃ w' : World T,
      a.reserve E sys w k = .throws (w', a) .constructor_failed ∧
      (a.size_ = a.capacity_ → k = a.grown_capacity →
        a.push_back E sys w v = .throws (w', a) .constructor_failed ∧
        a.push_back_rvalue E sys w v = .throws (w', a) .constructor_failed ∧
        a.emplace_back E sys w (some v) = .throws (w', a) .constructor_failed) ∧
      w'.mr = mr1 ∧ in_use_at w'.mr p ∧ in_use_at w'.mr a.data_ ∧ p ≠ a.data_ ∧
      (∀ j, j < i → w'.objects a.data_ j = none ∧ w'.objects p j = xs[j]?) ∧
      (∀ j, i ≤ j → j < a.size_ → w'.objects a.data_ j = xs[j]?) := by
  obtain ⟨objs', hr, hne, hp, hold, hlow, hhigh⟩ :=
    reserve_throws_on_move E sys hfresh a w hv xs hxs k hgt mr1 p ha i x hi hbefore hfail
  refine ⟨{ mr := mr1, objects := objs' }, hr, ?_, rfl, hp, hold, hne, hlow, hhigh⟩
  intro hfull hk
  have hkM := (reserve_alloc_facts E sys a w hv k (hfresh _ _ _) mr1 p ha).2.2.2.2.2
  have hg : a.grow_if_full E sys w = .throws ({ mr := mr1, objects := objs' }, a)
      .constructor_failed := by
    have harg : (if a.capacity_ = 0 then 1 else (a.capacity_ * 2) % SIZE_MOD) = k := by
      rw [hk]
      unfold DynamicArray.grown_capacity at hk ⊢
      by_cases hc : a.capacity_ = 0
      · simp [hc]
      · simp only [hc, if_false] at hk ⊢
        rw [Nat.mod_eq_of_lt (by omega)]; omega
    simp only [DynamicArray.grow_if_full, hfull, if_true, harg]
    simpa only [hfull] using hr
  refine ⟨?_, ?_, ?_⟩
  · simp only [DynamicArray.push_back, hg]
  · simp only [DynamicArray.push_back_rvalue, hg]
  · simp only [DynamicArray.emplace_back, hg]

/-- Witness for C12: `reserve(6)` on the array `[1, 2, 3]` of an element type
whose move constructor throws for the value 2. -/
theorem growth_failure_state_witness :
    bump_heap.Fresh ∧ three_int_array.Valid three_int_world ∧
    three_int_array.elements three_int_world = [(1 : Int), 2, 3].map some ∧
    three_int_array.capacity_ < 6 ∧
    allocator_allocate fragile_element bump_heap three_int_world.mr 6 =
      .ok { allocated_blocks_ :=
              [{ ptr := 16, size := 12, alignment := 4, free := false },
               { ptr := 32, size := 24, alignment := 4, free := false }]
            total_allocated_bytes_ := 36
            total_deallocated_bytes_ := 0 } 32 ∧
    fragile_element.move_ctor 1 = some 1 ∧ fragile_element.move_ctor 2 = none ∧
    ∃ w' : World Int,
      three_int_array.reserve fragile_element bump_heap three_int_world 6 =
        .throws (w', three_int_array) .constructor_failed ∧
      in_use_at w'.mr 32 ∧ in_use_at w'.mr 16 ∧
      w'.objects 16 0 = none ∧ w'.objects 32 0 = some 1 ∧
      w'.objects 16 1 = some 2 ∧ w'.objects 16 2 = some 3 :=
  have hxs : three_int_array.elements three_int_world = [(1 : Int), 2, 3].map some := rfl
  have ha : allocator_allocate fragile_element bump_heap three_int_world.mr 6 =
      .ok { allocated_blocks_ :=
              [{ ptr := 16, size := 12, alignment := 4, free := false },
               { ptr := 32, size := 24, alignment := 4, free := false }]
            total_allocated_bytes_ := 36
            total_deallocated_bytes_ := 0 } 32 := by decide
  have hb : ∀ j y, j < 1 → [(1 : Int), 2, 3][j]? = some y →
      fragile_element.move_ctor y = some y := by
    intro j y hj hy
    have : j = 0 := by omega
    subst this
    simp only [List.getElem?_cons_zero, Option.some.injEq] at hy
    subst hy
    rfl
  (growth_failure_state fragile_element bump_heap bump_heap_fresh three_int_array
    three_int_world three_int_array_valid [1, 2, 3] hxs 6 (by decide) _ 32 ha 1 2 rfl hb rfl
    0).elim fun w' h =>
    ⟨bump_heap_fresh, three_int_array_valid, hxs, by decide, ha, rfl, rfl, w', h.1,
      h.2.2.2.1, h.2.2.2.2.1, (h.2.2.2.2.2.2.1 0 (by decide)).1,
      (h.2.2.2.2.2.2.1 0 (by decide)).2, h.2.2.2.2.2.2.2 1 (by decide) (by decide),
      h.2.2.2.2.2.2.2 2 (by decide) (by decide)⟩

/-- Counterexample to C12 as stated: the move of the element at index 1 throws
during `reserve(6)` on `[1, 2, 3]`. The call leaves with the array still of
length 3 and capacity 3 on its old storage, so not in the new state, while its
slot 0 holds no object any more, so not in the old state either: the length
counts an element that has been destroyed. -/
theorem growth_not_failure_safe :
    ∃ w' : World Int,
      three_int_array.reserve fragile_element bump_heap three_int_world 6 =
        .throws (w', three_int_array) .constructor_failed ∧
      three_int_array.size_ = 3 ∧ three_int_array.capacity_ = 3 ∧
      three_int_array.elements three_int_world = [some 1, some 2, some 3] ∧
      three_int_array.elements w' = [none, some 2, some 3] ∧
      ¬ (three_int_array.elements w' = three_int_array.elements three_int_world) ∧
      ¬ (∀ j, j < three_int_array.size_ → (three_int_array.index w' j).isSome = true) :=
  ⟨_, rfl, rfl, rfl, rfl, rfl, by decide, fun h => absurd (h 0 (by decide)) (by decide)⟩

theorem two_int_array_valid : two_int_array.Valid two_int_world := by
  refine ⟨⟨by decide, by decide⟩, by decide, by decide, by decide, fun _ => ?_, fun i hi => ?_⟩
  · exact ⟨{ ptr := 16, size := 8, alignment := 4, free := false }, by decide, rfl, rfl⟩
  · have hi' : i < 2 := hi
    have : i = 0 ∨ i = 1 := by omega
    rcases this with rfl | rfl <;> rfl

/-! ## DynamicArray: element access, move construction, pop_back, clear -/

/-- C13. `at(i)` on an array of length `n`: the call throws `std::out_of_range`
exactly when `i >= n`, and returns, with what `operator[](i)` gives, exactly when
`i < n`; in both cases the array and the world are left as they were. -/
theorem at_spec {T : Type} (a : DynamicArray) (w : World T) (i : Nat) :
    (a.at_ w i = .throws (w, a) .out_of_range ↔ i ≥ a.size_) ∧
    (a.at_ w i = .ok (w, a) (a.index w i) ↔ i < a.size_) ∧
    ((∃ s e, a.at_ w i = .throws s e) ↔ i ≥ a.size_) := by
  have hthrow : i ≥ a.size_ → a.at_ w i = .throws (w, a) .out_of_range := by
    intro h
    simp only [DynamicArray.at_, h, if_true]
  have hok : i < a.size_ → a.at_ w i = .ok (w, a) (a.index w i) := by
    intro h
    have h' : ¬ i ≥ a.size_ := by omega
    simp only [DynamicArray.at_, DynamicArray.index, h', if_false]
  refine ⟨⟨fun h => ?_, hthrow⟩, ⟨fun h => ?_, hok⟩, ⟨fun h => ?_, fun h => ⟨_, _, hthrow h⟩⟩⟩
  · by_contra hlt
    rw [hok (by omega)] at h
    cases h
  · by_contra hge
    rw [hthrow (by omega)] at h
    cases h
  · by_contra hlt
    obtain ⟨s, e, h⟩ := h
    rw [hok (by omega)] at h
    cases h

/-- Witness for C13: on the array `[10, 20]`, `at(0)` is 10, `at(1)` is 20 and
`at(2)` throws. -/
theorem at_spec_witness :
    two_int_array.at_ two_int_world 0 = .ok (two_int_world, two_int_array) (some 10) ∧
    two_int_array.at_ two_int_world 1 = .ok (two_int_world, two_int_array) (some 20) ∧
    two_int_array.at_ two_int_world 2 = .throws (two_int_world, two_int_array) .out_of_range :=
  ⟨(at_spec two_int_array two_int_world 0).2.1.mpr (by decide),
    (at_spec two_int_array two_int_world 1).2.1.mpr (by decide),
    (at_spec two_int_array two_int_world 2).1.mpr (by decide)⟩

/-- C15. Move construction of `B` from `A`: `B` has the storage, length and
capacity of `A`, hence its elements; `A` is left with `size() == 0`,
`capacity() == 0` and no storage; the world, allocator included, is unchanged. -/
theorem move_construct_spec {T : Type} (other : DynamicArray) (w : World T) :
    (other.move_construct w).1 = w ∧
    (other.move_construct w).2.1.data_ = other.data_ ∧
    (other.move_construct w).2.1.size_ = other.size_ ∧
    (other.move_construct w).2.1.capacity_ = other.capacity_ ∧
    (other.move_construct w).2.1.elements (other.move_construct w).1 = other.elements w ∧
    (other.move_construct w).2.2.size = 0 ∧
    (other.move_construct w).2.2.capacity = 0 ∧
    (other.move_construct w).2.2.data_ = 0 ∧
    (other.move_construct w).1.mr = w.mr :=
  ⟨rfl, rfl, rfl, rfl, rfl, rfl, rfl, rfl, rfl⟩

/-- Witness for C15: moving from the array `[10, 20]`. -/
theorem move_construct_spec_witness :
    (two_int_array.move_construct two_int_world).2.1.size = 2 ∧
    (two_int_array.move_construct two_int_world).2.1.elements
      (two_int_array.move_construct two_int_world).1 = [some 10, some 20] ∧
    (two_int_array.move_construct two_int_world).2.2.size = 0 ∧
    (two_int_array.move_construct two_int_world).1.mr = two_int_world.mr :=
  have h := move_construct_spec two_int_array two_int_world
  ⟨h.2.2.1, h.2.2.2.2.1, h.2.2.2.2.2.1, h.2.2.2.2.2.2.2.2⟩

theorem elements_of_pointwise {T : Type} (a : DynamicArray) (w : World T) (ys : List T)
    (hs : a.size_ = ys.length)
    (h : ∀ j, j < ys.length → w.objects a.data_ j = ys[j]?) :
    a.elements w = ys.map some := by
  apply List.ext_getElem?
  intro j
  simp only [DynamicArray.elements, List.getElem?_map]
  by_cases hj : j < ys.length
  · rw [List.getElem?_range (by omega), Option.map_some', h j hj, List.getElem?_eq_getElem hj]
    rfl
  · rw [List.getElem?_eq_none (by simp; omega), List.getElem?_eq_none (by omega)]
    rfl

theorem destroy_elements_apply {T : Type} (data_ : Nat) (count : Nat) :
    ∀ (i : Nat) (objs : Objects T) (q j : Nat),
      DynamicArray.destroy_elements data_ count i objs q j =
        if q = data_ ∧ i ≤ j ∧ j < i + count then none else objs q j := by
  induction count with
  | zero =>
    intro i objs q j
    have : ¬ (q = data_ ∧ i ≤ j ∧ j < i + 0) := by omega
    simp only [DynamicArray.destroy_elements, this, if_false]
  | succ n ih =>
    intro i objs q j
    simp only [DynamicArray.destroy_elements, ih]
    by_cases h1 : q = data_ ∧ i + 1 ≤ j ∧ j < i + 1 + n
    · have h2 : q = data_ ∧ i ≤ j ∧ j < i + (n + 1) := ⟨h1.1, by omega, by omega⟩
      simp only [h1, h2, and_self, if_true]
    · simp only [h1, if_false]
      by_cases h2 : q = data_ ∧ j = i
      · have h3 : q = data_ ∧ i ≤ j ∧ j < i + (n + 1) := ⟨h2.1, by omega, by omega⟩
        rw [if_pos h3]
        simp only [Objects.destroy, h2, and_self, if_true]
      · have h3 : ¬ (q = data_ ∧ i ≤ j ∧ j < i + (n + 1)) := by
          rintro ⟨hq, h4, h5⟩
          by_cases hji : j = i
          · exact h2 ⟨hq, hji⟩
          · exact h1 ⟨hq, by omega, by omega⟩
        rw [if_neg h3]
        simp only [Objects.destroy, h2, if_false]

/-- `pop_back()` for an element type that leaves the allocator alone, on an
array with elements `xs`. -/
theorem plain_pop_back_spec {T : Type} (a : DynamicArray) (w : World T) (xs : List T)
    (hxs : a.elements w = xs.map some) :
    (a.size_ = 0 → a.pop_back w = (w, a) ∧
      ∀ k : Nat, (fun s : World T × DynamicArray => s.2.pop_back s.1)^[k] (w, a) = (w, a)) ∧
    (0 < a.size_ → (a.pop_back w).2.size_ = a.size_ - 1 ∧
      (a.pop_back w).2.elements (a.pop_back w).1 = xs.dropLast.map some) ∧
    (a.pop_back w).2.capacity_ = a.capacity_ ∧
    (a.pop_back w).2.data_ = a.data_ ∧
    (a.pop_back w).1.mr = w.mr := by
  have hlen := elements_length a w xs hxs
  refine ⟨?_, ?_, ?_, ?_, ?_⟩
  · intro h0
    have hp : a.pop_back w = (w, a) := by
      simp [DynamicArray.pop_back, h0]
    refine ⟨hp, fun k => ?_⟩
    induction k with
    | zero => rfl
    | succ n ih =>
      rw [Function.iterate_succ_apply']
      rw [ih]
      exact hp
  · intro hpos
    have hp : a.pop_back w =
        ({ w with objects := w.objects.destroy a.data_ (a.size_ - 1) },
         { a with size_ := a.size_ - 1 }) := by
      simp [DynamicArray.pop_back, hpos]
    rw [hp]
    refine ⟨rfl, ?_⟩
    apply elements_of_pointwise
    · simp only [List.length_dropLast]; omega
    · intro j hj
      simp only [List.length_dropLast] at hj
      have hji : j ≠ a.size_ - 1 := by omega
      simp only [Objects.destroy, hji, and_false, if_false]
      rw [objects_of_elements a w xs hxs j (by omega), List.getElem?_dropLast]
      simp [show j < xs.length - 1 by omega]
  · unfold DynamicArray.pop_back
    split <;> rfl
  · unfold DynamicArray.pop_back
    split <;> rfl
  · unfold DynamicArray.pop_back
    split <;> rfl

/-! ## Cursors -/

theorem increment_times_eq_add (k : Nat) :
    ∀ it : Iterator, Iterator.increment_times k it = it.add k := by
  induction k with
  | zero =>
    intro it
    simp [Iterator.increment_times, Iterator.add, Pointer.add]
  | succ n ih =>
    intro it
    simp only [Iterator.increment_times, ih, Iterator.pre_increment, Iterator.add, Pointer.add,
      Iterator.mk.injEq, Pointer.mk.injEq, true_and]
    push_cast
    omega

/-- C19. Cursor positions, a cursor being the region it points into and its
offset from the start: `begin()` has offset 0 and `end()` has offset `n`, so
`end() - begin() == n`, and `begin()` incremented `n` times is `end()` and
compares equal to it; `*(begin() + i)` is what `operator[](i)` gives;
post-increment returns the cursor as it was and advances it by one; and for
cursors `x`, `y` into the same region, `(x + k) - x == k`, `(x + k) - k == x`,
and each of the six comparisons gives the comparison of the offsets. -/
theorem cursor_positions {T : Type} (a : DynamicArray) (w : World T) :
    a.begin.ptr_.offset = 0 ∧ a.end_.ptr_.offset = a.size_ ∧
    a.end_.diff a.begin = some (a.size_ : Int) ∧
    Iterator.increment_times a.size_ a.begin = a.end_ ∧
    (Iterator.increment_times a.size_ a.begin).eq a.end_ = some true ∧
    (∀ i : Nat, (a.begin.add i).deref w = a.index w i) ∧
    (∀ it : Iterator, it.post_increment.1 = it ∧ it.post_increment.2 = it.add 1 ∧
      it.post_increment.2.ptr_.offset = it.ptr_.offset + 1) ∧
    (∀ (x y : Iterator) (k : Int), x.ptr_.region = y.ptr_.region →
      (x.add k).diff x = some k ∧ (x.add k).sub k = x ∧
      x.eq y = some (decide (x.ptr_.offset = y.ptr_.offset)) ∧
      x.ne y = some (decide (x.ptr_.offset ≠ y.ptr_.offset)) ∧
      x.lt y = some (decide (x.ptr_.offset < y.ptr_.offset)) ∧
      x.gt y = some (decide (x.ptr_.offset > y.ptr_.offset)) ∧
      x.le y = some (decide (x.ptr_.offset ≤ y.ptr_.offset)) ∧
      x.ge y = some (decide (x.ptr_.offset ≥ y.ptr_.offset))) := by
  have hinc : Iterator.increment_times a.size_ a.begin = a.end_ := by
    rw [increment_times_eq_add]
    simp [Iterator.add, Pointer.add, DynamicArray.begin, DynamicArray.end_]
  refine ⟨rfl, rfl, ?_, hinc, ?_, ?_, ?_, ?_⟩
  · simp [Iterator.diff, DynamicArray.begin, DynamicArray.end_]
  · rw [hinc]
    simp [Iterator.eq, Iterator.compare_with]
  · intro i
    simp [Iterator.deref, Iterator.add, Pointer.add, DynamicArray.begin, DynamicArray.index]
  · intro it
    exact ⟨rfl, rfl, rfl⟩
  · intro x y k hxy
    refine ⟨?_, ?_, ?_, ?_, ?_, ?_, ?_, ?_⟩
    · simp [Iterator.diff, Iterator.add, Pointer.add]
    · cases x with
      | mk p =>
        cases p with
        | mk r o => simp [Iterator.sub, Iterator.add, Pointer.add]
    all_goals simp [Iterator.eq, Iterator.ne, Iterator.lt, Iterator.gt, Iterator.le, Iterator.ge,
      Iterator.compare_with, hxy]

/-- Witness for C19: two cursors into the array `[10, 20]`. -/
theorem cursor_positions_witness :
    two_int_array.begin.ptr_.region = two_int_array.end_.ptr_.region ∧
    two_int_array.end_.diff two_int_array.begin = some 2 ∧
    two_int_array.begin.lt two_int_array.end_ = some true ∧
    two_int_array.begin.eq two_int_array.end_ = some false ∧
    (two_int_array.begin.add 1).deref two_int_world = some 20 :=
  have h := cursor_positions two_int_array two_int_world
  have hc := h.2.2.2.2.2.2.2 two_int_array.begin two_int_array.end_ 0 rfl
  ⟨rfl, h.2.2.1, hc.2.2.2.2.1, hc.2.2.1, h.2.2.2.2.2.1 1⟩

/-! ## The registry keeps its records -/

theorem keeps_records_assign_free (mr : CustomMemoryResource) (v : Bool) (i : Nat)
    (t1 t2 : Nat) :
    keeps_records mr
      { allocated_blocks_ := assign_free v mr.allocated_blocks_ i
        total_allocated_bytes_ := t1
        total_deallocated_bytes_ := t2 } := by
  refine ⟨fun j b hb => ?_, by simp [assign_free_length], by simp [assign_free_length]⟩
  by_cases hji : j = i
  · subst hji
    exact ⟨{ b with free := v }, assign_free_getElem?_self _ _ _ _ hb, rfl, rfl, rfl⟩
  · refine ⟨b, ?_, rfl, rfl, rfl⟩
    show (assign_free v mr.allocated_blocks_ i)[j]? = some b
    rw [assign_free_getElem?_ne _ _ _ _ hji]
    exact hb

theorem keeps_records_refl (mr : CustomMemoryResource) : keeps_records mr mr :=
  ⟨fun _ b hb => ⟨b, hb, rfl, rfl, rfl⟩, le_refl _, Nat.le_succ _⟩

theorem keeps_records_do_allocate (mr mr' : CustomMemoryResource) (bytes alignment p : Nat)
    (heap : Option Nat) (ha : mr.do_allocate bytes alignment heap = .ok mr' p) :
    keeps_records mr mr' := by
  rcases do_allocate_cases mr bytes alignment heap with ⟨i, c, hf, hr⟩ | ⟨_, _, hr⟩ | ⟨r, hf, hr', hr⟩
  · rw [hr] at ha
    simp only [Outcome.ok.injEq] at ha
    obtain ⟨rfl, _⟩ := ha
    exact keeps_records_assign_free mr false i _ _
  · rw [hr] at ha; cases ha
  · rw [hr] at ha
    simp only [Outcome.ok.injEq] at ha
    obtain ⟨rfl, _⟩ := ha
    refine ⟨fun j b hb => ⟨b, ?_, rfl, rfl, rfl⟩, by simp, by simp⟩
    have hj : j < mr.allocated_blocks_.length := by
      rcases Nat.lt_or_ge j mr.allocated_blocks_.length with h | h
      · exact h
      · rw [List.getElem?_eq_none h] at hb; cases hb
    show (mr.allocated_blocks_ ++ _)[j]? = some b
    rw [List.getElem?_append_left hj]
    exact hb

theorem keeps_records_do_deallocate (mr : CustomMemoryResource) (p bytes alignment : Nat) :
    keeps_records mr (mr.do_deallocate p bytes alignment) := by
  unfold CustomMemoryResource.do_deallocate
  cases hf : find_if (fun block => decide (block.ptr = p)) mr.allocated_blocks_ with
  | none => exact keeps_records_refl mr
  | some r => exact keeps_records_assign_free mr true r.1 _ _

/-- C20. Registry invariant. In every state reachable from a newly constructed
allocator by `allocate` and `deallocate` calls, with a heap that behaves, the
tracked addresses are pairwise distinct. And from any state, an `allocate` that
returns, an `allocate` that throws and a `deallocate` each keep every tracked
record at its position with its address, size and alignment, changing at most
free flags and appending at most one record. -/
theorem registry_invariant :
    (∀ mr : CustomMemoryResource, Reachable mr →
      mr.addresses.Nodup ∧
      ∀ (i j : Nat) (b c : MemoryBlock), mr.allocated_blocks_[i]? = some b →
        mr.allocated_blocks_[j]? = some c → b.ptr = c.ptr → i = j) ∧
    (∀ (mr mr' : CustomMemoryResource) (bytes alignment p : Nat) (heap : Option Nat),
      mr.do_allocate bytes alignment heap = .ok mr' p → keeps_records mr mr') ∧
    (∀ (mr mr' : CustomMemoryResource) (bytes alignment : Nat) (heap : Option Nat)
      (e : Exception), mr.do_allocate bytes alignment heap = .throws mr' e → mr' = mr) ∧
    (∀ (mr : CustomMemoryResource) (p bytes alignment : Nat),
      keeps_records mr (mr.do_deallocate p bytes alignment)) := by
  refine ⟨fun mr hr => ?_, ?_, ?_, keeps_records_do_deallocate⟩
  · have hw := wellFormed_of_reachable mr hr
    exact ⟨hw.1, fun i j b c hb hc he => nodup_index_unique _ i j b c hw.1 hb hc he⟩
  · intro mr mr' bytes alignment p heap ha
    exact keeps_records_do_allocate mr mr' bytes alignment p heap ha
  · intro mr mr' bytes alignment heap e ha
    exact do_allocate_throws_state mr mr' bytes alignment heap e ha

/-- Witness for C20: the state after the nine calls of `sample_calls`, and a
request served from it. -/
theorem registry_invariant_witness :
    Reachable (Session.run {} sample_calls).mr ∧
    (Session.run {} sample_calls).mr.addresses = [4096, 8192, 12288, 16384] ∧
    (Session.run {} sample_calls).mr.addresses.Nodup ∧
    keeps_records (Session.run {} sample_calls).mr
      ((Session.run {} sample_calls).mr.do_deallocate 8192 100 16) :=
  have hr : Reachable (Session.run {} sample_calls).mr := ⟨sample_calls, by decide, rfl⟩
  ⟨hr, by decide, (registry_invariant.1 _ hr).1, registry_invariant.2.2.2 _ 8192 100 16⟩

/-! ## DynamicArray: resize -/

theorem construct_elements_ok {T : Type} (x : T) (data_ capacity_ : Nat) (count : Nat) :
    ∀ (i : Nat) (objs : Objects T), i + count ≤ capacity_ →
      ∃ objs' : Objects T,
        DynamicArray.construct_elements (some x) data_ capacity_ count i objs = .ok objs' () ∧
        ∀ q j, objs' q j = if q = data_ ∧ i ≤ j ∧ j < i + count then some x else objs q j := by
  induction count with
  | zero =>
    intro i objs _
    refine ⟨objs, rfl, fun q j => ?_⟩
    have : ¬ (q = data_ ∧ i ≤ j ∧ j < i + 0) := by omega
    rw [if_neg this]
  | succ n ih =>
    intro i objs hcap
    obtain ⟨objs', hrun, hobj⟩ := ih (i + 1) (objs.construct data_ i x) (by omega)
    refine ⟨objs', ?_, fun q j => ?_⟩
    · have hlt : i < capacity_ := by omega
      simp only [DynamicArray.construct_elements, hlt, if_true]
      exact hrun
    · rw [hobj q j]
      by_cases h1 : q = data_ ∧ i + 1 ≤ j ∧ j < i + 1 + n
      · have h2 : q = data_ ∧ i ≤ j ∧ j < i + (n + 1) := ⟨h1.1, by omega, by omega⟩
        rw [if_pos h1, if_pos h2]
      · rw [if_neg h1]
        by_cases h2 : q = data_ ∧ j = i
        · have h3 : q = data_ ∧ i ≤ j ∧ j < i + (n + 1) := ⟨h2.1, by omega, by omega⟩
          rw [if_pos h3]
          simp only [Objects.construct, h2, and_self, if_true]
        · have h3 : ¬ (q = data_ ∧ i ≤ j ∧ j < i + (n + 1)) := by
            rintro ⟨hq, h4, h5⟩
            by_cases hji : j = i
            · exact h2 ⟨hq, hji⟩
            · exact h1 ⟨hq, by omega, by omega⟩
          rw [if_neg h3]
          simp only [Objects.construct, h2, if_false]

theorem resized_getElem? {T : Type} (xs : List T) (m : Nat) (f : T) (j : Nat) (hj : j < m) :
    (xs.take m ++ List.replicate (m - xs.length) f)[j]? =
      if j < xs.length then xs[j]? else some f := by
  by_cases h : j < xs.length
  · rw [if_pos h, List.getElem?_append_left (by simp; omega), List.getElem?_take_of_lt hj]
  · rw [if_neg h, List.getElem?_append_right (by simp; omega)]
    rw [List.getElem?_replicate_of_lt]
    simp only [List.length_take]
    omega

theorem resize_with_core {T : Type} (E : Element T) (sys : SystemHeap) (a a1 : DynamicArray)
    (w w1 : World T) (m : Nat) (f : T) (xs : List T)
    (hstage : (if m > a.capacity_ then a.reserve E sys w m else .ok (w, a) ()) =
      .ok (w1, a1) ())
    (hv1 : a1.Valid w1) (hxs1 : a1.elements w1 = xs.map some) (hm : m ≤ a1.capacity_) :
    ∃ w' a', a.resize_with E sys w m (some f) = .ok (w', a') () ∧
      a'.Valid w' ∧ a'.size_ = m ∧
      a'.elements w' = (xs.take m ++ List.replicate (m - xs.length) f).map some ∧
      a'.capacity_ = a1.capacity_ ∧ a'.data_ = a1.data_ ∧ w'.mr = w1.mr ∧
      (∀ q j, q ≠ a1.data_ → w'.objects q j = w1.objects q j) := by
  have hlen := elements_length a1 w1 xs hxs1
  obtain ⟨hw, hsz, hcap, hnull, hblock, hobj⟩ := hv1
  have hylen : (xs.take m ++ List.replicate (m - xs.length) f).length = m := by
    simp only [List.length_append, List.length_take, List.length_replicate]
    omega
  rcases Nat.lt_trichotomy a1.size_ m with hlt | heq | hgt
  · obtain ⟨objs', hrun, hobjs⟩ :=
      construct_elements_ok f a1.data_ a1.capacity_ (m - a1.size_) a1.size_ w1.objects (by omega)
    refine ⟨{ w1 with objects := objs' }, { a1 with size_ := m }, ?_, ?_, rfl, ?_, rfl, rfl,
      rfl, ?_⟩
    · have hgt' : m > a1.size_ := hlt
      simp only [DynamicArray.resize_with, hstage, hgt', if_true, hrun]
    · refine ⟨hw, hm, hcap, hnull, hblock, fun j hj => ?_⟩
      show (objs' a1.data_ j).isSome = true
      rw [hobjs]
      by_cases hjn : j < a1.size_
      · have : ¬ (a1.data_ = a1.data_ ∧ a1.size_ ≤ j ∧ j < a1.size_ + (m - a1.size_)) := by
          omega
        rw [if_neg this]
        exact hobj j hjn
      · have : a1.data_ = a1.data_ ∧ a1.size_ ≤ j ∧ j < a1.size_ + (m - a1.size_) :=
          ⟨rfl, by omega, by have : j < m := hj; omega⟩
        rw [if_pos this]; rfl
    · apply elements_of_pointwise
      · exact hylen.symm
      · intro j hj
        rw [hylen] at hj
        rw [resized_getElem? xs m f j hj]
        show objs' a1.data_ j = _
        rw [hobjs]
        by_cases hjn : j < a1.size_
        · have : ¬ (a1.data_ = a1.data_ ∧ a1.size_ ≤ j ∧ j < a1.size_ + (m - a1.size_)) := by
            omega
          rw [if_neg this, if_pos (by omega)]
          exact objects_of_elements a1 w1 xs hxs1 j hjn
        · have : a1.data_ = a1.data_ ∧ a1.size_ ≤ j ∧ j < a1.size_ + (m - a1.size_) :=
            ⟨rfl, by omega, by omega⟩
          rw [if_pos this, if_neg (by omega)]
    · intro q j hq
      show objs' q j = w1.objects q j
      rw [hobjs]
      have : ¬ (q = a1.data_ ∧ a1.size_ ≤ j ∧ j < a1.size_ + (m - a1.size_)) :=
        fun h => hq h.1
      rw [if_neg this]
  · refine ⟨w1, { a1 with size_ := m }, ?_, ?_, rfl, ?_, rfl, rfl, rfl, fun _ _ _ => rfl⟩
    · have h1 : ¬ m > a1.size_ := by omega
      have h2 : ¬ m < a1.size_ := by omega
      simp only [DynamicArray.resize_with, hstage, h1, h2, if_false]
    · exact ⟨hw, hm, hcap, hnull, hblock, fun j hj => hobj j (by have : j < m := hj; omega)⟩
    · apply elements_of_pointwise
      · exact hylen.symm
      · intro j hj
        rw [hylen] at hj
        rw [resized_getElem? xs m f j hj, if_pos (by omega)]
        exact objects_of_elements a1 w1 xs hxs1 j (by omega)
  · refine ⟨{ w1 with
        objects := DynamicArray.destroy_elements a1.data_ (a1.size_ - m) m w1.objects },
      { a1 with size_ := m }, ?_, ?_, rfl, ?_, rfl, rfl, rfl, ?_⟩
    · have h1 : ¬ m > a1.size_ := by omega
      have h2 : m < a1.size_ := hgt
      simp only [DynamicArray.resize_with, hstage, h1, h2, if_false, if_true]
    · refine ⟨hw, hm, hcap, hnull, hblock, fun j hj => ?_⟩
      have hjm : j < m := hj
      show (DynamicArray.destroy_elements a1.data_ (a1.size_ - m) m w1.objects a1.data_ j).isSome
        = true
      rw [destroy_elements_apply]
      have : ¬ (a1.data_ = a1.data_ ∧ m ≤ j ∧ j < m + (a1.size_ - m)) := by omega
      rw [if_neg this]
      exact hobj j (by omega)
    · apply elements_of_pointwise
      · exact hylen.symm
      · intro j hj
        rw [hylen] at hj
        rw [resized_getElem? xs m f j hj, if_pos (by omega)]
        show DynamicArray.destroy_elements a1.data_ (a1.size_ - m) m w1.objects a1.data_ j = _
        rw [destroy_elements_apply]
        have : ¬ (a1.data_ = a1.data_ ∧ m ≤ j ∧ j < m + (a1.size_ - m)) := by omega
        rw [if_neg this]
        exact objects_of_elements a1 w1 xs hxs1 j (by omega)
    · intro q j hq
      show DynamicArray.destroy_elements a1.data_ (a1.size_ - m) m w1.objects q j = _
      rw [destroy_elements_apply]
      have : ¬ (q = a1.data_ ∧ m ≤ j ∧ j < m + (a1.size_ - m)) := fun h => hq h.1
      rw [if_neg this]

theorem resize_stage_ok {T : Type} (E : Element T) (hE : E.ValueType) (sys : SystemHeap)
    (hfresh : sys.Fresh) (a a1 : DynamicArray) (w w1 : World T) (hv : a.Valid w)
    (xs : List T) (hxs : a.elements w = xs.map some) (m : Nat)
    (hstage : (if m > a.capacity_ then a.reserve E sys w m else .ok (w, a) ()) =
      .ok (w1, a1) ()) :
    a1.Valid w1 ∧ a1.elements w1 = xs.map some ∧ a1.size_ = a.size_ ∧ m ≤ a1.capacity_ ∧
    (a.capacity_ < m → a1.capacity_ = m) ∧
    (m ≤ a.capacity_ → a1 = a ∧ w1 = w) := by
  by_cases hgt : m > a.capacity_
  · simp only [hgt, if_true] at hstage
    obtain ⟨mr1, p, ha⟩ := reserve_ok_inv E sys a a1 w w1 m hgt hstage
    obtain ⟨w', hr, hv', hobj, _⟩ := reserve_grow E hE sys a w hv m hgt (hfresh _ _ _) mr1 p ha
    rw [hr] at hstage
    simp only [Outcome.ok.injEq, Prod.mk.injEq, and_true] at hstage
    obtain ⟨rfl, rfl⟩ := hstage
    refine ⟨hv', ?_, rfl, le_refl _, fun _ => rfl, fun h => by omega⟩
    rw [← hxs]
    exact elements_eq_of_objects a _ w _ rfl hobj
  · simp only [hgt, if_false, Outcome.ok.injEq, Prod.mk.injEq, and_true] at hstage
    obtain ⟨rfl, rfl⟩ := hstage
    exact ⟨hv, hxs, rfl, by omega, fun h => by omega, fun _ => ⟨rfl, rfl⟩⟩

theorem resize_stage_returns {T : Type} (E : Element T) (hE : E.ValueType) (sys : SystemHeap)
    (hfresh : sys.Fresh) (a : DynamicArray) (w : World T) (hv : a.Valid w) (m : Nat)
    (h : m ≤ a.capacity_ ∨ (sys.Unlimited ∧ m * E.sizeof ≤ SIZE_MAX)) :
    ∃ w1 a1, (if m > a.capacity_ then a.reserve E sys w m else .ok (w, a) ()) =
      .ok (w1, a1) () := by
  by_cases hgt : m > a.capacity_
  · rcases h with hle | ⟨hun, hfit⟩
    · omega
    · obtain ⟨mr1, p, ha⟩ := allocator_allocate_returns E sys hun w.mr m hfit
      obtain ⟨w', hr, _⟩ := reserve_grow E hE sys a w hv m hgt (hfresh _ _ _) mr1 p ha
      exact ⟨w', _, by simp only [hgt, if_true]; exact hr⟩
  · exact ⟨w, a, by simp only [hgt, if_false]⟩

theorem resize_with_ok_inv {T : Type} (E : Element T) (sys : SystemHeap) (a a' : DynamicArray)
    (w w' : World T) (m : Nat) (built : Option T)
    (h : a.resize_with E sys w m built = .ok (w', a') ()) :
    ∃ w1 a1, (if m > a.capacity_ then a.reserve E sys w m else .ok (w, a) ()) =
      .ok (w1, a1) () := by
  unfold DynamicArray.resize_with at h
  cases hs : (if m > a.capacity_ then a.reserve E sys w m else .ok (w, a) ()) with
  | undefined => rw [hs] at h; cases h
  | throws s e => rw [hs] at h; cases h
  | ok s u =>
    obtain ⟨w1, a1⟩ := s
    exact ⟨w1, a1, rfl⟩

theorem resize_with_valid {T : Type} (E : Element T) (hE : E.ValueType) (sys : SystemHeap)
    (hfresh : sys.Fresh) (a : DynamicArray) (w : World T) (hv : a.Valid w)
    (xs : List T) (hxs : a.elements w = xs.map some) (m : Nat) (f : T)
    (w' : World T) (a' : DynamicArray)
    (h : a.resize_with E sys w m (some f) = .ok (w', a') ()) :
    a'.Valid w' ∧ a.Resized xs m f a' w' := by
  obtain ⟨w1, a1, hstage⟩ := resize_with_ok_inv E sys a a' w w' m (some f) h
  obtain ⟨hv1, hxs1, hs1, hm1, hc1, hc2⟩ :=
    resize_stage_ok E hE sys hfresh a a1 w w1 hv xs hxs m hstage
  obtain ⟨w2, a2, hr, hv2, hs2, he2, hcap2, _, _, _⟩ :=
    resize_with_core E sys a a1 w w1 m f xs hstage hv1 hxs1 hm1
  rw [hr] at h
  simp only [Outcome.ok.injEq, Prod.mk.injEq, and_true] at h
  obtain ⟨rfl, rfl⟩ := h
  have hlen := elements_length a w xs hxs
  refine ⟨hv2, hs2, ?_, fun hlt => by rw [hcap2, hc1 hlt], fun hle => ?_⟩
  · rw [he2, hlen]
  · rw [hcap2, (hc2 hle).1]

theorem resize_with_returns {T : Type} (E : Element T) (hE : E.ValueType) (sys : SystemHeap)
    (hfresh : sys.Fresh) (a : DynamicArray) (w : World T) (hv : a.Valid w)
    (xs : List T) (hxs : a.elements w = xs.map some) (m : Nat) (f : T)
    (h : m ≤ a.capacity_ ∨ (sys.Unlimited ∧ m * E.sizeof ≤ SIZE_MAX)) :
    ∃ w' a', a.resize_with E sys w m (some f) = .ok (w', a') () := by
  obtain ⟨w1, a1, hstage⟩ := resize_stage_returns E hE sys hfresh a w hv m h
  obtain ⟨hv1, hxs1, _, hm1, _, _⟩ :=
    resize_stage_ok E hE sys hfresh a a1 w w1 hv xs hxs m hstage
  obtain ⟨w2, a2, hr, _⟩ := resize_with_core E sys a a1 w w1 m f xs hstage hv1 hxs1 hm1
  exact ⟨w2, a2, hr⟩

/-- C16. `resize(m)` and `resize(m, v)` on an array with elements `xs`, length
`n` and capacity `c`, for an element type with value semantics whose default
value is `d`, and a heap that behaves: whenever the call returns, the length is
`m`, the elements are the first `min(n, m)` elements of `xs` followed by `m - n`
copies of the fill value (`d` for `resize(m)`, `v` for `resize(m, v)`), and the
capacity is `m` if `m > c` and `c` otherwise. The call does return when
`m <= c`, and also when the heap supplies memory and `m * sizeof(T)` fits
`size_t`. -/
theorem resize_spec {T : Type} (E : Element T) (hE : E.ValueType) (sys : SystemHeap)
    (hfresh : sys.Fresh) (a : DynamicArray) (w : World T) (hv : a.Valid w)
    (xs : List T) (hxs : a.elements w = xs.map some) (m : Nat) (d : T)
    (hd : E.default_ctor = some d) (v : T) :
    (∀ w' a', a.resize E sys w m = .ok (w', a') () → a.Resized xs m d a' w') ∧
    (∀ w' a', a.resize_value E sys w m v = .ok (w', a') () → a.Resized xs m v a' w') ∧
    (m ≤ a.capacity_ ∨ (sys.Unlimited ∧ m * E.sizeof ≤ SIZE_MAX) →
      (∃ w' a', a.resize E sys w m = .ok (w', a') ()) ∧
      (∃ w' a', a.resize_value E sys w m v = .ok (w', a') ())) := by
  refine ⟨fun w' a' h => ?_, fun w' a' h => ?_, fun h => ⟨?_, ?_⟩⟩
  · rw [DynamicArray.resize, hd] at h
    exact (resize_with_valid E hE sys hfresh a w hv xs hxs m d w' a' h).2
  · rw [DynamicArray.resize_value, hE.1 v] at h
    exact (resize_with_valid E hE sys hfresh a w hv xs hxs m v w' a' h).2
  · rw [DynamicArray.resize, hd]
    exact resize_with_returns E hE sys hfresh a w hv xs hxs m d h
  · rw [DynamicArray.resize_value, hE.1 v]
    exact resize_with_returns E hE sys hfresh a w hv xs hxs m v h

/-- Witness for C16: on a new `int` array `resize(5)` gives five 0s and
`resize(5, 42)` gives five 42s. -/
theorem resize_spec_witness :
    int_element.ValueType ∧ bump_heap.Fresh ∧ DynamicArray.new.Valid (World.initial Int) ∧
    int_element.default_ctor = some 0 ∧
    (bump_heap.Unlimited ∧ 5 * int_element.sizeof ≤ SIZE_MAX) ∧
    (∃ w' a', DynamicArray.new.resize int_element bump_heap (World.initial Int) 5 =
        .ok (w', a') () ∧
      a'.size_ = 5 ∧ a'.elements w' = [some 0, some 0, some 0, some 0, some 0] ∧
      a'.capacity_ = 5) ∧
    (∃ w' a', DynamicArray.new.resize_value int_element bump_heap (World.initial Int) 5 42 =
        .ok (w', a') () ∧
      a'.size_ = 5 ∧ a'.elements w' = [some 42, some 42, some 42, some 42, some 42] ∧
      a'.capacity_ = 5) :=
  have hv : DynamicArray.new.Valid (World.initial Int) := valid_new _ inv_init.1
  have hfit : bump_heap.Unlimited ∧ 5 * int_element.sizeof ≤ SIZE_MAX :=
    ⟨bump_heap_unlimited, by decide⟩
  have h := resize_spec int_element int_element_valueType bump_heap bump_heap_fresh
    DynamicArray.new (World.initial Int) hv [] rfl 5 0 rfl 42
  ⟨int_element_valueType, bump_heap_fresh, hv, rfl, hfit,
    (h.2.2 (Or.inr hfit)).1.elim fun w' hw' => hw'.elim fun a' ha' =>
      ⟨w', a', ha', (h.1 w' a' ha').1, (h.1 w' a' ha').2.1, (h.1 w' a' ha').2.2.1 (by decide)⟩,
    (h.2.2 (Or.inr hfit)).2.elim fun w' hw' => hw'.elim fun a' ha' =>
      ⟨w', a', ha', (h.2.1 w' a' ha').1, (h.2.1 w' a' ha').2.1,
        (h.2.1 w' a' ha').2.2.1 (by decide)⟩⟩

/-! ## DynamicArray: copies -/

theorem push_back_room {T : Type} (E : Element T) (sys : SystemHeap) (a : DynamicArray)
    (w : World T) (x : T) (hlt : a.size_ < a.capacity_) (hcap : a.capacity_ < SIZE_MOD)
    (hc : E.copy_ctor x = some x) :
    a.push_back E sys w x =
      .ok ({ w with objects := w.objects.construct a.data_ a.size_ x },
           { a with size_ := a.size_ + 1 }) () := by
  have hne : ¬ a.size_ = a.capacity_ := by omega
  have hmod : (a.size_ + 1) % SIZE_MOD = a.size_ + 1 := Nat.mod_eq_of_lt (by omega)
  simp only [DynamicArray.push_back, DynamicArray.grow_if_full, hne, if_false,
    DynamicArray.construct_at_end, hlt, if_true, hc, hmod]

theorem copy_elements_spec {T : Type} (E : Element T) (hcopy : ∀ x, E.copy_ctor x = some x)
    (sys : SystemHeap) (other : DynamicArray) (count : Nat) :
    ∀ (i : Nat) (a : DynamicArray) (w : World T), a.size_ + count ≤ a.capacity_ →
      a.capacity_ < SIZE_MOD → (count ≠ 0 → a.data_ ≠ other.data_) →
      (∀ j, i ≤ j → j < i + count → (w.objects other.data_ j).isSome = true) →
      ∃ objs' : Objects T,
        DynamicArray.copy_elements E sys other count i a w =
          .ok ({ w with objects := objs' }, { a with size_ := a.size_ + count }) () ∧
        (∀ t, t < count → objs' a.data_ (a.size_ + t) = w.objects other.data_ (i + t)) ∧
        (∀ q j, ¬ (q = a.data_ ∧ a.size_ ≤ j ∧ j < a.size_ + count) →
          objs' q j = w.objects q j) := by
  induction count with
  | zero =>
    intro i a w _ _ _ _
    exact ⟨w.objects, rfl, fun t ht => by omega, fun _ _ _ => rfl⟩
  | succ n ih =>
    intro i a w hroom hcap hne hsome
    have hne' : a.data_ ≠ other.data_ := hne (Nat.succ_ne_zero n)
    obtain ⟨x, hx⟩ := Option.isSome_iff_exists.mp (hsome i (le_refl i) (by omega))
    have hpush := push_back_room E sys a w x (by omega) hcap (hcopy x)
    have hkeep : ∀ j, (w.objects.construct a.data_ a.size_ x) other.data_ j =
        w.objects other.data_ j := by
      intro j
      have : ¬ (other.data_ = a.data_ ∧ j = a.size_) := fun h => hne' h.1.symm
      simp only [Objects.construct, this, if_false]
    obtain ⟨objs', hrun, hcopied, hother⟩ :=
      ih (i + 1) { a with size_ := a.size_ + 1 }
        { w with objects := w.objects.construct a.data_ a.size_ x }
        (by show a.size_ + 1 + n ≤ a.capacity_; omega) hcap (fun _ => hne')
        (fun j h1 h2 => by
          show ((w.objects.construct a.data_ a.size_ x) other.data_ j).isSome = true
          rw [hkeep j]
          exact hsome j (by omega) (by omega))
    refine ⟨objs', ?_, ?_, ?_⟩
    · simp only [DynamicArray.copy_elements, hx, hpush]
      rw [hrun]
      have : a.size_ + 1 + n = a.size_ + (n + 1) := by omega
      simp only [this]
    · intro t ht
      cases t with
      | zero =>
        have h1 := hother a.data_ a.size_ (by
          intro h
          have : a.size_ + 1 ≤ a.size_ := h.2.1
          omega)
        rw [Nat.add_zero, Nat.add_zero, h1, hx]
        simp [Objects.construct]
      | succ s =>
        have h1 := hcopied s (by omega)
        have e1 : a.size_ + (s + 1) = a.size_ + 1 + s := by omega
        have e2 : i + (s + 1) = i + 1 + s := by omega
        rw [e1, e2]
        rw [show ({ a with size_ := a.size_ + 1 } : DynamicArray).data_ = a.data_ from rfl,
          show ({ a with size_ := a.size_ + 1 } : DynamicArray).size_ = a.size_ + 1 from rfl] at h1
        rw [h1]
        exact hkeep _
    · intro q j hq
      rw [hother q j (by
        intro h
        exact hq ⟨h.1, by have : a.size_ + 1 ≤ j := h.2.1; omega,
          by have : j < a.size_ + 1 + n := h.2.2; omega⟩)]
      have : ¬ (q = a.data_ ∧ j = a.size_) := by
        rintro ⟨rfl, rfl⟩
        exact hq ⟨rfl, le_refl _, by omega⟩
      simp only [Objects.construct, this, if_false]

theorem elements_construct_other {T : Type} (a : DynamicArray) (w : World T) (p i : Nat)
    (v : T) (hne : p ≠ a.data_) :
    a.elements { w with objects := w.objects.construct p i v } = a.elements w := by
  apply elements_eq_of_objects a a w { w with objects := w.objects.construct p i v } rfl
  intro j _
  have : ¬ (a.data_ = p ∧ j = i) := fun h => hne h.1.symm
  simp only [Objects.construct, this, if_false]

theorem index_assign_spec {T : Type} (a : DynamicArray) (w : World T) (xs : List T)
    (hxs : a.elements w = xs.map some) (i : Nat) (v : T) (hi : i < a.size_) :
    a.index_assign w i v = some { w with objects := w.objects.construct a.data_ i v } ∧
    a.elements { w with objects := w.objects.construct a.data_ i v } =
      (xs.set i v).map some := by
  have hlen := elements_length a w xs hxs
  have hobj := objects_of_elements a w xs hxs i hi
  rw [List.getElem?_eq_getElem (by omega)] at hobj
  refine ⟨by simp only [DynamicArray.index_assign, hobj], ?_⟩
  apply elements_of_pointwise
  · simp only [List.length_set]; exact hlen.symm
  · intro j hj
    simp only [List.length_set] at hj
    rw [List.getElem?_set]
    by_cases hij : i = j
    · subst hij
      simp [Objects.construct, hj]
    · have hji : ¬ j = i := fun h => hij h.symm
      simp only [hij, if_false, Objects.construct, hji, and_false]
      exact objects_of_elements a w xs hxs j (by omega)

theorem copy_tail {T : Type} (E : Element T) (hE : E.ValueType) (sys : SystemHeap)
    (other b1 : DynamicArray) (w1 : World T) (xs : List T)
    (hb1 : b1.Valid w1) (ho : other.Valid w1) (hs : b1.size_ = 0)
    (hn : other.size_ ≤ b1.capacity_)
    (hdis : b1.capacity_ ≠ 0 → other.capacity_ ≠ 0 → b1.data_ ≠ other.data_)
    (hxs : other.elements w1 = xs.map some) :
    ∃ w' b, DynamicArray.copy_elements E sys other other.size_ 0 b1 w1 = .ok (w', b) () ∧
      other.Copied xs b w' ∧ b.capacity_ = b1.capacity_ ∧ b.data_ = b1.data_ ∧
      w'.mr = w1.mr := by
  have hlen := elements_length other w1 xs hxs
  have hocap := ho.2.1
  have hne : other.size_ ≠ 0 → b1.data_ ≠ other.data_ := fun h =>
    hdis (by omega) (by omega)
  obtain ⟨objs', hrun, hcopied, hframe⟩ :=
    copy_elements_spec E hE.1 sys other other.size_ 0 b1 w1 (by omega) hb1.2.2.1 hne
      (fun j _ hj => ho.2.2.2.2.2 j (by omega))
  have hbobj : ∀ j, j < other.size_ → objs' b1.data_ j = xs[j]? := by
    intro j hj
    have := hcopied j hj
    simp only [hs, Nat.zero_add] at this
    rw [this]
    exact objects_of_elements other w1 xs hxs j hj
  have hoobj : ∀ j, j < other.size_ → objs' other.data_ j = w1.objects other.data_ j := by
    intro j hj
    apply hframe
    intro h
    exact hne (by omega) h.1.symm
  have hbel : DynamicArray.elements { b1 with size_ := b1.size_ + other.size_ }
      ({ w1 with objects := objs' } : World T) = xs.map some := by
    apply elements_of_pointwise
    · show b1.size_ + other.size_ = xs.length
      omega
    · intro j hj
      exact hbobj j (by omega)
  have hoel : other.elements ({ w1 with objects := objs' } : World T) = xs.map some := by
    rw [← hxs]
    exact elements_eq_of_objects other other w1 _ rfl hoobj
  have hbv : DynamicArray.Valid { b1 with size_ := b1.size_ + other.size_ }
      ({ w1 with objects := objs' } : World T) := by
    refine ⟨hb1.1, by show b1.size_ + other.size_ ≤ b1.capacity_; omega, hb1.2.2.1,
      hb1.2.2.2.1, hb1.2.2.2.2.1, fun j hj => ?_⟩
    have hj' : j < other.size_ := by
      have : j < b1.size_ + other.size_ := hj
      omega
    show (objs' b1.data_ j).isSome = true
    rw [hbobj j hj', List.getElem?_eq_getElem (by omega)]
    rfl
  have hov : other.Valid ({ w1 with objects := objs' } : World T) := by
    refine ⟨ho.1, ho.2.1, ho.2.2.1, ho.2.2.2.1, ho.2.2.2.2.1, fun j hj => ?_⟩
    show (objs' other.data_ j).isSome = true
    rw [hoobj j hj]
    exact ho.2.2.2.2.2 j hj
  refine ⟨_, _, hrun, ⟨hbv, hov, by show b1.size_ + other.size_ = other.size_; omega, hbel,
    hoel, hdis, fun i v hi => ⟨?_, ?_⟩⟩, rfl, rfl, rfl⟩
  · obtain ⟨h1, h2⟩ := index_assign_spec { b1 with size_ := b1.size_ + other.size_ }
      ({ w1 with objects := objs' } : World T) xs hbel i v
      (by show i < b1.size_ + other.size_; omega)
    refine ⟨_, h1, ?_, h2⟩
    rw [← hoel]
    exact elements_construct_other other _ _ i v (hne (by omega))
  · obtain ⟨h1, h2⟩ := index_assign_spec other ({ w1 with objects := objs' } : World T) xs
      hoel i v hi
    refine ⟨_, h1, ?_, h2⟩
    rw [← hbel]
    exact elements_construct_other { b1 with size_ := b1.size_ + other.size_ } _ _ i v
      (fun h => hne (by omega) h.symm)

theorem copy_stage {T : Type} (E : Element T) (hE : E.ValueType) (sys : SystemHeap)
    (hfresh : sys.Fresh) (t other : DynamicArray) (w0 : World T) (xs : List T)
    (ht : t.Valid w0) (ho : other.Valid w0) (hts : t.size_ = 0)
    (hdis : t.capacity_ ≠ 0 → other.capacity_ ≠ 0 → t.data_ ≠ other.data_)
    (hxs : other.elements w0 = xs.map some) :
    (∀ w1 b1, t.reserve E sys w0 other.size_ = .ok (w1, b1) () →
      b1.Valid w1 ∧ other.Valid w1 ∧ b1.size_ = 0 ∧ other.size_ ≤ b1.capacity_ ∧
      (b1.capacity_ ≠ 0 → other.capacity_ ≠ 0 → b1.data_ ≠ other.data_) ∧
      other.elements w1 = xs.map some) ∧
    (other.size_ ≤ t.capacity_ ∨ (sys.Unlimited ∧ other.size_ * E.sizeof ≤ SIZE_MAX) →
      ∃ w1 b1, t.reserve E sys w0 other.size_ = .ok (w1, b1) ()) := by
  by_cases hle : other.size_ ≤ t.capacity_
  · have hr : t.reserve E sys w0 other.size_ = .ok (w0, t) () := by
      simp only [DynamicArray.reserve, hle, if_true]
    refine ⟨fun w1 b1 h => ?_, fun _ => ⟨w0, t, hr⟩⟩
    rw [hr] at h
    simp only [Outcome.ok.injEq, Prod.mk.injEq, and_true] at h
    obtain ⟨rfl, rfl⟩ := h
    exact ⟨ht, ho, hts, hle, hdis, hxs⟩
  · have hgt : t.capacity_ < other.size_ := by omega
    have key : ∀ mr1 p, allocator_allocate E sys w0.mr other.size_ = .ok mr1 p →
        ∃ w1 b1, t.reserve E sys w0 other.size_ = .ok (w1, b1) () ∧
          b1.Valid w1 ∧ other.Valid w1 ∧ b1.size_ = 0 ∧ other.size_ ≤ b1.capacity_ ∧
          (b1.capacity_ ≠ 0 → other.capacity_ ≠ 0 → b1.data_ ≠ other.data_) ∧
          other.elements w1 = xs.map some := by
      intro mr1 p ha
      obtain ⟨w', hr, hv', _, hmr⟩ :=
        reserve_grow E hE sys t w0 ht other.size_ hgt (hfresh _ _ _) mr1 p ha
      obtain ⟨objs', hr2, _, _, _, _, hkeep, _, _, hframe⟩ :=
        reserve_grow_frame E hE sys t w0 ht other.size_ hgt (hfresh _ _ _) mr1 p ha
      have hw' : w' = { mr := if t.data_ ≠ 0 then allocator_deallocate E mr1 t.data_ t.capacity_
                              else mr1
                        objects := objs' } := by
        rw [hr] at hr2
        simp only [Outcome.ok.injEq, Prod.mk.injEq, and_true] at hr2
        exact hr2
      have hobjs : ∀ q j, w'.objects q j = w0.objects q j := by
        intro q j
        rw [hw']
        exact hframe q j (by rw [hts]; omega)
      have hocap := ho.2.1
      refine ⟨w', _, hr, hv', ?_, hts, le_refl _, ?_, ?_⟩
      · refine ⟨hv'.1, ho.2.1, ho.2.2.1, ho.2.2.2.1, fun hc => ?_, fun j hj => ?_⟩
        · obtain ⟨hin, _⟩ := hkeep other.data_ (ho.2.2.2.2.1 hc)
          rw [hmr]
          split
          · rename_i h0
            have htc : t.capacity_ ≠ 0 := fun h => h0 (ht.2.2.2.1 h)
            exact in_use_do_deallocate _ _ _ _ _ (Ne.symm (hdis htc hc)) hin
          · exact hin
        · rw [hobjs]
          exact ho.2.2.2.2.2 j hj
      · intro _ hc
        exact Ne.symm (hkeep other.data_ (ho.2.2.2.2.1 hc)).2
      · rw [← hxs]
        exact elements_eq_of_objects other other w0 w' rfl (fun j _ => hobjs _ j)
    refine ⟨fun w1 b1 h => ?_, fun hcond => ?_⟩
    · obtain ⟨mr1, p, ha⟩ := reserve_ok_inv E sys t b1 w0 w1 other.size_ hgt h
      obtain ⟨w1', b1', hr, hrest⟩ := key mr1 p ha
      rw [hr] at h
      simp only [Outcome.ok.injEq, Prod.mk.injEq, and_true] at h
      obtain ⟨rfl, rfl⟩ := h
      exact hrest
    · rcases hcond with h | ⟨hun, hfit⟩
      · omega
      · obtain ⟨mr1, p, ha⟩ := allocator_allocate_returns E sys hun w0.mr other.size_ hfit
        obtain ⟨w1, b1, hr, _⟩ := key mr1 p ha
        exact ⟨w1, b1, hr⟩

theorem clear_frame {T : Type} (self other : DynamicArray) (w : World T) (xs : List T)
    (hself : self.Valid w) (ho : other.Valid w)
    (hdis : self.capacity_ ≠ 0 → other.capacity_ ≠ 0 → self.data_ ≠ other.data_)
    (hxs : other.elements w = xs.map some) :
    (self.clear w).2.Valid (self.clear w).1 ∧ other.Valid (self.clear w).1 ∧
    (self.clear w).2.size_ = 0 ∧
    ((self.clear w).2.capacity_ ≠ 0 → other.capacity_ ≠ 0 →
      (self.clear w).2.data_ ≠ other.data_) ∧
    other.elements (self.clear w).1 = xs.map some := by
  have hobjs : ∀ j, j < other.size_ →
      (self.clear w).1.objects other.data_ j = w.objects other.data_ j := by
    intro j hj
    show DynamicArray.destroy_elements self.data_ self.size_ 0 w.objects other.data_ j = _
    rw [destroy_elements_apply]
    have : ¬ (other.data_ = self.data_ ∧ 0 ≤ j ∧ j < 0 + self.size_) := by
      rintro ⟨he, _, hlt⟩
      have h1 := hself.2.1
      have h2 := ho.2.1
      exact hdis (by omega) (by omega) he.symm
    rw [if_neg this]
  refine ⟨⟨hself.1, Nat.zero_le _, hself.2.2.1, hself.2.2.2.1, hself.2.2.2.2.1, ?_⟩,
    ⟨ho.1, ho.2.1, ho.2.2.1, ho.2.2.2.1, ho.2.2.2.2.1, ?_⟩, rfl, hdis, ?_⟩
  · intro j hj
    exact absurd hj (Nat.not_lt_zero j)
  · intro j hj
    rw [hobjs j hj]
    exact ho.2.2.2.2.2 j hj
  · rw [← hxs]
    exact elements_eq_of_objects other other w _ rfl hobjs

theorem copy_construct_ok_inv {T : Type} (E : Element T) (sys : SystemHeap)
    (other b : DynamicArray) (w w' : World T)
    (h : other.copy_construct E sys w = .ok (w', b) ()) :
    ∃ w1 b1, DynamicArray.new.reserve E sys w other.size_ = .ok (w1, b1) () ∧
      DynamicArray.copy_elements E sys other other.size_ 0 b1 w1 = .ok (w', b) () := by
  unfold DynamicArray.copy_construct at h
  cases hr : DynamicArray.new.reserve E sys w other.size_ with
  | undefined => rw [hr] at h; cases h
  | throws s e => rw [hr] at h; cases h
  | ok s u =>
    obtain ⟨w1, b1⟩ := s
    rw [hr] at h
    exact ⟨w1, b1, rfl, h⟩

theorem copy_assign_ok_inv {T : Type} (E : Element T) (sys : SystemHeap)
    (self other b : DynamicArray) (w w' : World T)
    (h : self.copy_assign E sys other false w = .ok (w', b) ()) :
    ∃ w1 b1, (self.clear w).2.reserve E sys (self.clear w).1 other.size_ = .ok (w1, b1) () ∧
      DynamicArray.copy_elements E sys other other.size_ 0 b1 w1 = .ok (w', b) () := by
  unfold DynamicArray.copy_assign at h
  simp only [Bool.false_eq_true, if_false] at h
  cases hr : (self.clear w).2.reserve E sys (self.clear w).1 other.size_ with
  | undefined => rw [hr] at h; cases h
  | throws s e => rw [hr] at h; cases h
  | ok s u =>
    obtain ⟨w1, b1⟩ := s
    rw [hr] at h
    exact ⟨w1, b1, rfl, h⟩

theorem copy_from_stage {T : Type} (E : Element T) (hE : E.ValueType) (sys : SystemHeap)
    (hfresh : sys.Fresh) (t other : DynamicArray) (w0 : World T) (xs : List T)
    (ht : t.Valid w0) (ho : other.Valid w0) (hts : t.size_ = 0)
    (hdis : t.capacity_ ≠ 0 → other.capacity_ ≠ 0 → t.data_ ≠ other.data_)
    (hxs : other.elements w0 = xs.map some) :
    (∀ w1 b1 w' b, t.reserve E sys w0 other.size_ = .ok (w1, b1) () →
      DynamicArray.copy_elements E sys other other.size_ 0 b1 w1 = .ok (w', b) () →
      other.Copied xs b w') ∧
    (sys.Unlimited → other.size_ * E.sizeof ≤ SIZE_MAX →
      ∃ w1 b1 w' b, t.reserve E sys w0 other.size_ = .ok (w1, b1) () ∧
        DynamicArray.copy_elements E sys other other.size_ 0 b1 w1 = .ok (w', b) ()) := by
  obtain ⟨hstage, hret⟩ := copy_stage E hE sys hfresh t other w0 xs ht ho hts hdis hxs
  constructor
  · intro w1 b1 w' b hr hc
    obtain ⟨hb1, ho1, hs1, hn1, hdis1, hxs1⟩ := hstage w1 b1 hr
    obtain ⟨w2, b2, hc2, hcop, _⟩ := copy_tail E hE sys other b1 w1 xs hb1 ho1 hs1 hn1 hdis1 hxs1
    rw [hc2] at hc
    simp only [Outcome.ok.injEq, Prod.mk.injEq, and_true] at hc
    obtain ⟨rfl, rfl⟩ := hc
    exact hcop
  · intro hun hfit
    obtain ⟨w1, b1, hr⟩ := hret (Or.inr ⟨hun, hfit⟩)
    obtain ⟨hb1, ho1, hs1, hn1, hdis1, hxs1⟩ := hstage w1 b1 hr
    obtain ⟨w2, b2, hc2, _⟩ := copy_tail E hE sys other b1 w1 xs hb1 ho1 hs1 hn1 hdis1 hxs1
    exact ⟨w1, b1, w2, b2, hr, hc2⟩

/-- C14. Copy independence, for an element type with value semantics and a heap
that behaves. Let `A` be an array with elements `xs`, and `B` the array the copy
constructor builds from `A`, or the array `self` after `self = A`, where `self`
is another array whose storage, if any, is not the storage of `A`. Whenever the
copy returns, `B` has the length and the elements of `A`, `A` is unchanged, the
storages of `A` and `B` are different regions whenever both arrays have one, and
writing any value at any valid index of `B` leaves every element of `A` as it
is, and the other way round. The copy does return when the heap supplies memory
and `n * sizeof(T)` fits `size_t`. -/
theorem copy_independence {T : Type} (E : Element T) (hE : E.ValueType) (sys : SystemHeap)
    (hfresh : sys.Fresh) (other : DynamicArray) (w : World T) (ho : other.Valid w)
    (xs : List T) (hxs : other.elements w = xs.map some)
    (self : DynamicArray) (hself : self.Valid w)
    (hdis : self.capacity_ ≠ 0 → other.capacity_ ≠ 0 → self.data_ ≠ other.data_) :
    (∀ w' b, other.copy_construct E sys w = .ok (w', b) () → other.Copied xs b w') ∧
    (∀ w' b, self.copy_assign E sys other false w = .ok (w', b) () → other.Copied xs b w') ∧
    (sys.Unlimited → other.size_ * E.sizeof ≤ SIZE_MAX →
      (∃ w' b, other.copy_construct E sys w = .ok (w', b) ()) ∧
      (∃ w' b, self.copy_assign E sys other false w = .ok (w', b) ())) := by
  have hnew := copy_from_stage E hE sys hfresh DynamicArray.new other w xs (valid_new w ho.1) ho
    rfl (fun h => absurd rfl h) hxs
  obtain ⟨hcv, hov, hcs, hcdis, hcxs⟩ := clear_frame self other w xs hself ho hdis hxs
  have hasg := copy_from_stage E hE sys hfresh (self.clear w).2 other (self.clear w).1 xs
    hcv hov hcs hcdis hcxs
  refine ⟨fun w' b h => ?_, fun w' b h => ?_, fun hun hfit => ⟨?_, ?_⟩⟩
  · obtain ⟨w1, b1, hr, hc⟩ := copy_construct_ok_inv E sys other b w w' h
    exact hnew.1 w1 b1 w' b hr hc
  · obtain ⟨w1, b1, hr, hc⟩ := copy_assign_ok_inv E sys self other b w w' h
    exact hasg.1 w1 b1 w' b hr hc
  · obtain ⟨w1, b1, w', b, hr, hc⟩ := hnew.2 hun hfit
    refine ⟨w', b, ?_⟩
    simp only [DynamicArray.copy_construct, hr, hc]
  · obtain ⟨w1, b1, w', b, hr, hc⟩ := hasg.2 hun hfit
    refine ⟨w', b, ?_⟩
    simp only [DynamicArray.copy_assign, Bool.false_eq_true, if_false, hr, hc]

/-- Witness for C14: `A = [10, 20]`, `B` copy-constructed from `A`, then
`B[0] = 100` leaves `A[0] == 10`. -/
theorem copy_independence_witness :
    int_element.ValueType ∧ bump_heap.Fresh ∧ two_int_array.Valid two_int_world ∧
    two_int_array.elements two_int_world = [(10 : Int), 20].map some ∧
    DynamicArray.new.Valid two_int_world ∧
    bump_heap.Unlimited ∧ two_int_array.size_ * int_element.sizeof ≤ SIZE_MAX ∧
    ∃ w' b, two_int_array.copy_construct int_element bump_heap two_int_world = .ok (w', b) () ∧
      b.size_ = 2 ∧ b.elements w' = [some 10, some 20] ∧ b.data_ ≠ two_int_array.data_ ∧
      ∃ w'' : World Int, b.index_assign w' 0 100 = some w'' ∧
        two_int_array.elements w'' = [some 10, some 20] ∧
        two_int_array.index w'' 0 = some 10 ∧
        b.elements w'' = [some 100, some 20] :=
  have hxs : two_int_array.elements two_int_world = [(10 : Int), 20].map some := rfl
  have hnew : DynamicArray.new.Valid two_int_world := valid_new _ two_int_array_valid.1
  have hfit : two_int_array.size_ * int_element.sizeof ≤ SIZE_MAX := by decide
  have h := copy_independence int_element int_element_valueType bump_heap bump_heap_fresh
    two_int_array two_int_world two_int_array_valid [10, 20] hxs DynamicArray.new hnew
    (fun h => absurd rfl h)
  ⟨int_element_valueType, bump_heap_fresh, two_int_array_valid, hxs, hnew, bump_heap_unlimited,
    hfit,
    (h.2.2 bump_heap_unlimited hfit).1.elim fun w' hw' => hw'.elim fun b hb =>
      have hc := h.1 w' b hb
      have hcap : b.capacity_ ≠ 0 := fun h0 => by
        have h1 := hc.1.2.1
        have h2 : b.size_ = 2 := hc.2.2.1
        omega
      ⟨w', b, hb, hc.2.2.1, hc.2.2.2.1, hc.2.2.2.2.2.1 hcap (by decide),
        (hc.2.2.2.2.2.2 0 100 (by decide)).1.elim fun w'' hw'' =>
          ⟨w'', hw''.1, hw''.2.1,
            by
              have := index_of_elements two_int_array w'' [10, 20] hw''.2.1 0 (by decide)
              simpa using this,
            hw''.2.2⟩⟩⟩

/-! ## The allocator: hand-outs and byte counters -/

/-- C24. No double hand-out: in every state reachable from a newly constructed
allocator (with a heap that behaves), the address `allocate` returns is not the
address of any block that was in use immediately before the call; the returned
block is in use afterwards, and every block that was in use before is still in
use afterwards at an address different from the returned one. So two callers
that each hold a region they have not handed back hold different addresses. -/
theorem no_double_hand_out (mr : CustomMemoryResource) (hr : Reachable mr)
    (bytes alignment : Nat) (heap : Option Nat) (hh : heap_fresh mr heap = true)
    (mr1 : CustomMemoryResource) (p : Nat)
    (ha : mr.do_allocate bytes alignment heap = .ok mr1 p) :
    (∀ b ∈ mr.allocated_blocks_, b.free = false → b.ptr ≠ p) ∧
    ¬ in_use_at mr p ∧ in_use_at mr1 p ∧
    (∀ q, in_use_at mr q → q ≠ p ∧ in_use_at mr1 q) := by
  have hw := wellFormed_of_reachable mr hr
  have h1 := do_allocate_ne_in_use mr mr1 bytes alignment p heap hw hh ha
  refine ⟨h1, ?_, do_allocate_in_use_after _ _ _ _ _ _ ha, fun q hq => ⟨?_, ?_⟩⟩
  · rintro ⟨b, hb, hbp, hbf⟩
    exact h1 b hb hbf hbp
  · obtain ⟨b, hb, hbq, hbf⟩ := hq
    rw [← hbq]
    exact h1 b hb hbf
  · exact in_use_do_allocate _ _ _ _ _ _ _ ha hq

/-- Witness for C24: a request served from the state after `sample_calls`, where
the blocks at 8192, 12288 and 16384 are in use and the block at 4096 is free. -/
theorem no_double_hand_out_witness :
    Reachable (Session.run {} sample_calls).mr ∧
    heap_fresh (Session.run {} sample_calls).mr (some 20480) = true ∧
    (∃ mr1, (Session.run {} sample_calls).mr.do_allocate 40 16 (some 20480) = .ok mr1 4096 ∧
      ¬ in_use_at (Session.run {} sample_calls).mr 4096 ∧ in_use_at mr1 4096 ∧
      in_use_at mr1 8192) ∧
    (∃ mr1, (Session.run {} sample_calls).mr.do_allocate 400 16 (some 20480) = .ok mr1 20480 ∧
      ¬ in_use_at (Session.run {} sample_calls).mr 20480 ∧ in_use_at mr1 20480) :=
  by
  have hr : Reachable (Session.run {} sample_calls).mr := ⟨sample_calls, by decide, rfl⟩
  have hq : in_use_at (Session.run {} sample_calls).mr 8192 :=
    ⟨{ ptr := 8192, size := 100, alignment := 16, free := false }, by decide, rfl, rfl⟩
  obtain ⟨mr1, h1⟩ : ∃ mr1,
      (Session.run {} sample_calls).mr.do_allocate 40 16 (some 20480) = .ok mr1 4096 :=
    ⟨_, rfl⟩
  obtain ⟨mr2, h2⟩ : ∃ mr2,
      (Session.run {} sample_calls).mr.do_allocate 400 16 (some 20480) = .ok mr2 20480 :=
    ⟨_, rfl⟩
  have n1 := no_double_hand_out _ hr 40 16 (some 20480) (by decide) mr1 4096 h1
  have n2 := no_double_hand_out _ hr 400 16 (some 20480) (by decide) mr2 20480 h2
  exact ⟨hr, by decide, ⟨mr1, h1, n1.2.1, n1.2.2.1, (n1.2.2.2 8192 hq).2⟩,
    ⟨mr2, h2, n2.2.1, n2.2.2.1⟩⟩

theorem assign_free_map_size (v : Bool) (l : List MemoryBlock) (it : Nat) :
    (assign_free v l it).map (fun b => b.size) = l.map (fun b => b.size) := by
  induction l generalizing it with
  | nil => simp [assign_free]
  | cons x xs ih => cases it <;> simp [assign_free, ih]

theorem accounting_do_deallocate (mr : CustomMemoryResource) (p bytes alignment : Nat) :
    (mr.do_deallocate p bytes alignment).recorded_bytes = mr.recorded_bytes ∧
    (mr.do_deallocate p bytes alignment).total_allocated_bytes_ = mr.total_allocated_bytes_ := by
  unfold CustomMemoryResource.do_deallocate
  cases hf : find_if (fun block => decide (block.ptr = p)) mr.allocated_blocks_ with
  | none => exact ⟨rfl, rfl⟩
  | some r => exact ⟨by simp [CustomMemoryResource.recorded_bytes, assign_free_map_size], rfl⟩

theorem accounting_call (s : Session) (c : Call)
    (h : s.mr.total_allocated_bytes_ = s.mr.recorded_bytes % SIZE_MOD) :
    (s.call c).mr.total_allocated_bytes_ = (s.call c).mr.recorded_bytes % SIZE_MOD := by
  cases c with
  | allocate bytes alignment heap =>
    simp only [Session.call]
    rcases do_allocate_cases s.mr bytes alignment heap with
      ⟨i, b, hf, hr⟩ | ⟨_, _, hr⟩ | ⟨q, hf, hq, hr⟩
    · rw [hr]
      simpa [CustomMemoryResource.recorded_bytes, assign_free_map_size] using h
    · rw [hr]
      exact h
    · rw [hr]
      show (s.mr.total_allocated_bytes_ + bytes) % SIZE_MOD =
        CustomMemoryResource.recorded_bytes _ % SIZE_MOD
      simp only [CustomMemoryResource.recorded_bytes, List.map_append, List.sum_append,
        List.map_cons, List.map_nil, List.sum_cons, List.sum_nil, Nat.add_zero]
      rw [h, Nat.add_mod]
      simp [CustomMemoryResource.recorded_bytes, Nat.add_mod]
  | deallocate p bytes alignment =>
    simp only [Session.call]
    obtain ⟨h1, h2⟩ := accounting_do_deallocate s.mr p bytes alignment
    rw [h1, h2]
    exact h

theorem accounting_run (calls : List Call) :
    ∀ s : Session, s.mr.total_allocated_bytes_ = s.mr.recorded_bytes % SIZE_MOD →
      (s.run calls).mr.total_allocated_bytes_ = (s.run calls).mr.recorded_bytes % SIZE_MOD := by
  induction calls with
  | nil => intro s h; exact h
  | cons c cs ih =>
    intro s h
    exact ih (s.call c) (accounting_call s c h)

/-- C26. Allocated-bytes accounting: in every state reachable from a newly
constructed allocator, `get_total_allocated_bytes()` is the sum of the recorded
sizes of all tracked blocks, free and in use, in `size_t` arithmetic, hence
exactly that sum when the sum fits `size_t`. -/
theorem allocated_bytes_accounting (mr : CustomMemoryResource) (hr : Reachable mr) :
    mr.get_total_allocated_bytes = mr.recorded_bytes % SIZE_MOD ∧
    (mr.recorded_bytes < SIZE_MOD → mr.get_total_allocated_bytes = mr.recorded_bytes) := by
  obtain ⟨calls, _, rfl⟩ := hr
  have h := accounting_run calls {} rfl
  exact ⟨h, fun hlt => by
    rw [CustomMemoryResource.get_total_allocated_bytes, h]
    exact Nat.mod_eq_of_lt hlt⟩

/-- Witness for C26: after `allocate(100)` and `allocate(200)` on a newly
constructed allocator, 300 bytes are counted. -/
theorem allocated_bytes_accounting_witness :
    Reachable (Session.run {}
      [.allocate 100 16 (some 4096), .allocate 200 16 (some 8192)]).mr ∧
    (Session.run {} [.allocate 100 16 (some 4096), .allocate 200 16 (some 8192)]).mr.recorded_bytes
      = 300 ∧
    (Session.run {}
      [.allocate 100 16 (some 4096), .allocate 200 16 (some 8192)]).mr.get_total_allocated_bytes
      = 300 :=
  have hr : Reachable (Session.run {}
      [.allocate 100 16 (some 4096), .allocate 200 16 (some 8192)]).mr :=
    ⟨_, by decide, rfl⟩
  ⟨hr, by decide, (allocated_bytes_accounting _ hr).2 (by decide)⟩

theorem unbalanced_calls_run (a p : Nat) :
    (Session.run {} (unbalanced_calls a p)).mr =
      { allocated_blocks_ := [{ ptr := p, size := 100, alignment := a, free := true }]
        total_allocated_bytes_ := 100
        total_deallocated_bytes_ := 200 } := by
  simp [unbalanced_calls, Session.run, Session.call, CustomMemoryResource.do_allocate,
    CustomMemoryResource.do_deallocate, CustomMemoryResource.reusable, find_if, assign_free,
    SIZE_MOD]

/-- C27. The two byte counters are not balanced: for every alignment `a`, the
calls `allocate(100, a)`, `deallocate`, `allocate(100, a)`, `deallocate` on a
newly constructed allocator are those of a well-behaved client (each
`deallocate` hands back an address the client holds, with the size and alignment
it asked for), and after them 100 bytes are counted as allocated and 200 as
deallocated: the second request is served by reuse, which counts no allocated
bytes, while both hand-backs count. -/
theorem counters_not_balanced (a p : Nat) (hp : p ≠ 0) :
    Session.heap_respected {} (unbalanced_calls a p) = true ∧
    Session.well_behaved {} [] (unbalanced_calls a p) = true ∧
    (Session.run {} (unbalanced_calls a p)).returned = [p, p] ∧
    (Session.run {} (unbalanced_calls a p)).mr.get_total_allocated_bytes = 100 ∧
    (Session.run {} (unbalanced_calls a p)).mr.get_total_deallocated_bytes = 200 ∧
    (Session.run {} (unbalanced_calls a p)).mr.get_total_deallocated_bytes >
      (Session.run {} (unbalanced_calls a p)).mr.get_total_allocated_bytes := by
  refine ⟨?_, ?_, ?_, ?_, ?_, ?_⟩
  · simp [unbalanced_calls, Session.heap_respected, heap_fresh, hp]
  · simp [unbalanced_calls, Session.well_behaved, Session.call,
      CustomMemoryResource.do_allocate, CustomMemoryResource.do_deallocate,
      CustomMemoryResource.reusable, find_if, assign_free]
  · simp [unbalanced_calls, Session.run, Session.call, CustomMemoryResource.do_allocate,
      CustomMemoryResource.do_deallocate, CustomMemoryResource.reusable, find_if, assign_free]
  · rw [unbalanced_calls_run]; rfl
  · rw [unbalanced_calls_run]; rfl
  · rw [unbalanced_calls_run]
    show 200 > 100
    decide

/-- Witness for C27: alignment 16, first region at address 4096. -/
theorem counters_not_balanced_witness :
    (4096 : Nat) ≠ 0 ∧
    Session.well_behaved {} [] (unbalanced_calls 16 4096) = true ∧
    (Session.run {} (unbalanced_calls 16 4096)).mr.get_total_allocated_bytes = 100 ∧
    (Session.run {} (unbalanced_calls 16 4096)).mr.get_total_deallocated_bytes = 200 :=
  have h := counters_not_balanced 16 4096 (by decide)
  ⟨by decide, h.2.1, h.2.2.2.1, h.2.2.2.2.1⟩

/-! ## DynamicArray: a growing reserve relocates -/

theorem reserve_ok_data {T : Type} (E : Element T) (sys : SystemHeap) (a a' : DynamicArray)
    (w w' : World T) (k : Nat) (hgt : a.capacity_ < k)
    (h : a.reserve E sys w k = .ok (w', a') ()) :
    ∃ mr1, allocator_allocate E sys w.mr k = .ok mr1 a'.data_ ∧
      a'.size_ = a.size_ ∧ a'.capacity_ = k ∧
      w'.mr = if a.data_ ≠ 0 then allocator_deallocate E mr1 a.data_ a.capacity_ else mr1 := by
  have hle : ¬ k ≤ a.capacity_ := by omega
  simp only [DynamicArray.reserve, hle, if_false] at h
  cases ha : allocator_allocate E sys w.mr k with
  | undefined => rw [ha] at h; cases h
  | throws mr1 e => rw [ha] at h; cases h
  | ok mr1 p =>
    rw [ha] at h
    simp only at h
    cases hm : DynamicArray.move_elements E a.data_ p k a.size_ 0 w.objects with
    | undefined => rw [hm] at h; cases h
    | throws objs e => rw [hm] at h; cases h
    | ok objs u =>
      rw [hm] at h
      simp only [Outcome.ok.injEq, Prod.mk.injEq, and_true] at h
      obtain ⟨rfl, rfl⟩ := h
      exact ⟨mr1, rfl, rfl, rfl, rfl⟩

/-- C22. A growing `reserve` always relocates: for an array whose storage is a
block in use in the allocator (registry well formed, heap that behaves) and
`new_capacity > capacity`, whenever `reserve(new_capacity)` returns, the new
storage is the address the allocator returned while the old block was still in
use, and it differs from the old storage address, whatever the size of the old
block. The call does return for a valid array of an element type with value
semantics when the heap supplies memory and `new_capacity * sizeof(T)` fits
`size_t`. -/
theorem reserve_relocates {T : Type} (E : Element T) (sys : SystemHeap) (hfresh : sys.Fresh)
    (a : DynamicArray) (w : World T) (hw : w.mr.WellFormed) (hin : in_use_at w.mr a.data_)
    (k : Nat) (hgt : a.capacity_ < k) :
    (∀ w' a', a.reserve E sys w k = .ok (w', a') () →
      a'.data_ ≠ a.data_ ∧
      ∃ mr1, allocator_allocate E sys w.mr k = .ok mr1 a'.data_ ∧
        in_use_at mr1 a.data_ ∧ in_use_at mr1 a'.data_) ∧
    (E.ValueType → a.Valid w → sys.Unlimited → k * E.sizeof ≤ SIZE_MAX →
      ∃ w' a', a.reserve E sys w k = .ok (w', a') ()) := by
  constructor
  · intro w' a' h
    obtain ⟨mr1, ha, _, _, _⟩ := reserve_ok_data E sys a a' w w' k hgt h
    obtain ⟨_, hdo⟩ := (allocator_allocate_ok_iff E sys w.mr mr1 k a'.data_).mp ha
    obtain ⟨b, hb, hbp, hbf⟩ := hin
    refine ⟨fun he => ?_, mr1, ha, in_use_do_allocate _ _ _ _ _ _ _ hdo ⟨b, hb, hbp, hbf⟩,
      do_allocate_in_use_after _ _ _ _ _ _ hdo⟩
    exact do_allocate_ne_in_use _ _ _ _ _ _ hw (hfresh _ _ _) hdo b hb hbf (hbp.trans he.symm)
  · intro hE hv hun hfit
    obtain ⟨mr1, p, ha⟩ := allocator_allocate_returns E sys hun w.mr k hfit
    obtain ⟨w', hr, _⟩ := reserve_grow E hE sys a w hv k hgt (hfresh _ _ _) mr1 p ha
    exact ⟨w', _, hr⟩

theorem roomy_array_valid : one_int_array.Valid roomy_world := by
  refine ⟨⟨by decide, by decide⟩, by decide, by decide, by decide, fun _ => ?_, fun i hi => ?_⟩
  · exact ⟨{ ptr := 16, size := 100, alignment := 4, free := false }, by decide, rfl, rfl⟩
  · have : i = 0 := by
      have : i < 1 := hi
      omega
    subst this
    rfl

/-- Witness for C22: the array `[7]` of capacity 1 sits in a block of 100
bytes; `reserve(2)` asks for 8 bytes and still moves the array to another
address. -/
theorem reserve_relocates_witness :
    bump_heap.Fresh ∧ roomy_world.mr.WellFormed ∧ in_use_at roomy_world.mr one_int_array.data_ ∧
    one_int_array.capacity_ < 2 ∧
    ∃ w' a', one_int_array.reserve int_element bump_heap roomy_world 2 = .ok (w', a') () ∧
      a'.data_ ≠ 16 ∧ a'.capacity_ = 2 :=
  have hin : in_use_at roomy_world.mr one_int_array.data_ :=
    ⟨{ ptr := 16, size := 100, alignment := 4, free := false }, by decide, rfl, rfl⟩
  have h := reserve_relocates int_element bump_heap bump_heap_fresh one_int_array roomy_world
    roomy_array_valid.1 hin 2 (by decide)
  ⟨bump_heap_fresh, roomy_array_valid.1, hin, by decide,
    (h.2 int_element_valueType roomy_array_valid bump_heap_unlimited (by decide)).elim
      fun w' hw' => hw'.elim fun a' ha' =>
        ⟨w', a', ha', (h.1 w' a' ha').1,
          (reserve_ok_data int_element bump_heap one_int_array a' roomy_world w' 2 (by decide)
            ha').elim fun _ hm => hm.2.2.1⟩⟩

/-! ## DynamicArray: the state invariant -/

theorem allocator_allocate_throws_state {T : Type} (E : Element T) (sys : SystemHeap)
    (mr mr1 : CustomMemoryResource) (n : Nat) (e : Exception)
    (h : allocator_allocate E sys mr n = .throws mr1 e) : mr1 = mr := by
  unfold allocator_allocate at h
  by_cases hn : n > SIZE_MAX / E.sizeof
  · simp only [hn, if_true, Outcome.throws.injEq] at h
    exact h.1.symm
  · simp only [hn, if_false] at h
    exact do_allocate_throws_state _ _ _ _ _ _ h

theorem reserve_leaves {T : Type} (E : Element T) (sys : SystemHeap) (hfresh : sys.Fresh)
    (a : DynamicArray) (w : World T) (ha : a.StateInvariant) (hw : w.mr.WellFormed) (k : Nat)
    (s : World T × DynamicArray) (h : (a.reserve E sys w k).state? = some s) :
    s.2.StateInvariant ∧ s.1.mr.WellFormed ∧
    (k ≤ a.capacity_ → s = (w, a)) ∧ s.2.size_ = a.size_ ∧
    (∀ v, a.reserve E sys w k = .ok s v → k ≤ s.2.capacity_) := by
  unfold DynamicArray.reserve at h ⊢
  by_cases hle : k ≤ a.capacity_
  · simp only [hle, if_true, Outcome.state?, Option.some.injEq] at h ⊢
    subst h
    exact ⟨ha, hw, fun _ => rfl, rfl, fun _ _ => hle⟩
  · simp only [hle, if_false] at h ⊢
    cases hal : allocator_allocate E sys w.mr k with
    | undefined => rw [hal] at h; cases h
    | throws mr1 e =>
      rw [hal] at h
      simp only [Outcome.state?, Option.some.injEq] at h
      subst h
      have := allocator_allocate_throws_state E sys w.mr mr1 k e hal
      subst this
      exact ⟨ha, hw, fun h0 => False.elim h0, rfl, fun v h' => by cases h'⟩
    | ok mr1 p =>
      rw [hal] at h
      simp only at h ⊢
      obtain ⟨_, hdo⟩ := (allocator_allocate_ok_iff E sys w.mr mr1 k p).mp hal
      obtain ⟨hw1, hp1, _⟩ := wellFormed_do_allocate _ _ _ _ _ _ hw (hfresh _ _ _) hdo
      have hp0 : p ≠ 0 := fun h0 => hw1.2 (h0 ▸ hp1)
      cases hm : DynamicArray.move_elements E a.data_ p k a.size_ 0 w.objects with
      | undefined => rw [hm] at h; cases h
      | throws objs e =>
        rw [hm] at h
        simp only [Outcome.state?, Option.some.injEq] at h
        subst h
        exact ⟨ha, hw1, fun h0 => False.elim h0, rfl, fun v h' => by cases h'⟩
      | ok objs u =>
        rw [hm] at h
        simp only [Outcome.state?, Option.some.injEq] at h
        subst h
        refine ⟨⟨?_, ?_⟩, ?_, fun h0 => False.elim h0, rfl, fun _ _ => le_refl _⟩
        · show a.size_ ≤ k
          have := ha.1
          omega
        · show p = 0 ↔ k = 0
          constructor
          · intro h0; exact absurd h0 hp0
          · intro h0; omega
        · show CustomMemoryResource.WellFormed
            (if a.data_ ≠ 0 then allocator_deallocate E mr1 a.data_ a.capacity_ else mr1)
          split
          · exact wellFormed_do_deallocate _ _ _ _ hw1
          · exact hw1

theorem grow_if_full_leaves {T : Type} (E : Element T) (sys : SystemHeap) (hfresh : sys.Fresh)
    (a : DynamicArray) (w : World T) (ha : a.StateInvariant) (hw : w.mr.WellFormed)
    (s : World T × DynamicArray) (h : (a.grow_if_full E sys w).state? = some s) :
    s.2.StateInvariant ∧ s.1.mr.WellFormed := by
  unfold DynamicArray.grow_if_full at h
  by_cases hfull : a.size_ = a.capacity_
  · simp only [hfull, if_true] at h
    obtain ⟨h1, h2, _⟩ := reserve_leaves E sys hfresh a w ha hw _ s h
    exact ⟨h1, h2⟩
  · simp only [hfull, if_false, Outcome.state?, Option.some.injEq] at h
    subst h
    exact ⟨ha, hw⟩

theorem construct_at_end_leaves {T : Type} (a : DynamicArray) (w : World T)
    (ha : a.StateInvariant) (hw : w.mr.WellFormed) (built : Option T)
    (s : World T × DynamicArray) (h : (a.construct_at_end w built).state? = some s) :
    s.2.StateInvariant ∧ s.1.mr.WellFormed := by
  unfold DynamicArray.construct_at_end at h
  by_cases hlt : a.size_ < a.capacity_
  · simp only [hlt, if_true] at h
    cases built with
    | none =>
      simp only [Outcome.state?, Option.some.injEq] at h
      subst h
      exact ⟨ha, hw⟩
    | some x =>
      simp only [Outcome.state?, Option.some.injEq] at h
      subst h
      refine ⟨⟨?_, ha.2⟩, hw⟩
      show (a.size_ + 1) % SIZE_MOD ≤ a.capacity_
      exact le_trans (Nat.mod_le _ _) hlt
  · simp only [hlt, if_false, Outcome.state?] at h
    cases h

theorem append_leaves {T : Type} (E : Element T) (sys : SystemHeap) (hfresh : sys.Fresh)
    (a : DynamicArray) (w : World T) (ha : a.StateInvariant) (hw : w.mr.WellFormed)
    (built : Option T) (s : World T × DynamicArray)
    (h : (match a.grow_if_full E sys w with
          | .undefined => (.undefined : Outcome (World T × DynamicArray) Unit)
          | .throws s e => .throws s e
          | .ok (w1, a1) _ => a1.construct_at_end w1 built).state? = some s) :
    s.2.StateInvariant ∧ s.1.mr.WellFormed := by
  cases hg : a.grow_if_full E sys w with
  | undefined => rw [hg] at h; cases h
  | throws s1 e =>
    rw [hg] at h
    simp only [Outcome.state?, Option.some.injEq] at h
    subst h
    exact grow_if_full_leaves E sys hfresh a w ha hw s1 (by rw [hg]; rfl)
  | ok s1 u =>
    obtain ⟨w1, a1⟩ := s1
    rw [hg] at h
    obtain ⟨h1, h2⟩ := grow_if_full_leaves E sys hfresh a w ha hw (w1, a1) (by rw [hg]; rfl)
    exact construct_at_end_leaves a1 w1 h1 h2 built s h

theorem push_back_leaves {T : Type} (E : Element T) (sys : SystemHeap) (hfresh : sys.Fresh)
    (a : DynamicArray) (w : World T) (ha : a.StateInvariant) (hw : w.mr.WellFormed)
    (v : T) (s : World T × DynamicArray) (h : (a.push_back E sys w v).state? = some s) :
    s.2.StateInvariant ∧ s.1.mr.WellFormed :=
  append_leaves E sys hfresh a w ha hw (E.copy_ctor v) s h

theorem emplace_back_leaves {T : Type} (E : Element T) (sys : SystemHeap) (hfresh : sys.Fresh)
    (a : DynamicArray) (w : World T) (ha : a.StateInvariant) (hw : w.mr.WellFormed)
    (built : Option T) (s : World T × DynamicArray)
    (h : (a.emplace_back E sys w built).state? = some s) :
    s.2.StateInvariant ∧ s.1.mr.WellFormed := by
  apply append_leaves E sys hfresh a w ha hw built s
  unfold DynamicArray.emplace_back at h
  cases hg : a.grow_if_full E sys w with
  | undefined => rw [hg] at h; cases h
  | throws s1 e => rw [hg] at h; exact h
  | ok s1 u =>
    obtain ⟨w1, a1⟩ := s1
    rw [hg] at h
    simp only at h ⊢
    cases hc : a1.construct_at_end w1 built with
    | undefined => rw [hc] at h; cases h
    | throws s2 e => rw [hc] at h; exact h
    | ok s2 u2 =>
      obtain ⟨w2, a2⟩ := s2
      rw [hc] at h
      exact h

theorem resize_with_leaves {T : Type} (E : Element T) (sys : SystemHeap) (hfresh : sys.Fresh)
    (a : DynamicArray) (w : World T) (ha : a.StateInvariant) (hw : w.mr.WellFormed)
    (m : Nat) (built : Option T) (s : World T × DynamicArray)
    (h : (a.resize_with E sys w m built).state? = some s) :
    s.2.StateInvariant ∧ s.1.mr.WellFormed := by
  unfold DynamicArray.resize_with at h
  have stage : ∀ (w1 : World T) (a1 : DynamicArray), a1.StateInvariant → w1.mr.WellFormed →
      m ≤ a1.capacity_ →
      (if m > a1.size_ then
        match DynamicArray.construct_elements built a1.data_ a1.capacity_ (m - a1.size_)
            a1.size_ w1.objects with
        | .undefined => (.undefined : Outcome (World T × DynamicArray) Unit)
        | .throws objs e => .throws ({ w1 with objects := objs }, a1) e
        | .ok objs _ => .ok ({ w1 with objects := objs }, { a1 with size_ := m }) ()
      else if m < a1.size_ then
        .ok ({ w1 with
               objects := DynamicArray.destroy_elements a1.data_ (a1.size_ - m) m w1.objects },
             { a1 with size_ := m }) ()
      else .ok (w1, { a1 with size_ := m }) ()).state? = some s →
      s.2.StateInvariant ∧ s.1.mr.WellFormed := by
    intro w1 a1 h1 h2 hm hs
    by_cases hgt : m > a1.size_
    · simp only [hgt, if_true] at hs
      cases hc : DynamicArray.construct_elements built a1.data_ a1.capacity_ (m - a1.size_)
          a1.size_ w1.objects with
      | undefined => rw [hc] at hs; cases hs
      | throws objs e =>
        rw [hc] at hs
        simp only [Outcome.state?, Option.some.injEq] at hs
        subst hs
        exact ⟨h1, h2⟩
      | ok objs u =>
        rw [hc] at hs
        simp only [Outcome.state?, Option.some.injEq] at hs
        subst hs
        exact ⟨⟨hm, h1.2⟩, h2⟩
    · simp only [hgt, if_false] at hs
      by_cases hlt : m < a1.size_
      · simp only [hlt, if_true, Outcome.state?, Option.some.injEq] at hs
        subst hs
        exact ⟨⟨hm, h1.2⟩, h2⟩
      · simp only [hlt, if_false, Outcome.state?, Option.some.injEq] at hs
        subst hs
        exact ⟨⟨hm, h1.2⟩, h2⟩
  by_cases hcap : m > a.capacity_
  · simp only [hcap, if_true] at h
    cases hr : a.reserve E sys w m with
    | undefined => rw [hr] at h; cases h
    | throws s1 e =>
      rw [hr] at h
      simp only [Outcome.state?, Option.some.injEq] at h
      subst h
      obtain ⟨h1, h2, _⟩ := reserve_leaves E sys hfresh a w ha hw m s1 (by rw [hr]; rfl)
      exact ⟨h1, h2⟩
    | ok s1 u =>
      obtain ⟨w1, a1⟩ := s1
      rw [hr] at h
      obtain ⟨h1, h2, _, _, h5⟩ :=
        reserve_leaves E sys hfresh a w ha hw m (w1, a1) (by rw [hr]; rfl)
      exact stage w1 a1 h1 h2 (h5 u hr) h
  · simp only [hcap, if_false] at h
    exact stage w a ha hw (by omega) h

theorem copy_elements_leaves {T : Type} (E : Element T) (sys : SystemHeap) (hfresh : sys.Fresh)
    (other : DynamicArray) (remaining : Nat) :
    ∀ (i : Nat) (a : DynamicArray) (w : World T), a.StateInvariant → w.mr.WellFormed →
      ∀ s, (DynamicArray.copy_elements E sys other remaining i a w).state? = some s →
        s.2.StateInvariant ∧ s.1.mr.WellFormed := by
  induction remaining with
  | zero =>
    intro i a w ha hw s h
    simp only [DynamicArray.copy_elements, Outcome.state?, Option.some.injEq] at h
    subst h
    exact ⟨ha, hw⟩
  | succ r ih =>
    intro i a w ha hw s h
    unfold DynamicArray.copy_elements at h
    cases hx : w.objects other.data_ i with
    | none => rw [hx] at h; cases h
    | some x =>
      rw [hx] at h
      simp only at h
      cases hp : a.push_back E sys w x with
      | undefined => rw [hp] at h; cases h
      | throws s1 e =>
        rw [hp] at h
        simp only [Outcome.state?, Option.some.injEq] at h
        subst h
        exact push_back_leaves E sys hfresh a w ha hw x s1 (by rw [hp]; rfl)
      | ok s1 u =>
        obtain ⟨w1, a1⟩ := s1
        rw [hp] at h
        obtain ⟨h1, h2⟩ := push_back_leaves E sys hfresh a w ha hw x (w1, a1) (by rw [hp]; rfl)
        exact ih (i + 1) a1 w1 h1 h2 s h

theorem copy_from_leaves {T : Type} (E : Element T) (sys : SystemHeap) (hfresh : sys.Fresh)
    (other a : DynamicArray) (w : World T) (ha : a.StateInvariant) (hw : w.mr.WellFormed)
    (s : World T × DynamicArray)
    (h : (match a.reserve E sys w other.size_ with
          | .undefined => (.undefined : Outcome (World T × DynamicArray) Unit)
          | .throws s e => .throws s e
          | .ok (w1, a1) _ =>
            DynamicArray.copy_elements E sys other other.size_ 0 a1 w1).state? = some s) :
    s.2.StateInvariant ∧ s.1.mr.WellFormed := by
  cases hr : a.reserve E sys w other.size_ with
  | undefined => rw [hr] at h; cases h
  | throws s1 e =>
    rw [hr] at h
    simp only [Outcome.state?, Option.some.injEq] at h
    subst h
    obtain ⟨h1, h2, _⟩ := reserve_leaves E sys hfresh a w ha hw _ s1 (by rw [hr]; rfl)
    exact ⟨h1, h2⟩
  | ok s1 u =>
    obtain ⟨w1, a1⟩ := s1
    rw [hr] at h
    obtain ⟨h1, h2, _⟩ := reserve_leaves E sys hfresh a w ha hw _ (w1, a1) (by rw [hr]; rfl)
    exact copy_elements_leaves E sys hfresh other other.size_ 0 a1 w1 h1 h2 s h

theorem stateInvariant_new : DynamicArray.new.StateInvariant :=
  ⟨Nat.le_refl _, Iff.intro (fun _ => rfl) (fun _ => rfl)⟩

theorem copy_assign_leaves {T : Type} (E : Element T) (sys : SystemHeap) (hfresh : sys.Fresh)
    (self other : DynamicArray) (same : Bool) (w : World T) (ha : self.StateInvariant)
    (hw : w.mr.WellFormed) (s : World T × DynamicArray)
    (h : (self.copy_assign E sys other same w).state? = some s) :
    s.2.StateInvariant ∧ s.1.mr.WellFormed := by
  unfold DynamicArray.copy_assign at h
  cases same with
  | true =>
    simp only [if_true, Outcome.state?, Option.some.injEq] at h
    subst h
    exact ⟨ha, hw⟩
  | false =>
    simp only [Bool.false_eq_true, if_false] at h
    exact copy_from_leaves E sys hfresh other (self.clear w).2 (self.clear w).1
      ⟨Nat.zero_le _, ha.2⟩ hw s h

/-- C21. Array state invariant. The predicate "size_ <= capacity_, and data_ is
null if and only if capacity_ == 0" holds for the array each of the three
constructors builds, and every public operation called on an array that
satisfies it leaves an array that satisfies it, whether the call returns or
throws: push_back (both overloads), emplace_back, pop_back, clear, reserve, both
resize overloads, copy construction, copy assignment, and move construction for
the destination and for the source. The registry is well formed and the heap
never hands out null or a tracked address. -/
theorem state_invariant_preserved {T : Type} (E : Element T) (sys : SystemHeap)
    (hfresh : sys.Fresh) (w : World T) (hw : w.mr.WellFormed) (a : DynamicArray)
    (ha : a.StateInvariant) (other : DynamicArray) :
    DynamicArray.new.StateInvariant ∧
    (∀ count s, (DynamicArray.construct_count E sys count w).state? = some s →
      s.2.StateInvariant) ∧
    (∀ count value s, (DynamicArray.construct_count_value E sys count value w).state? = some s →
      s.2.StateInvariant) ∧
    (∀ v s, (a.push_back E sys w v).state? = some s → s.2.StateInvariant) ∧
    (∀ v s, (a.push_back_rvalue E sys w v).state? = some s → s.2.StateInvariant) ∧
    (∀ built s, (a.emplace_back E sys w built).state? = some s → s.2.StateInvariant) ∧
    (a.pop_back w).2.StateInvariant ∧
    (a.clear w).2.StateInvariant ∧
    (∀ k s, (a.reserve E sys w k).state? = some s → s.2.StateInvariant) ∧
    (∀ m s, (a.resize E sys w m).state? = some s → s.2.StateInvariant) ∧
    (∀ m value s, (a.resize_value E sys w m value).state? = some s → s.2.StateInvariant) ∧
    (∀ s, (other.copy_construct E sys w).state? = some s → s.2.StateInvariant) ∧
    (∀ same s, (a.copy_assign E sys other same w).state? = some s → s.2.StateInvariant) ∧
    (a.move_construct w).2.1.StateInvariant ∧ (a.move_construct w).2.2.StateInvariant := by
  refine ⟨stateInvariant_new, ?_, ?_, ?_, ?_, ?_, ?_, ?_, ?_, ?_, ?_, ?_, ?_, ?_, ?_⟩
  · intro count s h
    exact (resize_with_leaves E sys hfresh _ w stateInvariant_new hw count _ s h).1
  · intro count value s h
    exact (resize_with_leaves E sys hfresh _ w stateInvariant_new hw count _ s h).1
  · intro v s h
    exact (push_back_leaves E sys hfresh a w ha hw v s h).1
  · intro v s h
    exact (append_leaves E sys hfresh a w ha hw (E.move_ctor v) s h).1
  · intro built s h
    exact (emplace_back_leaves E sys hfresh a w ha hw built s h).1
  · unfold DynamicArray.pop_back
    split
    · exact ⟨le_trans (Nat.sub_le _ _) ha.1, ha.2⟩
    · exact ha
  · exact ⟨Nat.zero_le _, ha.2⟩
  · intro k s h
    exact (reserve_leaves E sys hfresh a w ha hw k s h).1
  · intro m s h
    exact (resize_with_leaves E sys hfresh a w ha hw m _ s h).1
  · intro m value s h
    exact (resize_with_leaves E sys hfresh a w ha hw m _ s h).1
  · intro s h
    exact (copy_from_leaves E sys hfresh other _ w stateInvariant_new hw s h).1
  · intro same s h
    exact (copy_assign_leaves E sys hfresh a other same w ha hw s h).1
  · exact ha
  · exact ⟨Nat.le_refl _, Iff.intro (fun _ => rfl) (fun _ => rfl)⟩

/-- Witness for C21: the full array `[7]` of `one_int_world`; `push_back(8)` grows it
to capacity 2 in a new region and `pop_back()` empties it. -/
theorem state_invariant_preserved_witness :
    bump_heap.Fresh ∧ one_int_world.mr.WellFormed ∧ one_int_array.StateInvariant ∧
    (∃ s, (one_int_array.push_back int_element bump_heap one_int_world 8).state? = some s ∧
      s.2 = { data_ := 80, size_ := 2, capacity_ := 2 } ∧ s.2.StateInvariant) ∧
    (one_int_array.pop_back one_int_world).2.StateInvariant :=
  have hinv : one_int_array.StateInvariant := ⟨by decide, by decide⟩
  have h := state_invariant_preserved int_element bump_heap bump_heap_fresh one_int_world
    one_int_array_valid.1 one_int_array hinv one_int_array
  ⟨bump_heap_fresh, one_int_array_valid.1, hinv,
    ⟨_, rfl, rfl, h.2.2.2.1 8 _ rfl⟩, h.2.2.2.2.2.2.1⟩

/-! ## DynamicArray: the shape of one append, for any element type -/

theorem construct_at_end_ok_shape {T : Type} (a : DynamicArray) (w : World T)
    (built : Option T) (w' : World T) (a' : DynamicArray)
    (h : a.construct_at_end w built = .ok (w', a') ()) :
    a.size_ < a.capacity_ ∧ a'.data_ = a.data_ ∧ a'.capacity_ = a.capacity_ ∧
    a'.size_ = (a.size_ + 1) % SIZE_MOD ∧ w'.mr = w.mr := by
  unfold DynamicArray.construct_at_end at h
  by_cases hlt : a.size_ < a.capacity_
  · simp only [hlt, if_true] at h
    cases built with
    | none => cases h
    | some x =>
      simp only [Outcome.ok.injEq, Prod.mk.injEq, and_true] at h
      obtain ⟨rfl, rfl⟩ := h
      exact ⟨hlt, rfl, rfl, rfl, rfl⟩
  · simp only [hlt, if_false] at h
    cases h

theorem grown_request_eq (a : DynamicArray) (hcap : a.capacity_ < SIZE_MOD)
    (hgt : a.capacity_ < (if a.capacity_ = 0 then 1 else (a.capacity_ * 2) % SIZE_MOD)) :
    (if a.capacity_ = 0 then 1 else (a.capacity_ * 2) % SIZE_MOD) = a.grown_capacity := by
  unfold DynamicArray.grown_capacity
  by_cases hc : a.capacity_ = 0
  · simp [hc]
  · simp only [hc, if_false] at hgt ⊢
    by_cases hwrap : a.capacity_ * 2 < SIZE_MOD
    · rw [Nat.mod_eq_of_lt hwrap]; omega
    · exfalso
      have h1 : a.capacity_ * 2 % SIZE_MOD = a.capacity_ * 2 - SIZE_MOD := by
        rw [Nat.mod_eq_sub_mod (by omega)]
        exact Nat.mod_eq_of_lt (by omega)
      omega

theorem push_back_step {T : Type} (E : Element T) (sys : SystemHeap) (a : DynamicArray)
    (w : World T) (v : T) (w' : World T) (a' : DynamicArray)
    (hcap : a.capacity_ < SIZE_MOD)
    (h : a.push_back E sys w v = .ok (w', a') ()) :
    a'.size_ = a.size_ + 1 ∧ a'.size_ ≤ a'.capacity_ ∧ a'.capacity_ < SIZE_MOD ∧
    ((a.size_ < a.capacity_ ∧ a'.capacity_ = a.capacity_ ∧ a'.data_ = a.data_ ∧
        w'.mr = w.mr) ∨
     (a.size_ = a.capacity_ ∧ a'.capacity_ = a.grown_capacity ∧
        a.grown_capacity ≤ SIZE_MAX / E.sizeof ∧
        ∃ mr1, allocator_allocate E sys w.mr a.grown_capacity = .ok mr1 a'.data_ ∧
          w'.mr =
            if a.data_ ≠ 0 then allocator_deallocate E mr1 a.data_ a.capacity_ else mr1)) := by
  obtain ⟨w1, a1, hg, hc⟩ := push_back_ok_inv E sys a w v w' a' h
  obtain ⟨hlt1, hd, hc1, hs1, hm1⟩ := construct_at_end_ok_shape a1 w1 _ w' a' hc
  unfold DynamicArray.grow_if_full at hg
  by_cases hfull : a.size_ = a.capacity_
  · rw [if_pos hfull] at hg
    by_cases hle : (if a.capacity_ = 0 then 1 else (a.capacity_ * 2) % SIZE_MOD) ≤ a.capacity_
    · simp only [DynamicArray.reserve, hle, if_true, Outcome.ok.injEq, Prod.mk.injEq,
        and_true] at hg
      obtain ⟨rfl, rfl⟩ := hg
      omega
    · have hgt : a.capacity_ < (if a.capacity_ = 0 then 1 else (a.capacity_ * 2) % SIZE_MOD) := by
        omega
      have hk := grown_request_eq a hcap hgt
      rw [hk] at hg hgt
      obtain ⟨mr1, hal, hsa, hca, hmr⟩ := reserve_ok_data E sys a a1 w w1 _ hgt hg
      have hfit := ((allocator_allocate_ok_iff E sys w.mr mr1 _ _).mp hal).1
      have hlt := size_max_div_lt E.sizeof
      have hmod : (a1.size_ + 1) % SIZE_MOD = a1.size_ + 1 := Nat.mod_eq_of_lt (by omega)
      refine ⟨by omega, by omega, by omega, Or.inr ⟨hfull, by omega, hfit, mr1, ?_, ?_⟩⟩
      · rw [hd]; exact hal
      · rw [hm1]; exact hmr
  · rw [if_neg hfull] at hg
    simp only [Outcome.ok.injEq, Prod.mk.injEq, and_true] at hg
    obtain ⟨rfl, rfl⟩ := hg
    have hmod : (a.size_ + 1) % SIZE_MOD = a.size_ + 1 := Nat.mod_eq_of_lt (by omega)
    exact ⟨by omega, by omega, by omega, Or.inl ⟨by omega, hc1, hd, hm1⟩⟩

theorem push_back_all_induction {T : Type} (E : Element T) (sys : SystemHeap)
    (P : Nat → World T → DynamicArray → Prop)
    (hstep : ∀ n a w v w' a', P n w a → a.push_back E sys w v = .ok (w', a') () →
      P (n + 1) w' a')
    (vs : List T) :
    ∀ (n : Nat) (a : DynamicArray) (w : World T), P n w a →
      ∀ w' a', a.push_back_all E sys w vs = .ok (w', a') () → P (n + vs.length) w' a' := by
  induction vs with
  | nil =>
    intro n a w hP w' a' h
    simp only [DynamicArray.push_back_all, Outcome.ok.injEq, Prod.mk.injEq, and_true] at h
    obtain ⟨rfl, rfl⟩ := h
    exact hP
  | cons v vs ih =>
    intro n a w hP w' a' h
    unfold DynamicArray.push_back_all at h
    cases hp : a.push_back E sys w v with
    | undefined => rw [hp] at h; cases h
    | throws s e => rw [hp] at h; cases h
    | ok s u =>
      obtain ⟨w1, a1⟩ := s
      rw [hp] at h
      have := ih (n + 1) a1 w1 (hstep n a w v w1 a1 hP hp) w' a' h
      rw [List.length_cons]
      rw [show n + (vs.length + 1) = n + 1 + vs.length by omega]
      exact this

/-! ## DynamicArray: capacity after appends -/

/-- The capacity `c` that `n` appends onto a new array lead to: none before the
first append, afterwards a power of two with `n <= c < 2 * n`. -/
theorem capacity_track {T : Type} (E : Element T) (sys : SystemHeap) (vs : List T)
    (w w' : World T) (a' : DynamicArray)
    (h : DynamicArray.new.push_back_all E sys w vs = .ok (w', a') ()) :
    a'.size_ = vs.length ∧ a'.size_ ≤ a'.capacity_ ∧ a'.capacity_ < SIZE_MOD ∧
    ((vs.length = 0 ∧ a'.capacity_ = 0) ∨
      ∃ k, a'.capacity_ = 2 ^ k ∧ vs.length ≤ 2 ^ k ∧ 2 ^ k < 2 * vs.length) := by
  have key := push_back_all_induction E sys
    (fun n _ a => a.size_ = n ∧ a.size_ ≤ a.capacity_ ∧ a.capacity_ < SIZE_MOD ∧
      ((n = 0 ∧ a.capacity_ = 0) ∨ ∃ k, a.capacity_ = 2 ^ k ∧ n ≤ 2 ^ k ∧ 2 ^ k < 2 * n))
    (by
      intro n a w v w1 a1 hP hp
      obtain ⟨hn, hsz, hcap, hshape⟩ := hP
      obtain ⟨h1, h2, h3, h4⟩ := push_back_step E sys a w v w1 a1 hcap hp
      refine ⟨by omega, h2, h3, Or.inr ?_⟩
      rcases h4 with ⟨hlt, hc, _, _⟩ | ⟨hfull, hc, _, _⟩
      · rcases hshape with ⟨h0, hc0⟩ | ⟨k, hk, hk1, hk2⟩
        · omega
        · exact ⟨k, by omega, by omega, by omega⟩
      · unfold DynamicArray.grown_capacity at hc
        rcases hshape with ⟨h0, hc0⟩ | ⟨k, hk, hk1, hk2⟩
        · rw [if_pos hc0] at hc
          exact ⟨0, by simpa using hc, by simp [h0], by simp [h0]⟩
        · have hpos : 0 < 2 ^ k := Nat.pos_pow_of_pos k (by decide)
          rw [if_neg (by omega)] at hc
          refine ⟨k + 1, ?_, ?_, ?_⟩
          · rw [hc, hk, pow_succ]; omega
          · rw [pow_succ]; omega
          · rw [pow_succ]; omega)
    vs 0 DynamicArray.new w
    ⟨rfl, Nat.le_refl _, by decide, Or.inl ⟨rfl, rfl⟩⟩ w' a' h
  simpa using key

/-- C25. Capacity after appends: whenever the `n >= 1` calls of `push_back` on
a newly constructed empty array all return, `capacity()` is the smallest power
of two that is at least `n`: it is `2 ^ k` for some `k`, it is at least `n`, it
is at most every power of two that is at least `n`, and so it is
`2 ^ ⌈log2 n⌉`. There is no `size_t` overflow in such a run (a doubling that
wraps leaves no state), and the calls do return for an element type with value
semantics when the heap supplies memory and `2 * n * sizeof(T)` fits
`size_t`. -/
theorem capacity_after_appends {T : Type} (E : Element T) (sys : SystemHeap) (w : World T)
    (vs : List T) (hn : 1 ≤ vs.length) :
    (∀ w' a', DynamicArray.new.push_back_all E sys w vs = .ok (w', a') () →
      (∃ k, a'.capacity = 2 ^ k) ∧ vs.length ≤ a'.capacity ∧
      (∀ j, vs.length ≤ 2 ^ j → a'.capacity ≤ 2 ^ j) ∧
      a'.capacity = 2 ^ Nat.clog 2 vs.length) ∧
    (E.ValueType → sys.Fresh → sys.Unlimited → w.mr.WellFormed →
      2 * vs.length * E.sizeof ≤ SIZE_MAX →
      ∃ w' a', DynamicArray.new.push_back_all E sys w vs = .ok (w', a') ()) := by
  constructor
  · intro w' a' h
    obtain ⟨_, _, _, hshape⟩ := capacity_track E sys vs w w' a' h
    rcases hshape with ⟨h0, _⟩ | ⟨k, hk, hk1, hk2⟩
    · omega
    · have hmin : ∀ j, vs.length ≤ 2 ^ j → 2 ^ k ≤ 2 ^ j := by
        intro j hj
        by_contra hlt
        have hjk : j < k := by
          by_contra hge
          exact hlt (Nat.pow_le_pow_right (by decide) (by omega))
        have : 2 ^ (j + 1) ≤ 2 ^ k := Nat.pow_le_pow_right (by decide) hjk
        rw [pow_succ] at this
        omega
      show (∃ k, a'.capacity_ = 2 ^ k) ∧ vs.length ≤ a'.capacity_ ∧
        (∀ j, vs.length ≤ 2 ^ j → a'.capacity_ ≤ 2 ^ j) ∧
        a'.capacity_ = 2 ^ Nat.clog 2 vs.length
      rw [hk]
      refine ⟨⟨k, rfl⟩, hk1, hmin, ?_⟩
      have h1 : Nat.clog 2 vs.length ≤ k := (Nat.le_pow_iff_clog_le (by decide)).mp hk1
      have h2 : k ≤ Nat.clog 2 vs.length := by
        have := hmin (Nat.clog 2 vs.length) (Nat.le_pow_clog (by decide) _)
        exact (Nat.pow_le_pow_iff_right (by decide)).mp this
      rw [Nat.le_antisymm h1 h2]
  · intro hE hfresh hun hw hfit
    refine push_back_all_returns E hE sys hfresh hun vs DynamicArray.new w []
      (valid_new w hw) rfl ?_
    simpa [DynamicArray.new] using hfit

/-- Witness for C25: 100 appends onto a new `int` array give capacity 128. -/
theorem capacity_after_appends_witness :
    1 ≤ (List.replicate 100 (0 : Int)).length ∧
    ∃ w' a', DynamicArray.new.push_back_all int_element bump_heap (World.initial Int)
        (List.replicate 100 0) = .ok (w', a') () ∧ a'.capacity = 128 :=
  have hn : 1 ≤ (List.replicate 100 (0 : Int)).length := by decide
  have h := capacity_after_appends int_element bump_heap (World.initial Int)
    (List.replicate 100 0) hn
  ⟨hn, (h.2 int_element_valueType bump_heap_fresh bump_heap_unlimited inv_init.1
      (by decide)).elim fun w' hw' => hw'.elim fun a' ha' =>
    ⟨w', a', ha', by
      have h4 := (h.1 w' a' ha').2.2.2
      rw [h4]
      simp [Nat.clog]⟩⟩

/-! ## Counting the blocks in use -/

theorem countP_assign_free (v : Bool) (l : List MemoryBlock) :
    ∀ (i : Nat) (b : MemoryBlock), l[i]? = some b →
      (assign_free v l i).countP (fun block => !block.free) + (if b.free then 0 else 1) =
        l.countP (fun block => !block.free) + (if v then 0 else 1) := by
  induction l with
  | nil => intro i b h; simp at h
  | cons x xs ih =>
    intro i b h
    cases i with
    | zero =>
      simp only [List.getElem?_cons_zero, Option.some.injEq] at h
      subst h
      simp only [assign_free, List.countP_cons]
      cases v <;> cases hx : x.free <;> simp
    | succ i =>
      simp only [List.getElem?_cons_succ] at h
      have := ih i b h
      simp only [assign_free, List.countP_cons]
      omega

theorem count_do_allocate (mr mr1 : CustomMemoryResource) (bytes alignment p : Nat)
    (heap : Option Nat) (ha : mr.do_allocate bytes alignment heap = .ok mr1 p) :
    mr1.get_allocated_blocks_count = mr.get_allocated_blocks_count + 1 := by
  unfold CustomMemoryResource.get_allocated_blocks_count
  rcases do_allocate_cases mr bytes alignment heap with
    ⟨i, b, hf, hr⟩ | ⟨_, _, hr⟩ | ⟨q, _, _, hr⟩
  · rw [hr] at ha
    simp only [Outcome.ok.injEq] at ha
    obtain ⟨rfl, _⟩ := ha
    obtain ⟨hb, hre, _⟩ := find_if_some_spec _ _ _ _ hf
    have hfree := ((reusable_iff bytes alignment b).mp hre).1
    have := countP_assign_free false mr.allocated_blocks_ i b hb
    simp only [hfree, if_true] at this
    simpa using this
  · rw [hr] at ha; cases ha
  · rw [hr] at ha
    simp only [Outcome.ok.injEq] at ha
    obtain ⟨rfl, _⟩ := ha
    simp [List.countP_append]

theorem count_do_deallocate (mr : CustomMemoryResource) (p bytes alignment : Nat)
    (hw : mr.WellFormed) (hp : in_use_at mr p) :
    (mr.do_deallocate p bytes alignment).get_allocated_blocks_count + 1 =
      mr.get_allocated_blocks_count := by
  obtain ⟨b, hb, rfl, hbf⟩ := hp
  obtain ⟨i, hi⟩ := List.getElem?_of_mem hb
  rw [do_deallocate_at mr i b bytes alignment hw.1 hi]
  unfold CustomMemoryResource.get_allocated_blocks_count
  have := countP_assign_free true mr.allocated_blocks_ i b hi
  simp only [hbf] at this
  simpa using this

/-- What `n` appends onto a new array leave in a registry that had `k` blocks
in use: nothing before the first append, afterwards the array's storage is one
more block in use. -/
theorem one_block_track {T : Type} (E : Element T) (sys : SystemHeap) (hfresh : sys.Fresh)
    (w : World T) (hw : w.mr.WellFormed) (vs : List T) (w' : World T) (a' : DynamicArray)
    (h : DynamicArray.new.push_back_all E sys w vs = .ok (w', a') ()) :
    (vs.length = 0 ∧ w'.mr.get_allocated_blocks_count = w.mr.get_allocated_blocks_count) ∨
    (a'.data_ ≠ 0 ∧ in_use_at w'.mr a'.data_ ∧
      w'.mr.get_allocated_blocks_count = w.mr.get_allocated_blocks_count + 1) := by
  have key := push_back_all_induction E sys
    (fun n w1 a => a.capacity_ < SIZE_MOD ∧ w1.mr.WellFormed ∧
      ((n = 0 ∧ a.data_ = 0 ∧ a.capacity_ = 0 ∧
          w1.mr.get_allocated_blocks_count = w.mr.get_allocated_blocks_count) ∨
       (a.data_ ≠ 0 ∧ in_use_at w1.mr a.data_ ∧
          w1.mr.get_allocated_blocks_count = w.mr.get_allocated_blocks_count + 1)))
    (by
      intro n a w0 v w1 a1 hP hp
      obtain ⟨hcap, hw0, hshape⟩ := hP
      obtain ⟨_, _, h3, h4⟩ := push_back_step E sys a w0 v w1 a1 hcap hp
      refine ⟨h3, ?_⟩
      rcases h4 with ⟨hlt, hc, hd, hm⟩ | ⟨hfull, hc, _, mr1, hal, hm⟩
      · rw [hm, hd]
        refine ⟨hw0, Or.inr ?_⟩
        rcases hshape with ⟨_, _, hc0, _⟩ | hin
        · omega
        · exact hin
      · obtain ⟨_, hdo⟩ := (allocator_allocate_ok_iff E sys w0.mr mr1 _ _).mp hal
        obtain ⟨hw1, hp1, _⟩ := wellFormed_do_allocate _ _ _ _ _ _ hw0 (hfresh _ _ _) hdo
        have hp0 : a1.data_ ≠ 0 := fun h0 => hw1.2 (h0 ▸ hp1)
        have hin1 : in_use_at mr1 a1.data_ := do_allocate_in_use_after _ _ _ _ _ _ hdo
        have hcount := count_do_allocate _ _ _ _ _ _ hdo
        rcases hshape with ⟨_, hd0, _, hk⟩ | ⟨hd, hin, hk⟩
        · rw [if_neg (by simpa using hd0)] at hm
          rw [hm]
          exact ⟨hw1, Or.inr ⟨hp0, hin1, by omega⟩⟩
        · rw [if_pos hd] at hm
          rw [hm]
          have hne : a1.data_ ≠ a.data_ := by
            obtain ⟨b, hb, hbp, hbf⟩ := hin
            intro he
            exact do_allocate_ne_in_use _ _ _ _ _ _ hw0 (hfresh _ _ _) hdo b hb hbf
              (hbp.trans he.symm)
          have hin0 : in_use_at mr1 a.data_ := in_use_do_allocate _ _ _ _ _ _ _ hdo hin
          have hcd := count_do_deallocate mr1 a.data_
            ((a.capacity_ * E.sizeof) % SIZE_MOD) E.alignof hw1 hin0
          refine ⟨wellFormed_do_deallocate _ _ _ _ hw1, Or.inr ⟨hp0, ?_, ?_⟩⟩
          · exact in_use_do_deallocate _ _ _ _ _ hne hin1
          · unfold allocator_deallocate
            omega)
    vs 0 DynamicArray.new w
    ⟨by decide, hw, Or.inl ⟨rfl, rfl, rfl, rfl⟩⟩ w' a' h
  obtain ⟨_, _, hshape⟩ := key
  rcases hshape with ⟨h0, _, _, hk⟩ | hin
  · exact Or.inl ⟨by omega, hk⟩
  · exact Or.inr hin

/-! ## Doubling growth on a fresh allocator -/

theorem clog_of_bounds (n k : Nat) (h1 : n ≤ 2 ^ k) (h2 : 2 ^ k < 2 * n) :
    Nat.clog 2 n = k := by
  have hmin : ∀ j, n ≤ 2 ^ j → 2 ^ k ≤ 2 ^ j := by
    intro j hj
    by_contra hlt
    have hjk : j < k := by
      by_contra hge
      exact hlt (Nat.pow_le_pow_right (by decide) (by omega))
    have : 2 ^ (j + 1) ≤ 2 ^ k := Nat.pow_le_pow_right (by decide) hjk
    rw [pow_succ] at this
    omega
  have h3 : Nat.clog 2 n ≤ k := (Nat.le_pow_iff_clog_le (by decide)).mp h1
  have h4 : k ≤ Nat.clog 2 n :=
    (Nat.pow_le_pow_iff_right (by decide)).mp (hmin _ (Nat.le_pow_clog (by decide) _))
  exact Nat.le_antisymm h3 h4

theorem doubling_first {T : Type} (E : Element T) (sys : SystemHeap)
    (mr mr1 : CustomMemoryResource) (a1 : DynamicArray) (hb : mr.allocated_blocks_ = [])
    (ht : mr.total_allocated_bytes_ = 0) (hc : a1.capacity_ = 1)
    (hal : allocator_allocate E sys mr 1 = .ok mr1 a1.data_) :
    doubling_registry E mr1 a1 0 := by
  obtain ⟨_, hdo⟩ := (allocator_allocate_ok_iff E sys mr mr1 _ _).mp hal
  rcases do_allocate_cases mr (1 * E.sizeof) E.alignof (sys mr (1 * E.sizeof) E.alignof) with
    ⟨i, b, hf, _⟩ | ⟨_, _, hr⟩ | ⟨q, _, _, hr⟩
  · obtain ⟨hib, _⟩ := find_if_some_spec _ _ _ _ hf
    rw [hb] at hib
    simp at hib
  · rw [hr] at hdo; cases hdo
  · rw [hr] at hdo
    simp only [Outcome.ok.injEq] at hdo
    obtain ⟨rfl, hq⟩ := hdo
    refine ⟨by simpa using hc, by simp [hb], ?_, ?_, ?_⟩
    · intro j hj
      have hj0 : j = 0 := by omega
      subst hj0
      exact ⟨{ ptr := q, size := 1 * E.sizeof, alignment := E.alignof, free := false },
        by simp [hb], by simp, rfl, by simp⟩
    · exact ⟨{ ptr := q, size := 1 * E.sizeof, alignment := E.alignof, free := false },
        by simp [hb], hq⟩
    · simp [ht]

theorem doubling_next {T : Type} (E : Element T) (sys : SystemHeap) (hfresh : sys.Fresh)
    (mr mr1 : CustomMemoryResource) (a a1 : DynamicArray) (k : Nat) (hw : mr.WellFormed)
    (ht : doubling_registry E mr a k) (hc : a1.capacity_ = a.grown_capacity)
    (hal : allocator_allocate E sys mr a.grown_capacity = .ok mr1 a1.data_) :
    a.data_ ≠ 0 ∧
    doubling_registry E (allocator_deallocate E mr1 a.data_ a.capacity_) a1 (k + 1) := by
  obtain ⟨hcap, hlen, hblocks, ⟨bk, hbk, hbkp⟩, htot⟩ := ht
  have hpos : 0 < 2 ^ k := Nat.pos_pow_of_pos k (by decide)
  have hgrown : a.grown_capacity = 2 ^ (k + 1) := by
    unfold DynamicArray.grown_capacity
    rw [if_neg (by omega), hcap, pow_succ]
    omega
  rw [hgrown] at hc hal
  have hd0 : a.data_ ≠ 0 := by
    intro h0
    apply hw.2
    rw [← h0, ← hbkp]
    exact List.mem_map_of_mem _ (List.getElem?_mem hbk)
  refine ⟨hd0, ?_⟩
  obtain ⟨_, hdo⟩ := (allocator_allocate_ok_iff E sys mr mr1 _ _).mp hal
  obtain ⟨hw1, _, _⟩ := wellFormed_do_allocate _ _ _ _ _ _ hw (hfresh _ _ _) hdo
  rcases do_allocate_cases mr (2 ^ (k + 1) * E.sizeof) E.alignof
      (sys mr (2 ^ (k + 1) * E.sizeof) E.alignof) with
    ⟨i, b, hf, _⟩ | ⟨_, _, hr⟩ | ⟨q, _, _, hr⟩
  · exfalso
    obtain ⟨hib, hre, _⟩ := find_if_some_spec _ _ _ _ hf
    obtain ⟨hfree, hsize, _⟩ := (reusable_iff _ _ b).mp hre
    have hi : i < mr.allocated_blocks_.length := by
      by_contra hge
      rw [List.getElem?_eq_none (by omega)] at hib
      cases hib
    obtain ⟨b', hb', hs', _, hf'⟩ := hblocks i (by omega)
    rw [hib] at hb'
    simp only [Option.some.injEq] at hb'
    subst hb'
    rw [hfree] at hf'
    have hik : i < k := by simpa using hf'.symm
    rw [hs'] at hsize
    have h1 : 2 ^ (k + 1) ≤ 2 ^ i := Nat.le_of_mul_le_mul_right hsize E.sizeof_pos
    have h2 : 2 ^ i < 2 ^ (k + 1) := Nat.pow_lt_pow_right (by decide) (by omega)
    omega
  · rw [hr] at hdo; cases hdo
  · rw [hr] at hdo
    simp only [Outcome.ok.injEq] at hdo
    obtain ⟨rfl, hq⟩ := hdo
    have hbk1 : (mr.allocated_blocks_ ++
        [{ ptr := q, size := 2 ^ (k + 1) * E.sizeof, alignment := E.alignof,
           free := false }])[k]? = some bk := by
      rw [List.getElem?_append_left (by omega)]
      exact hbk
    have hnew : (mr.allocated_blocks_ ++
        [{ ptr := q, size := 2 ^ (k + 1) * E.sizeof, alignment := E.alignof,
           free := false }])[k + 1]? =
        some { ptr := q, size := 2 ^ (k + 1) * E.sizeof, alignment := E.alignof,
               free := false } := by
      rw [← hlen]
      simp
    unfold allocator_deallocate
    rw [← hbkp, do_deallocate_at _ k bk _ _ hw1.1 hbk1]
    refine ⟨hc, ?_, ?_, ?_, ?_⟩
    · simp [assign_free_length, hlen]
    · intro j hj
      show ∃ b : MemoryBlock, (assign_free true _ k)[j]? = some b ∧ _
      by_cases hjk : j = k
      · subst hjk
        rw [assign_free_getElem?_self true _ j bk hbk1]
        obtain ⟨b', hb', hs', ha', _⟩ := hblocks j (Nat.le_refl _)
        rw [hbk] at hb'
        simp only [Option.some.injEq] at hb'
        subst hb'
        exact ⟨_, rfl, hs', ha', by simp⟩
      · rw [assign_free_getElem?_ne true _ k j hjk]
        by_cases hlt : j < k
        · rw [List.getElem?_append_left (by omega)]
          obtain ⟨b', hb', hs', ha', hf'⟩ := hblocks j (by omega)
          refine ⟨b', hb', hs', ha', ?_⟩
          rw [hf']
          simp only [decide_eq_decide]
          omega
        · have hj1 : j = k + 1 := by omega
          subst hj1
          exact ⟨_, hnew, rfl, rfl, by simp⟩
    · show ∃ b : MemoryBlock, (assign_free true _ k)[k + 1]? = some b ∧ _
      rw [assign_free_getElem?_ne true _ k (k + 1) (by omega)]
      exact ⟨_, hnew, hq⟩
    · show (mr.total_allocated_bytes_ + 2 ^ (k + 1) * E.sizeof) % SIZE_MOD = _
      rw [htot, Nat.mod_add_mod]
      congr 1
      have h2 : 2 ^ (k + 1 + 1) = 2 * 2 ^ (k + 1) := by rw [pow_succ]; omega
      have h3 : 0 < 2 ^ (k + 1) := Nat.pos_pow_of_pos _ (by decide)
      obtain ⟨m, hm⟩ : ∃ m, 2 ^ (k + 1) = m + 1 := ⟨2 ^ (k + 1) - 1, by omega⟩
      rw [h2, hm]
      have h4 : 2 * (m + 1) - 1 = m + (m + 1) := by omega
      rw [h4, Nat.add_sub_cancel]
      ring

/-- What `n` appends onto a new array leave in the registry of a fresh
allocator. -/
theorem doubling_track {T : Type} (E : Element T) (sys : SystemHeap) (hfresh : sys.Fresh)
    (w : World T) (hmr : w.mr = {}) (vs : List T) (w' : World T) (a' : DynamicArray)
    (h : DynamicArray.new.push_back_all E sys w vs = .ok (w', a') ()) :
    vs.length = 0 ∨ ∃ k, doubling_registry E w'.mr a' k := by
  have key := push_back_all_induction E sys
    (fun n w1 a => a.capacity_ < SIZE_MOD ∧ w1.mr.WellFormed ∧
      ((n = 0 ∧ a.data_ = 0 ∧ a.capacity_ = 0 ∧ w1.mr.allocated_blocks_ = [] ∧
          w1.mr.total_allocated_bytes_ = 0) ∨
       ∃ k, doubling_registry E w1.mr a k))
    (by
      intro n a w0 v w1 a1 hP hp
      obtain ⟨hcap, hw0, hshape⟩ := hP
      obtain ⟨_, _, h3, h4⟩ := push_back_step E sys a w0 v w1 a1 hcap hp
      refine ⟨h3, ?_⟩
      rcases h4 with ⟨hlt, hc, hd, hm⟩ | ⟨hfull, hc, _, mr1, hal, hm⟩
      · rw [hm]
        refine ⟨hw0, Or.inr ?_⟩
        rcases hshape with ⟨_, _, hc0, _⟩ | ⟨k, hk⟩
        · omega
        · refine ⟨k, ?_⟩
          unfold doubling_registry at hk ⊢
          rw [hc, hd]
          exact hk
      · obtain ⟨_, hdo⟩ := (allocator_allocate_ok_iff E sys w0.mr mr1 _ _).mp hal
        obtain ⟨hw1, _, _⟩ := wellFormed_do_allocate _ _ _ _ _ _ hw0 (hfresh _ _ _) hdo
        rcases hshape with ⟨_, hd0, hc0, hb0, ht0⟩ | ⟨k, hk⟩
        · rw [if_neg (by simpa using hd0)] at hm
          rw [hm]
          have hg : a.grown_capacity = 1 := by
            unfold DynamicArray.grown_capacity
            rw [if_pos hc0]
          rw [hg] at hc hal
          exact ⟨hw1, Or.inr ⟨0, doubling_first E sys w0.mr mr1 a1 hb0 ht0 hc hal⟩⟩
        · obtain ⟨hd, hnext⟩ := doubling_next E sys hfresh w0.mr mr1 a a1 k hw0 hk hc hal
          rw [if_pos hd] at hm
          rw [hm]
          exact ⟨wellFormed_do_deallocate _ _ _ _ hw1, Or.inr ⟨k + 1, hnext⟩⟩)
    vs 0 DynamicArray.new w
    ⟨by decide, by rw [hmr]; exact inv_init.1,
      Or.inl ⟨rfl, rfl, rfl, by rw [hmr], by rw [hmr]⟩⟩ w' a' h
  obtain ⟨_, _, hshape⟩ := key
  rcases hshape with ⟨h0, _⟩ | hk
  · exact Or.inl (by omega)
  · exact Or.inr hk

theorem map_eq_range_of_pointwise {α : Type} (l : List MemoryBlock) (f : MemoryBlock → α)
    (g : Nat → α) (n : Nat) (hlen : l.length = n)
    (h : ∀ j, j < n → ∃ b : MemoryBlock, l[j]? = some b ∧ f b = g j) :
    l.map f = (List.range n).map g := by
  apply List.ext_getElem?
  intro i
  by_cases hi : i < n
  · obtain ⟨b, hb, hfb⟩ := h i hi
    simp [hb, hfb, List.getElem?_range hi]
  · rw [List.getElem?_eq_none (by simp; omega), List.getElem?_eq_none (by simp; omega)]

/-! ## Element types that leave the allocator alone, among those that may use it -/

theorem aware_move_elements_plain {T : Type} (E : Element T) (sys : SystemHeap)
    (data_ new_data new_capacity remaining : Nat) :
    ∀ (i : Nat) (mr : CustomMemoryResource) (objs : Objects T),
      Aware.move_elements E.to_aware sys data_ new_data new_capacity remaining i mr objs =
        match DynamicArray.move_elements E data_ new_data new_capacity remaining i objs with
        | .undefined => .undefined
        | .throws o e => .throws (mr, o) e
        | .ok o u => .ok (mr, o) u := by
  induction remaining with
  | zero => intro i mr objs; rfl
  | succ n ih =>
    intro i mr objs
    unfold Aware.move_elements DynamicArray.move_elements
    cases hx : objs data_ i with
    | none => rfl
    | some x =>
      simp only
      by_cases hi : i < new_capacity
      · simp only [hi, if_true]
        cases hm : E.move_ctor x with
        | none => simp only [Element.to_aware, hm]
        | some y =>
          simp only [Element.to_aware, hm]
          exact ih (i + 1) mr _
      · simp only [hi, if_false]

theorem aware_reserve_plain {T : Type} (E : Element T) (sys : SystemHeap) (a : DynamicArray)
    (w : World T) (k : Nat) :
    Aware.reserve E.to_aware sys a w k = a.reserve E sys w k := by
  unfold Aware.reserve DynamicArray.reserve
  by_cases hle : k ≤ a.capacity_
  · simp only [hle, if_true]
  · simp only [hle, if_false]
    have hal : Aware.allocator_allocate E.to_aware sys w.mr k = allocator_allocate E sys w.mr k :=
      rfl
    rw [hal]
    cases allocator_allocate E sys w.mr k with
    | undefined => rfl
    | throws mr e => rfl
    | ok mr p =>
      simp only
      rw [aware_move_elements_plain]
      cases DynamicArray.move_elements E a.data_ p k a.size_ 0 w.objects with
      | undefined => rfl
      | throws o e => rfl
      | ok o u => rfl

theorem aware_grow_if_full_plain {T : Type} (E : Element T) (sys : SystemHeap)
    (a : DynamicArray) (w : World T) :
    Aware.grow_if_full E.to_aware sys a w = a.grow_if_full E sys w := by
  unfold Aware.grow_if_full DynamicArray.grow_if_full
  rw [aware_reserve_plain]

theorem aware_construct_at_end_plain {T : Type} (E : Element T) (sys : SystemHeap)
    (a : DynamicArray) (w : World T) (v : T) :
    Aware.construct_at_end a w (fun mr => E.to_aware.copy_ctor sys mr v) =
      a.construct_at_end w (E.copy_ctor v) := by
  unfold Aware.construct_at_end DynamicArray.construct_at_end
  by_cases hlt : a.size_ < a.capacity_
  · simp only [hlt, if_true]
    cases hc : E.copy_ctor v with
    | none => simp only [Element.to_aware, hc]
    | some y => simp only [Element.to_aware, hc]
  · simp only [hlt, if_false]

theorem aware_push_back_plain {T : Type} (E : Element T) (sys : SystemHeap)
    (a : DynamicArray) (w : World T) (v : T) :
    Aware.push_back E.to_aware sys a w v = a.push_back E sys w v := by
  unfold Aware.push_back DynamicArray.push_back
  rw [aware_grow_if_full_plain]
  cases a.grow_if_full E sys w with
  | undefined => rfl
  | throws s e => rfl
  | ok s u =>
    obtain ⟨w1, a1⟩ := s
    exact aware_construct_at_end_plain E sys a1 w1 v

theorem aware_push_back_all_plain {T : Type} (E : Element T) (sys : SystemHeap)
    (vs : List T) :
    ∀ (a : DynamicArray) (w : World T),
      Aware.push_back_all E.to_aware sys a w vs = a.push_back_all E sys w vs := by
  induction vs with
  | nil => intro a w; rfl
  | cons v vs ih =>
    intro a w
    unfold Aware.push_back_all DynamicArray.push_back_all
    rw [aware_push_back_plain]
    cases a.push_back E sys w v with
    | undefined => rfl
    | throws s e => rfl
    | ok s u =>
      obtain ⟨w1, a1⟩ := s
      exact ih a1 w1

theorem aware_destroy_objects {T : Type} (E : Aware.Element T) (data_ i : Nat) (w : World T) :
    (Aware.destroy E data_ i w).objects = w.objects.destroy data_ i := rfl

theorem aware_destroy_mr {T : Type} (E : Aware.Element T) (data_ i : Nat) (w : World T)
    (x : T) (hx : w.objects data_ i = some x) :
    (Aware.destroy E data_ i w).mr = E.dtor w.mr x := by
  simp only [Aware.destroy, hx]

theorem aware_destroy_quiet {T : Type} (E : Aware.Element T) (hq : ∀ mr x, E.dtor mr x = mr)
    (data_ i : Nat) (w : World T) : (Aware.destroy E data_ i w).mr = w.mr := by
  unfold Aware.destroy
  cases w.objects data_ i with
  | none => rfl
  | some x => exact hq _ _

theorem aware_pop_back_frame {T : Type} (E : Aware.Element T) (a : DynamicArray)
    (w : World T) :
    (Aware.pop_back E a w).2 = (a.pop_back w).2 ∧
    (Aware.pop_back E a w).1.objects = (a.pop_back w).1.objects := by
  unfold Aware.pop_back DynamicArray.pop_back
  split <;> exact ⟨rfl, rfl⟩

theorem aware_pop_back_plain {T : Type} (E : Element T) (a : DynamicArray) (w : World T) :
    Aware.pop_back E.to_aware a w = a.pop_back w := by
  unfold Aware.pop_back DynamicArray.pop_back Aware.destroy
  split
  · cases w.objects a.data_ (a.size_ - 1) <;> rfl
  · rfl

theorem aware_destroy_elements_objects {T : Type} (E : Aware.Element T) (data_ count : Nat) :
    ∀ (i : Nat) (w : World T),
      (Aware.destroy_elements E data_ count i w).objects =
        DynamicArray.destroy_elements data_ count i w.objects := by
  induction count with
  | zero => intro i w; rfl
  | succ n ih =>
    intro i w
    unfold Aware.destroy_elements DynamicArray.destroy_elements
    rw [ih]
    rfl

theorem aware_destroy_elements_mr {T : Type} (E : Aware.Element T) (data_ : Nat)
    (xs : List T) :
    ∀ (i : Nat) (w : World T), (∀ j, j < xs.length → w.objects data_ (i + j) = xs[j]?) →
      (Aware.destroy_elements E data_ xs.length i w).mr = xs.foldl E.dtor w.mr := by
  induction xs with
  | nil => intro i w _; rfl
  | cons x xs ih =>
    intro i w h
    have h0 : w.objects data_ i = some x := by
      have := h 0 (by simp)
      simpa using this
    simp only [List.length_cons, Aware.destroy_elements, List.foldl_cons]
    rw [ih (i + 1) (Aware.destroy E data_ i w), aware_destroy_mr E data_ i w x h0]
    intro j hj
    have := h (j + 1) (by simp; omega)
    rw [aware_destroy_objects]
    simp only [Objects.destroy]
    rw [if_neg (by omega)]
    rw [show i + 1 + j = i + (j + 1) by omega, this]
    simp

theorem aware_destroy_elements_quiet {T : Type} (E : Aware.Element T)
    (hq : ∀ mr x, E.dtor mr x = mr) (data_ count : Nat) :
    ∀ (i : Nat) (w : World T), (Aware.destroy_elements E data_ count i w).mr = w.mr := by
  induction count with
  | zero => intro i w; rfl
  | succ n ih =>
    intro i w
    unfold Aware.destroy_elements
    rw [ih, aware_destroy_quiet E hq]

theorem aware_clear_plain {T : Type} (E : Element T) (a : DynamicArray) (w : World T) :
    Aware.clear E.to_aware a w = a.clear w := by
  unfold Aware.clear DynamicArray.clear
  have h1 := aware_destroy_elements_objects E.to_aware a.data_ a.size_ 0 w
  have h2 := aware_destroy_elements_quiet E.to_aware (fun _ _ => rfl) a.data_ a.size_ 0 w
  cases hd : Aware.destroy_elements E.to_aware a.data_ a.size_ 0 w with
  | mk mr objs =>
    rw [hd] at h1 h2
    simp only at h1 h2
    subst h1 h2
    rfl

theorem page_heap_fresh : page_heap.Fresh := by
  intro mr bytes alignment
  rw [page_heap, heap_fresh_some_iff]
  refine ⟨by omega, fun h => ?_⟩
  have := mem_le_sum _ _ h
  omega

theorem page_heap_unlimited : page_heap.Unlimited := by
  intro mr bytes alignment
  simp [page_heap]

/-! ## DynamicArray: pop_back and clear with the element destructors -/

/-- C17. `pop_back()` on an array with elements `xs`, length `n`, for any
element type, allocator-aware or not: on an empty array the call, which cannot
fail, returns the array and the world, allocator included, unchanged, any
number of times; for `n > 0` it leaves the first `n - 1` elements of `xs` in
place with length `n - 1`, and the allocator is left as the destructor of the
removed element, the last of `xs`, leaves it: the array makes no allocator call
of its own. In both cases the capacity and the storage are unchanged, and the
allocator is unchanged for an element type whose destructor leaves the
allocator alone. -/
theorem pop_back_spec {T : Type} (E : Aware.Element T) (a : DynamicArray) (w : World T)
    (xs : List T) (hxs : a.elements w = xs.map some) :
    (a.size_ = 0 → Aware.pop_back E a w = (w, a) ∧
      ∀ k : Nat,
        (fun s : World T × DynamicArray => Aware.pop_back E s.2 s.1)^[k] (w, a) = (w, a)) ∧
    (0 < a.size_ → (Aware.pop_back E a w).2.size_ = a.size_ - 1 ∧
      (Aware.pop_back E a w).2.elements (Aware.pop_back E a w).1 = xs.dropLast.map some ∧
      ∃ x, xs.getLast? = some x ∧ (Aware.pop_back E a w).1.mr = E.dtor w.mr x) ∧
    (Aware.pop_back E a w).2.capacity_ = a.capacity_ ∧
    (Aware.pop_back E a w).2.data_ = a.data_ ∧
    ((∀ mr x, E.dtor mr x = mr) → (Aware.pop_back E a w).1.mr = w.mr) := by
  have hlen := elements_length a w xs hxs
  have hp := plain_pop_back_spec a w xs hxs
  obtain ⟨hf2, hfo⟩ := aware_pop_back_frame E a w
  refine ⟨?_, ?_, ?_, ?_, ?_⟩
  · intro h0
    have hpop : Aware.pop_back E a w = (w, a) := by
      simp [Aware.pop_back, h0]
    refine ⟨hpop, fun k => ?_⟩
    induction k with
    | zero => rfl
    | succ n ih =>
      rw [Function.iterate_succ_apply']
      rw [ih]
      exact hpop
  · intro hpos
    refine ⟨?_, ?_, ?_⟩
    · rw [hf2]; exact (hp.2.1 hpos).1
    · have := (hp.2.1 hpos).2
      unfold DynamicArray.elements at this ⊢
      rw [hf2, hfo]
      exact this
    · have hobj := objects_of_elements a w xs hxs (a.size_ - 1) (by omega)
      have hlt : a.size_ - 1 < xs.length := by omega
      rw [List.getElem?_eq_getElem hlt] at hobj
      refine ⟨xs[a.size_ - 1], ?_, ?_⟩
      · rw [List.getLast?_eq_getElem?, hlen, List.getElem?_eq_getElem hlt]
      · have hpop : Aware.pop_back E a w =
            (Aware.destroy E a.data_ (a.size_ - 1) w, { a with size_ := a.size_ - 1 }) := by
          simp [Aware.pop_back, hpos]
        rw [hpop]
        exact aware_destroy_mr E a.data_ (a.size_ - 1) w _ hobj
  · rw [hf2]; exact hp.2.2.1
  · rw [hf2]; exact hp.2.2.2.1
  · intro hq
    unfold Aware.pop_back
    split
    · exact aware_destroy_quiet E hq _ _ w
    · rfl

/-- C18. `clear()` on an array with elements `xs`, for any element type,
allocator-aware or not: afterwards `size() == 0` and `empty()` holds, no slot of
the storage below the old length holds an object, `capacity()` and the storage
are what they were, and the allocator is left as the destructors of the
elements, run in index order, leave it: the array makes no allocator call of its
own. For an element type whose destructor leaves the allocator alone the
allocator is unchanged, so a block in use, the array's among them, stays in
use. A second `clear()` changes nothing. -/
theorem clear_spec {T : Type} (E : Aware.Element T) (a : DynamicArray) (w : World T)
    (xs : List T) (hxs : a.elements w = xs.map some) :
    (Aware.clear E a w).2.size = 0 ∧ (Aware.clear E a w).2.empty = true ∧
    (∀ j, j < a.size_ → (Aware.clear E a w).1.objects a.data_ j = none) ∧
    (Aware.clear E a w).2.capacity = a.capacity ∧
    (Aware.clear E a w).2.data_ = a.data_ ∧
    (Aware.clear E a w).1.mr = xs.foldl E.dtor w.mr ∧
    ((∀ mr x, E.dtor mr x = mr) →
      (Aware.clear E a w).1.mr = w.mr ∧
      (in_use_at w.mr a.data_ → in_use_at (Aware.clear E a w).1.mr a.data_)) ∧
    Aware.clear E (Aware.clear E a w).2 (Aware.clear E a w).1 = Aware.clear E a w := by
  have hlen := elements_length a w xs hxs
  refine ⟨rfl, rfl, ?_, rfl, rfl, ?_, ?_, rfl⟩
  · intro j hj
    show (Aware.destroy_elements E a.data_ a.size_ 0 w).objects a.data_ j = none
    rw [aware_destroy_elements_objects, destroy_elements_apply]
    simp [hj]
  · show (Aware.destroy_elements E a.data_ a.size_ 0 w).mr = _
    rw [← hlen]
    apply aware_destroy_elements_mr
    intro j hj
    rw [Nat.zero_add]
    exact objects_of_elements a w xs hxs j (by omega)
  · intro hq
    have hmr : (Aware.clear E a w).1.mr = w.mr :=
      aware_destroy_elements_quiet E hq a.data_ a.size_ 0 w
    exact ⟨hmr, fun h => by rw [hmr]; exact h⟩

/-- Witness for C17: `pop_back()` on the array of three strings of 40
characters, whose last element keeps its characters in the buffer at 131072,
and on the array `[10, 20]` of `int`. -/
theorem pop_back_spec_witness :
    three_strings = .ok string_state () ∧
    string_state.2.elements string_state.1 =
      [({ buffer := 8192, length := 40 } : PmrString), { buffer := 32768, length := 40 },
        { buffer := 131072, length := 40 }].map some ∧
    (Aware.pop_back pmr_string string_state.2 string_state.1).2.size_ = 2 ∧
    (Aware.pop_back pmr_string string_state.2 string_state.1).2.elements
        (Aware.pop_back pmr_string string_state.2 string_state.1).1 =
      [({ buffer := 8192, length := 40 } : PmrString), { buffer := 32768, length := 40 }].map
        some ∧
    (Aware.pop_back pmr_string string_state.2 string_state.1).1.mr =
      string_state.1.mr.do_deallocate 131072 41 1 ∧
    (Aware.pop_back int_element.to_aware two_int_array two_int_world).1.mr = two_int_world.mr :=
  have hxs : string_state.2.elements string_state.1 =
      [({ buffer := 8192, length := 40 } : PmrString), { buffer := 32768, length := 40 },
        { buffer := 131072, length := 40 }].map some := rfl
  have h := pop_back_spec pmr_string string_state.2 string_state.1 _ hxs
  have hint : two_int_array.elements two_int_world = [(10 : Int), 20].map some := rfl
  ⟨rfl, hxs, (h.2.1 (by decide)).1, (h.2.1 (by decide)).2.1,
    (h.2.1 (by decide)).2.2.elim fun x hx => by
      have hx1 : x = { buffer := 131072, length := 40 } := by
        have := hx.1
        simpa using this.symm
      rw [hx.2, hx1]
      rfl,
    (pop_back_spec int_element.to_aware two_int_array two_int_world _ hint).2.2.2.2
      (fun _ _ => rfl)⟩

/-- Counterexample to C17 as stated: three strings of 40 characters pushed onto
a new array on a newly constructed allocator leave 4 blocks in use, 2 free and
120 bytes counted as deallocated; `pop_back()` then runs the destructor of the
last string, which hands its buffer of 41 bytes back to the allocator: 3 blocks
in use, 3 free, 161 bytes deallocated. The allocator state is not what it was
before the call. -/
theorem pop_back_changes_allocator :
    three_strings = .ok string_state () ∧ string_state.2.size_ = 3 ∧
    string_state.1.mr.get_allocated_blocks_count = 4 ∧
    string_state.1.mr.get_free_blocks_count = 2 ∧
    string_state.1.mr.get_total_deallocated_bytes = 120 ∧
    (Aware.pop_back pmr_string string_state.2 string_state.1).1.mr.get_allocated_blocks_count
      = 3 ∧
    (Aware.pop_back pmr_string string_state.2 string_state.1).1.mr.get_free_blocks_count = 3 ∧
    (Aware.pop_back pmr_string string_state.2 string_state.1).1.mr.get_total_deallocated_bytes
      = 161 ∧
    ¬ ((Aware.pop_back pmr_string string_state.2 string_state.1).1.mr = string_state.1.mr) :=
  ⟨rfl, rfl, rfl, rfl, rfl, rfl, rfl, rfl,
    fun h => absurd (congrArg CustomMemoryResource.get_total_deallocated_bytes h) (by decide)⟩

/-- Witness for C18: `clear()` on the array of three strings of 40 characters
and on the array `[10, 20]` of `int`. -/
theorem clear_spec_witness :
    string_state.2.elements string_state.1 =
      [({ buffer := 8192, length := 40 } : PmrString), { buffer := 32768, length := 40 },
        { buffer := 131072, length := 40 }].map some ∧
    (Aware.clear pmr_string string_state.2 string_state.1).2.size = 0 ∧
    (Aware.clear pmr_string string_state.2 string_state.1).2.capacity = 4 ∧
    (Aware.clear pmr_string string_state.2 string_state.1).1.mr =
      ((string_state.1.mr.do_deallocate 8192 41 1).do_deallocate 32768 41 1).do_deallocate
        131072 41 1 ∧
    (Aware.clear int_element.to_aware two_int_array two_int_world).1.mr = two_int_world.mr ∧
    in_use_at (Aware.clear int_element.to_aware two_int_array two_int_world).1.mr 16 :=
  have hxs : string_state.2.elements string_state.1 =
      [({ buffer := 8192, length := 40 } : PmrString), { buffer := 32768, length := 40 },
        { buffer := 131072, length := 40 }].map some := rfl
  have h := clear_spec pmr_string string_state.2 string_state.1 _ hxs
  have hint : two_int_array.elements two_int_world = [(10 : Int), 20].map some := rfl
  have h2 := (clear_spec int_element.to_aware two_int_array two_int_world _ hint).2.2.2.2.2.2.1
    (fun _ _ => rfl)
  ⟨hxs, h.1, h.2.2.2.1, h.2.2.2.2.2.1.trans rfl, h2.1,
    h2.2 (two_int_array_valid.2.2.2.2.1 (by decide))⟩

/-- Counterexample to C18 as stated: on the array of three strings of 40
characters, with 4 blocks in use and 120 bytes counted as deallocated, `clear()`
runs the three destructors, each of which hands a buffer of 41 bytes back to the
allocator: one block, the array's, stays in use and 243 bytes are counted as
deallocated. Three `deallocate` calls were made and the allocator state is not
what it was before the call. -/
theorem clear_changes_allocator :
    three_strings = .ok string_state () ∧ string_state.2.size_ = 3 ∧
    string_state.1.mr.get_allocated_blocks_count = 4 ∧
    string_state.1.mr.get_total_deallocated_bytes = 120 ∧
    (Aware.clear pmr_string string_state.2 string_state.1).1.mr.get_allocated_blocks_count
      = 1 ∧
    (Aware.clear pmr_string string_state.2 string_state.1).1.mr.get_total_deallocated_bytes
      = 243 ∧
    in_use_at (Aware.clear pmr_string string_state.2 string_state.1).1.mr string_state.2.data_ ∧
    ¬ ((Aware.clear pmr_string string_state.2 string_state.1).1.mr = string_state.1.mr) :=
  ⟨rfl, rfl, rfl, rfl, rfl, rfl,
    ⟨{ ptr := 65536, size := 160, alignment := 8, free := false }, by decide, rfl, rfl⟩,
    fun h => absurd (congrArg CustomMemoryResource.get_total_deallocated_bytes h) (by decide)⟩

/-! ## Appends and the registry, by element type -/

/-- C23. An array of an element type that leaves the allocator alone holds
exactly one in-use block: in every reachable state of the allocator, with `k`
blocks in use, constructing an empty array on it and calling `push_back`
`n >= 1` times gives, whenever the calls all return,
`get_allocated_blocks_count() == k + 1`, which is more than before, however
many reallocations took place; the block in use is the array's storage. The
calls do return for an element type with value semantics when the heap supplies
memory and `2 * n * sizeof(T)` fits `size_t`. -/
theorem array_holds_one_block {T : Type} (E : Element T) (sys : SystemHeap)
    (hfresh : sys.Fresh) (w : World T) (hr : Reachable w.mr) (vs : List T)
    (hn : 1 ≤ vs.length) :
    (∀ w' a', Aware.push_back_all E.to_aware sys DynamicArray.new w vs = .ok (w', a') () →
      w'.mr.get_allocated_blocks_count = w.mr.get_allocated_blocks_count + 1 ∧
      w'.mr.get_allocated_blocks_count > w.mr.get_allocated_blocks_count ∧
      in_use_at w'.mr a'.data_) ∧
    (E.ValueType → sys.Unlimited → 2 * vs.length * E.sizeof ≤ SIZE_MAX →
      ∃ w' a', Aware.push_back_all E.to_aware sys DynamicArray.new w vs = .ok (w', a') ()) := by
  have hw := wellFormed_of_reachable w.mr hr
  rw [aware_push_back_all_plain]
  constructor
  · intro w' a' h
    rcases one_block_track E sys hfresh w hw vs w' a' h with ⟨h0, _⟩ | ⟨_, hin, hk⟩
    · omega
    · exact ⟨hk, by omega, hin⟩
  · intro hE hun hfit
    refine push_back_all_returns E hE sys hfresh hun vs DynamicArray.new w []
      (valid_new w hw) rfl ?_
    simpa [DynamicArray.new] using hfit

/-- Witness for C23: 10 appends onto a new `int` array on a newly constructed
allocator leave one block in use. -/
theorem array_holds_one_block_witness :
    bump_heap.Fresh ∧ Reachable (World.initial Int).mr ∧
    1 ≤ ((List.range 10).map Int.ofNat).length ∧
    (World.initial Int).mr.get_allocated_blocks_count = 0 ∧
    ∃ w' a', Aware.push_back_all int_element.to_aware bump_heap DynamicArray.new
        (World.initial Int) ((List.range 10).map Int.ofNat) = .ok (w', a') () ∧
      w'.mr.get_allocated_blocks_count = 1 :=
  have hn : 1 ≤ ((List.range 10).map Int.ofNat).length := by decide
  have h := array_holds_one_block int_element bump_heap bump_heap_fresh (World.initial Int)
    reachable_init ((List.range 10).map Int.ofNat) hn
  ⟨bump_heap_fresh, reachable_init, hn, rfl,
    (h.2 int_element_valueType bump_heap_unlimited (by decide)).elim fun w' hw' =>
      hw'.elim fun a' ha' => ⟨w', a', ha', (h.1 w' a' ha').1⟩⟩

/-- Counterexample to C23 as stated: on a newly constructed allocator, where no
block is in use, three calls `push_back` of a string of 40 characters onto a new
array return and leave 4 blocks in use, not 1: the array's storage and the
buffers of the three strings, which the strings took from the same allocator
when they were built in place. -/
theorem string_array_holds_four_blocks :
    page_heap.Fresh ∧ Reachable (World.initial PmrString).mr ∧
    (World.initial PmrString).mr.get_allocated_blocks_count = 0 ∧
    Aware.push_back_all pmr_string page_heap DynamicArray.new (World.initial PmrString)
      [long_string, long_string, long_string] = .ok string_state () ∧
    string_state.2.size_ = 3 ∧
    string_state.1.mr.get_allocated_blocks_count = 4 ∧
    in_use_at string_state.1.mr string_state.2.data_ ∧
    in_use_at string_state.1.mr 8192 ∧ in_use_at string_state.1.mr 32768 ∧
    in_use_at string_state.1.mr 131072 ∧
    ¬ (string_state.1.mr.get_allocated_blocks_count =
        (World.initial PmrString).mr.get_allocated_blocks_count + 1) :=
  ⟨page_heap_fresh, reachable_init, rfl, rfl, rfl, rfl,
    ⟨{ ptr := 65536, size := 160, alignment := 8, free := false }, by decide, rfl, rfl⟩,
    ⟨{ ptr := 8192, size := 41, alignment := 1, free := false }, by decide, rfl, rfl⟩,
    ⟨{ ptr := 32768, size := 41, alignment := 1, free := false }, by decide, rfl, rfl⟩,
    ⟨{ ptr := 131072, size := 41, alignment := 1, free := false }, by decide, rfl, rfl⟩,
    by decide⟩

/-- C28. Doubling growth never reuses a freed block, for an element type that
leaves the allocator alone: on an allocator that is newly constructed and used
by nothing else, with a heap that never hands out null or a tracked address,
whenever the `n >= 1` calls of `push_back` on a new array all return, every
growth acquired a fresh region, so the registry holds exactly
`g = ⌈log2 n⌉ + 1` blocks, of the sizes `s * 1, s * 2, ..., s * 2^(g-1)` in that
order with `s = sizeof(T) >= 1`, all with the alignment of `T`, all free except
the last one, which is the array's storage, and `get_total_allocated_bytes()` is
`s * (2^g - 1)` as a `size_t` value: that number modulo `2^64`, and exactly that
number whenever it fits `size_t`. The calls do return for an element type with
value semantics when the heap supplies memory and `2 * n * sizeof(T)` fits
`size_t`. -/
theorem doubling_never_reuses {T : Type} (E : Element T) (sys : SystemHeap)
    (hfresh : sys.Fresh) (w : World T) (hmr : w.mr = {}) (vs : List T)
    (hn : 1 ≤ vs.length) :
    (∀ w' a', Aware.push_back_all E.to_aware sys DynamicArray.new w vs = .ok (w', a') () →
      w'.mr.allocated_blocks_.length = Nat.clog 2 vs.length + 1 ∧
      w'.mr.allocated_blocks_.map (fun block => block.size) =
        (List.range (Nat.clog 2 vs.length + 1)).map (fun j => E.sizeof * 2 ^ j) ∧
      w'.mr.allocated_blocks_.map (fun block => block.alignment) =
        (List.range (Nat.clog 2 vs.length + 1)).map (fun _ => E.alignof) ∧
      w'.mr.allocated_blocks_.map (fun block => block.free) =
        (List.range (Nat.clog 2 vs.length + 1)).map
          (fun j => decide (j < Nat.clog 2 vs.length)) ∧
      (w'.mr.allocated_blocks_.map (fun block => block.ptr))[Nat.clog 2 vs.length]? =
        some a'.data_ ∧
      w'.mr.get_total_allocated_bytes =
        (E.sizeof * (2 ^ (Nat.clog 2 vs.length + 1) - 1)) % SIZE_MOD ∧
      (E.sizeof * (2 ^ (Nat.clog 2 vs.length + 1) - 1) ≤ SIZE_MAX →
        w'.mr.get_total_allocated_bytes =
          E.sizeof * (2 ^ (Nat.clog 2 vs.length + 1) - 1))) ∧
    (E.ValueType → sys.Unlimited → 2 * vs.length * E.sizeof ≤ SIZE_MAX →
      ∃ w' a', Aware.push_back_all E.to_aware sys DynamicArray.new w vs = .ok (w', a') ()) := by
  rw [aware_push_back_all_plain]
  constructor
  · intro w' a' h
    rcases doubling_track E sys hfresh w hmr vs w' a' h with h0 | ⟨k, hk⟩
    · omega
    · obtain ⟨hcap, hlen, hblocks, ⟨bk, hbk, hbkp⟩, htot⟩ := hk
      obtain ⟨_, _, _, hshape⟩ := capacity_track E sys vs w w' a' h
      have hclog : Nat.clog 2 vs.length = k := by
        rcases hshape with ⟨h0, _⟩ | ⟨k1, hk1, hle, hlt⟩
        · omega
        · rw [← hk1, hcap] at hle hlt
          exact clog_of_bounds _ _ hle hlt
      rw [hclog]
      have htot1 : w'.mr.get_total_allocated_bytes =
          (E.sizeof * (2 ^ (k + 1) - 1)) % SIZE_MOD := by
        show w'.mr.total_allocated_bytes_ = _
        rw [htot, Nat.mul_comm]
      refine ⟨hlen, ?_, ?_, ?_, ?_, htot1, ?_⟩
      · apply map_eq_range_of_pointwise _ _ _ _ hlen
        intro j hj
        obtain ⟨b, hb, hs, _, _⟩ := hblocks j (by omega)
        exact ⟨b, hb, by rw [hs, Nat.mul_comm]⟩
      · apply map_eq_range_of_pointwise _ _ _ _ hlen
        intro j hj
        obtain ⟨b, hb, _, ha, _⟩ := hblocks j (by omega)
        exact ⟨b, hb, ha⟩
      · apply map_eq_range_of_pointwise _ _ _ _ hlen
        intro j hj
        obtain ⟨b, hb, _, _, hf⟩ := hblocks j (by omega)
        exact ⟨b, hb, hf⟩
      · rw [List.getElem?_map, hbk]
        simp [hbkp]
      · intro hfit
        rw [htot1]
        exact Nat.mod_eq_of_lt (lt_of_le_of_lt hfit (by decide))
  · intro hE hun hfit
    refine push_back_all_returns E hE sys hfresh hun vs DynamicArray.new w []
      (valid_new w (by rw [hmr]; exact inv_init.1)) rfl ?_
    simpa [DynamicArray.new] using hfit

/-- Witness for C28: 10 appends onto a new `int` array on a newly constructed
allocator leave blocks of 4, 8, 16, 32 and 64 bytes, the last one in use, and
124 bytes counted as allocated. -/
theorem doubling_never_reuses_witness :
    bump_heap.Fresh ∧ (World.initial Int).mr = {} ∧
    1 ≤ (List.replicate 10 (0 : Int)).length ∧
    ∃ w' a', Aware.push_back_all int_element.to_aware bump_heap DynamicArray.new
        (World.initial Int) (List.replicate 10 0) = .ok (w', a') () ∧
      w'.mr.allocated_blocks_.map (fun block => block.size) = [4, 8, 16, 32, 64] ∧
      w'.mr.allocated_blocks_.map (fun block => block.free) =
        [true, true, true, true, false] ∧
      w'.mr.get_total_allocated_bytes = 124 :=
  have hn : 1 ≤ (List.replicate 10 (0 : Int)).length := by decide
  have hc : Nat.clog 2 (List.replicate 10 (0 : Int)).length = 4 := by simp [Nat.clog]
  have h := doubling_never_reuses int_element bump_heap bump_heap_fresh (World.initial Int)
    rfl (List.replicate 10 0) hn
  ⟨bump_heap_fresh, rfl, hn,
    (h.2 int_element_valueType bump_heap_unlimited (by decide)).elim fun w' hw' =>
      hw'.elim fun a' ha' =>
        ⟨w', a', ha', by
          have h2 := (h.1 w' a' ha').2.1
          rw [hc] at h2
          rw [h2]
          decide, by
          have h4 := (h.1 w' a' ha').2.2.2.1
          rw [hc] at h4
          rw [h4]
          decide, by
          have h7 := (h.1 w' a' ha').2.2.2.2.2.2
          rw [hc] at h7
          exact h7 (by decide)⟩⟩

/-- Counterexample to C28 as stated: for strings of 40 characters, an element
type of 40 bytes, three calls `push_back` onto a new array on a newly
constructed allocator used by nothing else return and leave 6 tracked blocks,
not `⌈log2 3⌉ + 1 = 3`: the array's blocks of 40, 80 and 160 bytes alternate
with the three string buffers of 41 bytes, four blocks are in use, not only the
last one, and 403 bytes are counted as allocated, not `40 * (2^3 - 1) = 280`. -/
theorem string_array_registry :
    page_heap.Fresh ∧ (World.initial PmrString).mr = {} ∧
    Aware.push_back_all pmr_string page_heap DynamicArray.new (World.initial PmrString)
      [long_string, long_string, long_string] = .ok string_state () ∧
    pmr_string.sizeof = 40 ∧ Nat.clog 2 [long_string, long_string, long_string].length + 1 = 3 ∧
    string_state.1.mr.allocated_blocks_.map (fun block => block.size) =
      [40, 41, 80, 41, 160, 41] ∧
    string_state.1.mr.allocated_blocks_.map (fun block => block.free) =
      [true, false, true, false, false, false] ∧
    string_state.1.mr.get_total_allocated_bytes = 403 ∧
    ¬ (string_state.1.mr.allocated_blocks_.length = 3) ∧
    ¬ (string_state.1.mr.allocated_blocks_.map (fun block => block.size) =
        (List.range 3).map (fun j => pmr_string.sizeof * 2 ^ j)) ∧
    ¬ (string_state.1.mr.get_total_allocated_bytes = pmr_string.sizeof * (2 ^ 3 - 1)) :=
  ⟨page_heap_fresh, rfl, rfl, rfl, by simp [Nat.clog], rfl, rfl, rfl, by decide, by decide,
    by decide⟩

end Lab5
